import Mathlib

/-!
# Flux release planner, image map and job queue: a verification development

Shallow embedding of the release verification step (release/releaser.go),
the release driver, the automated change set (update/automated.go), the image
map (release/images.go), the job queue contract, image polling and the daemon
loop (daemon/images.go, daemon/loop.go), the automator (automator/automator.go),
the cluster sync (sync/sync.go), the policy annotations
(cluster/kubernetes/resource/resource.go) and the policy command
(cmd/fluxctl/policy_cmd.go).

Modelling conventions.

* Go maps are association lists. A Go map has one entry per key; theorems that
  need this carry it as the hypothesis `WellFormed`. Iteration over a map
  visits the entries in list order, which is one of the orders Go may choose.
* Resource ids (`ResourceID.String()`) are strings.
* A Go `error` result is an `Option`: `none` is `nil`.
* A map holds its resources by reference, so a mutation of a looked-up
  workload is a replacement of the entry's value (`mapSet`). The `before` and
  `after` maps come from two separate loads and share no resource.
* Loggers, timers and metrics have no part in any result and are left out.
* The job store is not among the sources; the queue is modelled from its
  contract. Times are integers, the clock reading is an argument of each call,
  and job ids are numbers handed out in order.
-/

namespace Flux

/-! ## Data model -/

deriving instance DecidableEq for Except

/-- Image reference: registry host, repository path and tag. -/
structure ImageRef where
  host : String
  repository : String
  tag : String
deriving DecidableEq, Repr

/-- Container of a workload: a name and the current image reference. -/
structure Container where
  name : String
  image : ImageRef
deriving DecidableEq, Repr

/-- Manifest resource as `VerifyChanges` sees it: either a workload, which
answers `Containers()`, or any other resource. -/
inductive Resource where
  | workload (containers : List Container)
  | other
deriving DecidableEq, Repr

/-- The map `map[string]resource.Resource` returned by `LoadManifests`. -/
abbrev ResourceMap := List (String × Resource)

/-- Keys of a map. -/
def keys (m : ResourceMap) : List String := m.map Prod.fst

/-- A Go map has at most one entry per key. -/
def WellFormed (m : ResourceMap) : Prop := (keys m).Nodup

instance (m : ResourceMap) : Decidable (WellFormed m) := by
  unfold WellFormed; infer_instance

/-- Map lookup `m[id]`, with the comma-ok result as an option. -/
def mapGet : ResourceMap → String → Option Resource
  | [], _ => none
  | (k, r) :: m, id => if k = id then some r else mapGet m id

/-- The builtin `delete(m, id)`. -/
def mapDelete (m : ResourceMap) (id : String) : ResourceMap :=
  m.filter (fun e => decide (e.1 ≠ id))

/-- In-place mutation of the resource stored under `id`: the entry keeps its
place and its key, the value is replaced. -/
def mapSet : ResourceMap → String → Resource → ResourceMap
  | [], _, _ => []
  | (k, r) :: m, id, v => if k = id then (k, v) :: m else (k, r) :: mapSet m id v

/-- One planned container change `(container, current, target)`. -/
structure ContainerUpdate where
  container : String
  current : ImageRef
  target : ImageRef
deriving DecidableEq, Repr

/-- A planned update of one workload, `update.ControllerUpdate`: the id of the
resource and its per-container changes. -/
structure ControllerUpdate where
  resourceID : String
  updates : List ContainerUpdate
deriving DecidableEq, Repr

/-- Modelled from the spec: the method `SetContainerImage` of the interface
`resource.Workload` is not in the sources. The spec has the planned update
substitute the image reference of the named container, container names being
unique within a workload; order and names are kept. -/
def setContainerImage : List Container → String → ImageRef → List Container
  | [], _, _ => []
  | c :: cs, n, target =>
    if c.name = n then Container.mk c.name target :: cs
    else c :: setContainerImage cs n target

/-! ## VerifyChanges (release/releaser.go) -/

/-- The errors `VerifyChanges` returns, one constructor per `fmt.Errorf`, and
`indexOutOfRange` for the run-time fault of an index expression. -/
inductive VerifyError where
  | updateNotFound (id : String)
  | updateNotWorkload (id : String)
  | isNew (id : String)
  | noLongerWorkload (id : String)
  | differentContainers (id : String)
  | differentName (i : Nat) (id was now : String)
  | wrongImage (container id : String) (should is : ImageRef)
  | disappeared (ids : List String)
  | indexOutOfRange
deriving DecidableEq, Repr

/-- Inner loop of the first phase: `for _, containerUpdate := range
update.Updates { wl.SetContainerImage(...) }`; the method's error result is
dropped by the caller. -/
def applyContainerUpdates (cs : List Container) : List ContainerUpdate → List Container
  | [] => cs
  | cu :: rest => applyContainerUpdates (setContainerImage cs cu.container cu.target) rest

/-- First phase of `VerifyChanges`: apply the updates to `before`. -/
def applyUpdates : ResourceMap → List ControllerUpdate → Except VerifyError ResourceMap
  | before, [] => .ok before
  | before, u :: us =>
    match mapGet before u.resourceID with
    | none => .error (.updateNotFound u.resourceID)
    | some .other => .error (.updateNotWorkload u.resourceID)
    | some (.workload cs) =>
      applyUpdates (mapSet before u.resourceID (.workload (applyContainerUpdates cs u.updates))) us

/-- The loop `for i := range afterContainers` over the indices given. -/
def compareContainers (id : String) (bs as : List Container) : List Nat → Option VerifyError
  | [] => none
  | i :: rest =>
    match bs[i]?, as[i]? with
    | some b, some a =>
      if b.name ≠ a.name then some (.differentName i id b.name a.name)
      else if b.image ≠ a.image then some (.wrongImage b.name id b.image a.image)
      else compareContainers id bs as rest
    | _, _ => some .indexOutOfRange

/-- Second phase of `VerifyChanges`: the loop over the entries of `after`,
deleting from `before` as it goes. Returns what is left of `before`. -/
def verifyAfter : ResourceMap → List (String × Resource) → Except VerifyError ResourceMap
  | before, [] => .ok before
  | before, (id, afterRes) :: rest =>
    match mapGet before id with
    | none => .error (.isNew id)
    | some beforeRes =>
      match beforeRes with
      | .other => verifyAfter (mapDelete before id) rest
      | .workload beforeContainers =>
        match afterRes with
        | .other => .error (.noLongerWorkload id)
        | .workload afterContainers =>
          if beforeContainers.length ≠ afterContainers.length then
            .error (.differentContainers id)
          else
            match compareContainers id beforeContainers afterContainers
                (List.range afterContainers.length) with
            | some e => .error e
            | none => verifyAfter (mapDelete before id) rest

/-- The function `VerifyChanges(before, updates, after)`; `none` is the nil error. -/
def VerifyChanges (before : ResourceMap) (updates : List ControllerUpdate)
    (after : ResourceMap) : Option VerifyError :=
  match applyUpdates before updates with
  | .error e => some e
  | .ok before1 =>
    match verifyAfter before1 after with
    | .error e => some e
    | .ok left =>
      if left.length > 0 then some (.disappeared (keys left)) else none

/-- Spec-side reading of "before with the updates applied": the container list
of the workload `id` once every update that names `id` has had each of its
(container, target) pairs set on it, in order. -/
def expectedContainers (id : String) (cs : List Container) : List ControllerUpdate → List Container
  | [] => cs
  | u :: us =>
    if u.resourceID = id then expectedContainers id (applyContainerUpdates cs u.updates) us
    else expectedContainers id cs us

/-- What the first phase makes of one resource of `before`. -/
def updatedResource (id : String) (us : List ControllerUpdate) : Resource → Resource
  | .workload cs => .workload (expectedContainers id cs us)
  | .other => .other

/-! ## Release and ApplyChanges (release/releaser.go) -/

/-- Errors seen by `Release`: errors of the collaborators, verification errors,
and the wrapper. -/
inductive ReleaseErr where
  | external (msg : String)
  | verify (e : VerifyError)
  | releaseError (e : ReleaseErr)
deriving DecidableEq, Repr

/-- Modelled from the spec: `MakeReleaseError` is not in the sources. The spec
has the planner lift an error through a "release error" wrapper that annotates
the stage. -/
def MakeReleaseError (e : ReleaseErr) : ReleaseErr := .releaseError e

/-- What `Release` calls on its release context and its `Changes` value, over a
working tree of type `Tree` and a result map of type `Res`.
`loadManifests` is `rc.manifests.LoadManifests(rc.repo.Dir(), rc.repo.ManifestDir())`
with its Go result pair; `calculateRelease` is `changes.CalculateRelease(rc, logger)`
with its result triple, and may touch the tree; `writeUpdates` is `rc.WriteUpdates`. -/
structure ReleaseOps (Tree Res : Type) where
  loadManifests : Tree → ResourceMap × Option ReleaseErr
  calculateRelease : Tree → Tree × (List ControllerUpdate × Res × Option ReleaseErr)
  writeUpdates : List ControllerUpdate → Tree → Tree × Option ReleaseErr

/-- The function `ApplyChanges(rc, updates, logger)`: the new tree and the error. -/
def ApplyChanges {Tree Res : Type} (ops : ReleaseOps Tree Res)
    (updates : List ControllerUpdate) (t : Tree) : Tree × Option ReleaseErr :=
  if updates.length = 0 then (t, none)
  else ops.writeUpdates updates t

/-- Outcome of `Release`: the named results `(results, err)` and the tree. -/
structure ReleaseOutcome (Tree Res : Type) where
  results : Option Res
  err : Option ReleaseErr
  tree : Tree

/-- The function `Release(rc, changes, logger)`. The error of the first
`LoadManifests` is overwritten by the next assignment and never looked at. -/
def Release {Tree Res : Type} (ops : ReleaseOps Tree Res) (t : Tree) : ReleaseOutcome Tree Res :=
  let before := (ops.loadManifests t).1
  match ops.calculateRelease t with
  | (t1, _, _, some e) => ReleaseOutcome.mk none (some e) t1
  | (t1, updates, results, none) =>
    let (t2, err) := ApplyChanges ops updates t1
    let err1 : Option ReleaseErr :=
      match err with
      | none =>
        match ops.loadManifests t2 with
        | (after, none) => (VerifyChanges before updates after).map ReleaseErr.verify
        | (_, some e) => some e
      | some e => some e
    ReleaseOutcome.mk (some results) (err1.map MakeReleaseError) t2

/-! ## The automated change set (update/automated.go) -/

/-- Container as the cluster reports it, `cluster.Container`: the image is a string. -/
structure ClusterContainer where
  name : String
  image : String
deriving DecidableEq, Repr

/-- The struct `change`: a planned change of one container of one workload. -/
structure Change where
  service : String
  container : ClusterContainer
  imageID : ImageRef
deriving DecidableEq, Repr

/-- The struct `Automated`. -/
structure Automated where
  changes : List Change
deriving DecidableEq, Repr

/-- A running workload as the planner uses it: its id and what
`ContainersOrError()` returns. -/
structure Service where
  id : String
  containersOrError : Except String (List ClusterContainer)

/-- The struct `ServiceUpdate`: the workload, its running counterpart and the
per-container updates. -/
structure ServiceUpdate where
  serviceID : String
  service : Service
  updates : List ContainerUpdate

/-- Release status of one workload. -/
inductive ReleaseStatus where
  | success
  | failed
  | skipped
  | ignored
deriving DecidableEq, Repr

/-- The struct `ServiceResult`. -/
structure ServiceResult where
  status : ReleaseStatus
  error : String
  perContainer : List ContainerUpdate
deriving DecidableEq, Repr

/-- The map `Result`, workload id to `ServiceResult`. -/
abbrev Result := List (String × ServiceResult)

/-- Lookup `results[id]` with the comma-ok result. -/
def resultGet : Result → String → Option ServiceResult
  | [], _ => none
  | (k, r) :: m, id => if k = id then some r else resultGet m id

/-- Assignment `results[id] = r`. -/
def resultSet : Result → String → ServiceResult → Result
  | [], id, r => [(id, r)]
  | (k, r0) :: m, id, r => if k = id then (k, r) :: m else (k, r0) :: resultSet m id r

/-- Modelled from the spec: the constant `NotInRepo` is not in the sources; the
spec names the reason code `not-in-repo`. -/
def NotInRepo : String := "not-in-repo"

/-- Modelled from the spec: the reason code `not-in-cluster`. -/
def NotInCluster : String := "not-in-cluster"

/-- Modelled from the spec: the reason code `locked`. -/
def Locked : String := "locked"

/-- Modelled from the spec: the constant `DoesNotUseImage` is not in the
sources; the spec names the reason code `does-not-use-image`. -/
def DoesNotUseImage : String := "does-not-use-image"

/-- Policy set of a workload: keys with their values. -/
abbrev PolicySet := List (String × String)

/-- Membership of a policy in a set. -/
def policyContains (ps : PolicySet) (p : String) : Bool := ps.any (fun e => e.1 == p)

/-- The policy `policy.Locked`. -/
def policyLocked : String := "locked"

/-- The policy `policy.Automated`. -/
def policyAutomated : String := "automated"

/-- The two filters `ServiceUpdates` builds. -/
inductive ServiceFilter where
  | includeFilter (ids : List String)
  | lockedFilter (ids : List String)
deriving DecidableEq, Repr

/-- Verdict of a filter on a workload. -/
inductive FilterVerdict where
  | pass
  | drop
  | skip (r : ServiceResult)
deriving DecidableEq, Repr

/-- Modelled from the spec: the filters `IncludeFilter` and `LockedFilter` are
not in the sources. Candidates are filtered through the include list, and a
locked workload is `skipped(locked)`. -/
def ServiceFilter.verdict : ServiceFilter → String → FilterVerdict
  | .includeFilter ids, id => if id ∈ ids then .pass else .drop
  | .lockedFilter ids, id => if id ∈ ids then .skip ⟨.skipped, Locked, []⟩ else .pass

/-- Verdict of a list of filters: the first one that does not pass. -/
def filterVerdict : List ServiceFilter → String → FilterVerdict
  | [], _ => .pass
  | f :: fs, id =>
    match f.verdict id with
    | .pass => filterVerdict fs id
    | v => v

/-- The interface `update.ReleaseContext` as data: what the manifests of the
repository declare (workload id and policy set), and what runs in the cluster.
Either read may fail. -/
structure ReleaseContext where
  manifests : Except String (List (String × PolicySet))
  cluster : Except String (List Service)

/-- Modelled from the spec: `ServicesWithPolicy` is not in the sources. It scans
all loaded manifests and returns the workload ids whose policy set contains `p`. -/
def ReleaseContext.ServicesWithPolicy (rc : ReleaseContext) (p : String) :
    Except String (List String) :=
  match rc.manifests with
  | .error e => .error e
  | .ok ms => .ok ((ms.filter (fun e => policyContains e.2 p)).map Prod.fst)

/-- Part of `SelectServices` over the running workloads: a stub for a workload
that is also declared and passes the filters, a result for the others. -/
def selectRunning (defined : List String) (filters : List ServiceFilter) :
    List Service → Result → List ServiceUpdate × Result
  | [], result => ([], result)
  | s :: rest, result =>
    match filterVerdict filters s.id with
    | .drop => selectRunning defined filters rest result
    | .skip r =>
      if s.id ∈ defined then selectRunning defined filters rest (resultSet result s.id r)
      else selectRunning defined filters rest (resultSet result s.id ⟨.skipped, NotInRepo, []⟩)
    | .pass =>
      if s.id ∈ defined then
        let (us, res) := selectRunning defined filters rest result
        (ServiceUpdate.mk s.id s [] :: us, res)
      else selectRunning defined filters rest (resultSet result s.id ⟨.skipped, NotInRepo, []⟩)

/-- Part of `SelectServices` over the declared workloads that do not run. -/
def selectDefined (running : List String) (filters : List ServiceFilter) :
    List String → Result → Result
  | [], result => result
  | id :: rest, result =>
    if id ∈ running then selectDefined running filters rest result
    else
      match filterVerdict filters id with
      | .drop => selectDefined running filters rest result
      | _ => selectDefined running filters rest (resultSet result id ⟨.skipped, NotInCluster, []⟩)

/-- Modelled from the spec: `SelectServices` is not in the sources. It composes
the workloads declared in the manifests with those running in the cluster,
returns update stubs only for workloads present in both that pass the filters,
and writes `skipped(not-in-repo)`, `skipped(not-in-cluster)` and
`skipped(locked)` into the result for the other partitions. Returns the result
map as left by the call, and the stubs or the error. -/
def ReleaseContext.SelectServices (rc : ReleaseContext) (result : Result)
    (filters : List ServiceFilter) : Result × Except String (List ServiceUpdate) :=
  match rc.manifests, rc.cluster with
  | .error e, _ => (result, .error e)
  | .ok _, .error e => (result, .error e)
  | .ok ms, .ok running =>
    let (stubs, res1) := selectRunning (ms.map Prod.fst) filters running result
    (selectDefined (running.map Service.id) filters (ms.map Prod.fst) res1, .ok stubs)

/-- The method `serviceMap`: the changes grouped by workload. Keys are in order
of first appearance. -/
def Automated.serviceMap (a : Automated) : List (String × List Change) :=
  a.changes.foldl
    (fun set change =>
      if set.any (fun e => e.1 == change.service) then
        set.map (fun e => if e.1 = change.service then (e.1, e.2 ++ [change]) else e)
      else set ++ [(change.service, [change])])
    []

/-- The method `serviceIDs`. -/
def Automated.serviceIDs (a : Automated) : List String :=
  a.serviceMap.map Prod.fst

/-- Lookup `serviceMap[id]`; the nil slice when the key is absent. -/
def changesOf (m : List (String × List Change)) (id : String) : List Change :=
  match m.find? (fun e => e.1 == id) with
  | some e => e.2
  | none => []

/-- The method `filters`. -/
def Automated.filters (a : Automated) (rc : ReleaseContext) : Except String (List ServiceFilter) :=
  match rc.ServicesWithPolicy policyLocked with
  | .error e => .error e
  | .ok lockedSet => .ok [.includeFilter a.serviceIDs, .lockedFilter lockedSet]

/-- The method `markSkipped`. -/
def Automated.markSkipped (a : Automated) (results : Result) : Result :=
  a.serviceIDs.foldl
    (fun res v =>
      match resultGet res v with
      | some _ => res
      | none => resultSet res v ⟨.skipped, NotInRepo, []⟩)
    results

/-- Inner loops of `calculateImageUpdates` for one container: the updates this
container contributes, one per planned change that names it. -/
def containerUpdatesFor (changes : List Change) (container : ClusterContainer)
    (currentImageID : ImageRef) : List ContainerUpdate :=
  (changes.filter (fun change => change.container.name == container.name)).map
    (fun change => ContainerUpdate.mk container.name currentImageID change.imageID)

/-- The loop over the containers of one candidate: the updates collected, or
the parse error that makes `calculateImageUpdates` return. -/
def collectContainerUpdates (parseImageID : String → Except String ImageRef)
    (changes : List Change) :
    List ClusterContainer → List ContainerUpdate → Except String (List ContainerUpdate)
  | [], acc => .ok acc
  | container :: rest, acc =>
    match parseImageID container.image with
    | .error e => .error e
    | .ok currentImageID =>
      collectContainerUpdates parseImageID changes rest
        (acc ++ containerUpdatesFor changes container currentImageID)

/-- The method `calculateImageUpdates`, with the updates found so far. Returns
the result map as left by the call, and the updates or the error.
`parseImageID` is `flux.ParseImageID`, which is not in the sources. -/
def calculateImageUpdatesLoop (parseImageID : String → Except String ImageRef)
    (serviceMap : List (String × List Change)) :
    List ServiceUpdate → List ServiceUpdate → Result → Result × Except String (List ServiceUpdate)
  | [], updates, result => (result, .ok updates)
  | u :: rest, updates, result =>
    match u.service.containersOrError with
    | .error e =>
      calculateImageUpdatesLoop parseImageID serviceMap rest updates
        (resultSet result u.serviceID ⟨.failed, e, []⟩)
    | .ok containers =>
      match collectContainerUpdates parseImageID (changesOf serviceMap u.serviceID) containers [] with
      | .error e => (result, .error e)
      | .ok containerUpdates =>
        if containerUpdates.length > 0 then
          calculateImageUpdatesLoop parseImageID serviceMap rest
            (updates ++ [ServiceUpdate.mk u.serviceID u.service containerUpdates])
            (resultSet result u.serviceID ⟨.success, "", containerUpdates⟩)
        else
          calculateImageUpdatesLoop parseImageID serviceMap rest updates
            (resultSet result u.serviceID ⟨.ignored, DoesNotUseImage, []⟩)

/-- The method `calculateImageUpdates`. -/
def Automated.calculateImageUpdates (parseImageID : String → Except String ImageRef)
    (a : Automated) (candidates : List ServiceUpdate) (result : Result) :
    Result × Except String (List ServiceUpdate) :=
  calculateImageUpdatesLoop parseImageID a.serviceMap candidates [] result

/-- The method `ServiceUpdates`. -/
def Automated.ServiceUpdates (parseImageID : String → Except String ImageRef)
    (a : Automated) (rc : ReleaseContext) : Except String (List ServiceUpdate) :=
  match a.filters rc with
  | .error e => .error e
  | .ok filters =>
    match rc.SelectServices [] filters with
    | (_, .error e) => .error e
    | (result, .ok updates) =>
      (a.calculateImageUpdates parseImageID updates (a.markSkipped result)).2

/-- The method `CalculateRelease` of `Automated`: it returns `nil, nil, nil`. -/
def Automated.CalculateRelease (_a : Automated) (_rc : ReleaseContext) :
    List ServiceUpdate × Option Result × Option String :=
  ([], none, none)

/-! ## The image map (release/images.go) -/

/-- The struct `flux.ImageDescription`: an image reference and its creation time. -/
structure ImageDescription where
  id : ImageRef
  createdAt : Int
deriving DecidableEq, Repr

/-- The type `ImageMap`, repository to images in descending order of recency. -/
abbrev ImageMap := List (String × List ImageDescription)

/-- Lookup `m[repo]`: the nil slice when the repository is unknown. -/
def imagesOf : ImageMap → String → List ImageDescription
  | [], _ => []
  | (k, l) :: m, repo => if k = repo then l else imagesOf m repo

/-- Case folding of one character, to the character `strings.EqualFold` compares
it by when the other string is ASCII: an ASCII capital goes to its small letter,
and the long s (U+017F) and the Kelvin sign (U+212A), the two characters outside
ASCII that Unicode simple folding puts with an ASCII letter, go to `s` and `k`.
Every other character is left as it is. -/
def foldChar (c : Char) : Char :=
  if 65 ≤ c.toNat ∧ c.toNat ≤ 90 then Char.ofNat (c.toNat + 32)
  else if c.toNat = 0x17F then Char.ofNat 115
  else if c.toNat = 0x212A then Char.ofNat 107
  else c

/-- The library function `strings.EqualFold` where one of the two strings is
ASCII, as in its one call in the sources, against `"latest"`: the strings have
the same number of characters and, place by place, characters that simple
folding puts together. -/
def equalFold (s t : String) : Bool :=
  s.data.map foldChar == t.data.map foldChar

/-- The loop of `LatestImage` over the slice `m[repo]`. -/
def latestImageLoop : List ImageDescription → Option ImageDescription
  | [] => none
  | image :: rest =>
    if equalFold image.id.tag "latest" then latestImageLoop rest
    else some image

/-- The method `LatestImage(repo)` of `ImageMap`; `none` is the nil pointer. -/
def ImageMap.LatestImage (m : ImageMap) (repo : String) : Option ImageDescription :=
  latestImageLoop (imagesOf m repo)

/-- Modelled from the spec: the glob matcher is a library function that is not
in the sources. A `*` in the pattern matches any run of characters, every other
character matches itself. -/
def globMatchChars : List Char → List Char → Bool
  | [], s => s.isEmpty
  | p :: ps, s =>
    if p == '*' then s.tails.any (globMatchChars ps)
    else
      match s with
      | [] => false
      | c :: cs => p == c && globMatchChars ps cs

/-- Glob match of a tag against a pattern. -/
def globMatch (pattern tag : String) : Bool := globMatchChars pattern.data tag.data

/-- Spec-side reading of `LatestImage(repo, pattern)`: the first entry of
`m[repo]` whose tag matches the pattern and is not `latest`, compared without
regard to case. -/
def firstReleasable (m : ImageMap) (repo pattern : String) : Option ImageDescription :=
  (imagesOf m repo).find? (fun image =>
    globMatch pattern image.id.tag && !equalFold image.id.tag "latest")

/-! ## The job queue -/

/-- Row of the job queue. Times are integers on one clock; job ids are numbers
handed out in order. -/
structure Job where
  id : Nat
  instanceID : String
  queue : String
  key : String
  method : String
  priority : Int
  scheduledAt : Int
  submittedAt : Int
  claimedAt : Option Int
  heartbeatAt : Option Int
  finishedAt : Option Int
  done : Bool
  success : Bool
  status : String
  log : List String
  params : String
deriving DecidableEq, Repr

/-- What the caller of `PutJob` fills in; `scheduledAt` is `none` when left at
the zero time. -/
structure NewJob where
  queue : String
  key : String
  method : String
  priority : Int
  scheduledAt : Option Int
  params : String
deriving DecidableEq, Repr

/-- Errors of the queue. -/
inductive JobError where
  | alreadyQueued
  | noJobAvailable
  | noSuchJob
deriving DecidableEq, Repr

/-- State of the queue: its rows in order of insertion, the next free id, the
retention window of `GC` and the staleness threshold of the reaper. -/
structure Store where
  rows : List Job
  nextID : Nat
  retention : Int
  staleness : Int
deriving DecidableEq, Repr

/-- The empty queue. -/
def emptyStore (retention staleness : Int) : Store := ⟨[], 0, retention, staleness⟩

/-- A row is finished once its finished-at is set. -/
def Job.finished (j : Job) : Bool := j.finishedAt.isSome

/-- Modelled from the spec: the constant `flux.DefaultQueue`, which the test of
the store names; its declaration is not in the sources. -/
def DefaultQueue : String := "default"

/-- Modelled from the spec: the job store is not in the sources.
`PutJob(instance, job)` returns `AlreadyQueued` and creates no row if a job with
the same `(instance, key)` exists and is not finished; otherwise it creates the
row and returns its id. `scheduled-at` defaults to now. The test of the store
(jobs/db_store_test.go) fixes two points the spec leaves open: a job whose key
is left unset is not deduplicated (two such jobs are put for one instance, the
first still queued, and both calls must succeed), and a job whose queue is left
unset is in the default queue. -/
def PutJob (s : Store) (now : Int) (inst : String) (job : NewJob) : Store × Except JobError Nat :=
  if decide (job.key ≠ "") &&
      s.rows.any (fun r => r.instanceID == inst && r.key == job.key && !r.finished) then
    (s, .error .alreadyQueued)
  else
    let row : Job :=
      Job.mk s.nextID inst (if job.queue = "" then DefaultQueue else job.queue) job.key
        job.method job.priority
        (job.scheduledAt.getD now) now none none none false false "" [] job.params
    (Store.mk (s.rows ++ [row]) (s.nextID + 1) s.retention s.staleness, .ok s.nextID)

/-- A row that `NextJob` may hand out at time `now`: not claimed, not finished,
and scheduled at or before `now`. -/
def eligible (now : Int) (j : Job) : Bool :=
  j.claimedAt.isNone && !j.finished && decide (j.scheduledAt ≤ now)

/-- Order of delivery: `b` goes before `j` when it has the higher priority, or
the same priority and the earlier scheduled-at. -/
def goesBefore (b j : Job) : Bool :=
  decide (b.priority > j.priority) ||
    (decide (b.priority = j.priority) && decide (b.scheduledAt < j.scheduledAt))

/-- The row to deliver among the candidates; among equals the first inserted. -/
def pickJob : List Job → Option Job
  | [] => none
  | j :: rest =>
    match pickJob rest with
    | none => some j
    | some b => if goesBefore b j then some b else some j

/-- Status a row gets when it is claimed. -/
def claimedStatus : String := "Claimed"

/-- Mark a row claimed: claimed-at, the initial status, one more log line. -/
def claim (now : Int) (j : Job) : Job :=
  Job.mk j.id j.instanceID j.queue j.key j.method j.priority j.scheduledAt j.submittedAt
    (some now) j.heartbeatAt j.finishedAt j.done j.success claimedStatus
    (j.log ++ [claimedStatus]) j.params

/-- Replace the rows with the given id by their image under `f`. -/
def updateRow (rows : List Job) (id : Nat) (f : Job → Job) : List Job :=
  rows.map (fun r => if r.id = id then f r else r)

/-- Modelled from the spec: `NextJob` selects the non-finished, unclaimed job
with `scheduled-at ≤ now`, highest priority, then earliest scheduled-at, and
marks it claimed; `NoJobAvailable` when there is none. The spec gives the
`queues` argument no meaning and the tests pass nil; it is left out. -/
def NextJob (s : Store) (now : Int) : Store × Except JobError Job :=
  match pickJob (s.rows.filter (eligible now)) with
  | none => (s, .error .noJobAvailable)
  | some j =>
    (Store.mk (updateRow s.rows j.id (claim now)) s.nextID s.retention s.staleness,
      .ok (claim now j))

/-- Modelled from the spec: `GetJob(instance, id)` is read-only and returns the
job or `NoSuchJob`. -/
def GetJob (s : Store) (inst : String) (id : Nat) : Except JobError Job :=
  match s.rows.find? (fun r => r.id == id && r.instanceID == inst) with
  | some j => .ok j
  | none => .error .noSuchJob

/-- Row after `UpdateJob(job)`: status, log, done and success are overwritten;
a row written as done gets its finished-at, once. -/
def updated (now : Int) (job r : Job) : Job :=
  Job.mk r.id r.instanceID r.queue r.key r.method r.priority r.scheduledAt r.submittedAt
    r.claimedAt r.heartbeatAt
    (if job.done && r.finishedAt.isNone then some now else r.finishedAt)
    job.done job.success job.status job.log r.params

/-- Modelled from the spec: `UpdateJob(job)` overwrites status, log, done and
success of the identified row; marking a job done marks it finished. -/
def UpdateJob (s : Store) (now : Int) (job : Job) : Store :=
  Store.mk (updateRow s.rows job.id (updated now job)) s.nextID s.retention s.staleness

/-- Row after a heartbeat. -/
def beat (now : Int) (r : Job) : Job :=
  Job.mk r.id r.instanceID r.queue r.key r.method r.priority r.scheduledAt r.submittedAt
    r.claimedAt (some now) r.finishedAt r.done r.success r.status r.log r.params

/-- Modelled from the spec: `Heartbeat(id)` updates heartbeat-at. -/
def Heartbeat (s : Store) (now : Int) (id : Nat) : Store :=
  Store.mk (updateRow s.rows id (beat now)) s.nextID s.retention s.staleness

/-- The rows `GC` removes at time `now`: done, with a finished-at before
`now - retention`. -/
def expired (retention now : Int) (r : Job) : Bool :=
  r.done &&
    (match r.finishedAt with
     | some t => decide (t < now - retention)
     | none => false)

/-- Modelled from the spec: `GC()` removes the rows where done and
`finished-at < now - retention`. The heartbeat reaper, which the spec lists as a
further step, is the operation `reapStale`. -/
def GC (s : Store) (now : Int) : Store :=
  Store.mk (s.rows.filter (fun r => !expired s.retention now r)) s.nextID s.retention s.staleness

/-- A claimed, unfinished row whose heartbeat is older than the staleness threshold. -/
def stale (staleness now : Int) (r : Job) : Bool :=
  r.claimedAt.isSome && !r.done &&
    (match r.heartbeatAt with
     | some t => decide (t < now - staleness)
     | none => false)

/-- Row with its claim cleared. -/
def unclaim (r : Job) : Job :=
  Job.mk r.id r.instanceID r.queue r.key r.method r.priority r.scheduledAt r.submittedAt
    none r.heartbeatAt r.finishedAt r.done r.success r.status r.log r.params

/-- Modelled from the spec: the heartbeat-reaper step requeues rows whose
claimed-at is set, done is false and `heartbeat-at < now - staleness`, by
clearing the claim. -/
def reapStale (s : Store) (now : Int) : Store :=
  Store.mk (s.rows.map (fun r => if stale s.staleness now r then unclaim r else r))
    s.nextID s.retention s.staleness

/-- One call on the queue, with the clock reading it is made at. -/
inductive QueueOp where
  | put (now : Int) (inst : String) (job : NewJob)
  | next (now : Int)
  | update (now : Int) (job : Job)
  | heartbeat (now : Int) (id : Nat)
  | gc (now : Int)
  | reap (now : Int)
deriving DecidableEq, Repr

/-- Effect of one call on the queue state. -/
def stepQueue (s : Store) : QueueOp → Store
  | .put now inst job => (PutJob s now inst job).1
  | .next now => (NextJob s now).1
  | .update now job => UpdateJob s now job
  | .heartbeat now id => Heartbeat s now id
  | .gc now => GC s now
  | .reap now => reapStale s now

/-- Effect of a sequence of calls. -/
def runQueue (s : Store) (ops : List QueueOp) : Store := ops.foldl stepQueue s

/-- Two rows are not both unfinished with the same instance and the same key,
when that key is set. -/
def distinctPending (a b : Job) : Prop :=
  ¬ (a.instanceID = b.instanceID ∧ a.key = b.key ∧ a.key ≠ "" ∧
    a.finished = false ∧ b.finished = false)

instance (a b : Job) : Decidable (distinctPending a b) := by
  unfold distinctPending; infer_instance

/-- A change of a row that keeps its id, instance and key and does not turn a
finished row into an unfinished one. -/
def Preserving (g : Job → Job) : Prop :=
  ∀ r, (g r).id = r.id ∧ (g r).instanceID = r.instanceID ∧ (g r).key = r.key ∧
    ((g r).finished = false → r.finished = false)

/-- Every row has an id below the next free id. -/
def Fresh (s : Store) : Prop := ∀ r ∈ s.rows, r.id < s.nextID

instance (s : Store) : Decidable (Fresh s) := by
  unfold Fresh; infer_instance

/-- The id `id` is taken, and a row that has it belongs to `(inst, key)`. -/
def Tracks (id : Nat) (inst key : String) (s : Store) : Prop :=
  id < s.nextID ∧ ∀ r ∈ s.rows, r.id = id → r.instanceID = inst ∧ r.key = key

instance (id : Nat) (inst key : String) (s : Store) : Decidable (Tracks id inst key s) := by
  unfold Tracks; infer_instance

/-! ## Building the image map (release/images.go) -/

/-- Library functions on image references that are not among the sources:
`flux.ParseImageID`, the method `Repository()` of an image id,
`registry.ParseRepository`, and the two-argument `LatestImage(repo, pattern)`
that `PollImages` calls. -/
structure ImageOps where
  parseImageID : String → Except String ImageRef
  repositoryOf : ImageRef → String
  parseRepository : String → Except String String
  latestImage : ImageMap → String → String → Option ImageDescription

/-- An image as the registry returns it: what `String()` gives, and `CreatedAt`. -/
structure RegistryImage where
  name : String
  createdAt : Int
deriving DecidableEq, Repr

/-- The method `ContainersOrNil()` of a running workload. -/
def Service.ContainersOrNil (s : Service) : List ClusterContainer :=
  match s.containersOrError with
  | .ok cs => cs
  | .error _ => []

/-- Keys of an image map. -/
def imageKeys (m : ImageMap) : List String := m.map Prod.fst

/-- Assignment `images[repo] = l`. -/
def imageMapSet : ImageMap → String → List ImageDescription → ImageMap
  | [], repo, l => [(repo, l)]
  | (k, l0) :: m, repo, l => if k = repo then (k, l) :: m else (k, l0) :: imageMapSet m repo l

/-- Inner loop of the first loop of `CollectAvailableImages`, over the
containers of one service: every image is parsed and its repository entered
with the nil slice. -/
def enterContainers (ops : ImageOps) : List ClusterContainer → ImageMap → Except String ImageMap
  | [], images => .ok images
  | container :: rest, images =>
    match ops.parseImageID container.image with
    | .error e => .error e
    | .ok id => enterContainers ops rest (imageMapSet images (ops.repositoryOf id) [])

/-- First loop of `CollectAvailableImages`, over the services. -/
def enterServices (ops : ImageOps) : List Service → ImageMap → Except String ImageMap
  | [], images => .ok images
  | service :: rest, images =>
    match enterContainers ops service.ContainersOrNil images with
    | .error e => .error e
    | .ok images1 => enterServices ops rest images1

/-- The loop `for i, im := range imageRepo` that parses what the registry returned. -/
def describeImages (ops : ImageOps) : List RegistryImage → Except String (List ImageDescription)
  | [] => .ok []
  | im :: rest =>
    match ops.parseImageID im.name with
    | .error e => .error e
    | .ok id =>
      match describeImages ops rest with
      | .error e => .error e
      | .ok res => .ok (ImageDescription.mk id im.createdAt :: res)

/-- What `CollectAvailableImages` returns, `(images, err)`, and the repositories
the registry was asked for, in order. -/
structure CollectResult where
  images : Option ImageMap
  err : Option String
  queried : List String
deriving DecidableEq, Repr

/-- Second loop of `CollectAvailableImages`, `for repo := range images`, over
the keys still to visit. `reg` is `reg.GetRepository`. -/
def fetchRepositories (ops : ImageOps) (reg : String → Except String (List RegistryImage)) :
    List String → ImageMap → List String → CollectResult
  | [], images, queried => CollectResult.mk (some images) none queried
  | repo :: rest, images, queried =>
    match ops.parseRepository repo with
    | .error e => CollectResult.mk none (some ("parsing repository " ++ repo ++ ": " ++ e)) queried
    | .ok r =>
      match reg r with
      | .error e =>
        CollectResult.mk none (some ("fetching image metadata for " ++ repo ++ ": " ++ e))
          (queried ++ [repo])
      | .ok imageRepo =>
        match describeImages ops imageRepo with
        | .error e => CollectResult.mk none (some e) (queried ++ [repo])
        | .ok res => fetchRepositories ops reg rest (imageMapSet images repo res) (queried ++ [repo])

/-- The function `CollectAvailableImages(reg, services)`. -/
def CollectAvailableImages (ops : ImageOps) (reg : String → Except String (List RegistryImage))
    (services : List Service) : CollectResult :=
  match enterServices ops services [] with
  | .error e => CollectResult.mk none (some e) []
  | .ok images => fetchRepositories ops reg (imageKeys images) images []

/-! ## Image polling (daemon/images.go) -/

/-- The type `policy.ServiceMap`, workload id to policy set. -/
abbrev ServiceMap := List (String × PolicySet)

/-- Lookup `services[service]`: the empty set when the workload is absent. -/
def policiesOf : ServiceMap → String → PolicySet
  | [], _ => []
  | (k, ps) :: m, service => if k = service then ps else policiesOf m service

/-- Modelled from the spec: the method `Get` of `policy.Set` is not in the
sources; `get(key)` gives the value stored under the key, if any. -/
def policyGet : PolicySet → String → Option String
  | [], _ => none
  | (k, v) :: ps, key => if k = key then some v else policyGet ps key

/-- Modelled from the spec: the method `Without` of `policy.ServiceMap` is not in
the sources; the spec has polling compute `automated \ locked`, the difference
on workload ids. -/
def ServiceMap.Without (m other : ServiceMap) : ServiceMap :=
  m.filter (fun e => !other.any (fun o => o.1 == e.1))

/-- The method `ToSlice` of `policy.ServiceMap`: its ids. -/
def ServiceMap.ToSlice (m : ServiceMap) : List String := m.map Prod.fst

/-- The library function `strings.TrimPrefix`. -/
def trimPrefix (s pre : String) : String :=
  if pre.data.isPrefixOf s.data then String.mk (s.data.drop pre.data.length) else s

/-- The function `getTagPattern(services, service, container, logger)`. -/
def getTagPattern (services : ServiceMap) (service container : String) : String :=
  match policyGet (policiesOf services service) ("tag." ++ container) with
  | some pattern => trimPrefix pattern "glob:"
  | none => "*"

/-- The policy `policy.TagAll`. -/
def policyTagAll : String := "tag-all"

/-- What `PollImages` reads: the manifests of the checkout (workload id and
policy set, or the error of reading them), the workloads running in the
cluster, and the registry. -/
structure Daemon where
  manifests : Except String (List (String × PolicySet))
  cluster : Except String (List Service)
  registry : String → Except String (List RegistryImage)

/-- Modelled from the spec: `Manifests.ServicesWithPolicy` is not in the
sources. It scans all loaded manifests and returns the workloads whose policy
set contains `p`, with their policy sets. -/
def Daemon.ServicesWithPolicy (d : Daemon) (p : String) : Except String ServiceMap :=
  match d.manifests with
  | .error e => .error e
  | .ok ms => .ok (ms.filter (fun e => policyContains e.2 p))

/-- Modelled from the spec: `Cluster.SomeServices(ids)` is not in the sources.
It queries the cluster for the live workloads in the set `ids`. -/
def Daemon.SomeServices (d : Daemon) (ids : List String) : Except String (List Service) :=
  match d.cluster with
  | .error e => .error e
  | .ok running => .ok (running.filter (fun s => ids.contains s.id))

/-- The method `unlockedAutomatedServices`. -/
def Daemon.unlockedAutomatedServices (d : Daemon) : Except String ServiceMap :=
  match d.ServicesWithPolicy policyAutomated with
  | .error e => .error e
  | .ok automatedServices =>
    match d.ServicesWithPolicy policyLocked with
    | .error e => .error e
    | .ok lockedServices => .ok (automatedServices.Without lockedServices)

/-- How a call of `PollImages` ends: at one of its logged errors, at "no
automated services", or with `ReleaseChanges(changes)`. -/
inductive PollOutcome where
  | failed (stage err : String)
  | noAutomatedServices
  | released (changes : Automated)
deriving DecidableEq, Repr

/-- Inner loop of `PollImages` over the containers of one service, adding to
the changes collected so far. -/
def pollContainers (ops : ImageOps) (candidateServices : ServiceMap) (imageMap : ImageMap)
    (serviceID : String) : List ClusterContainer → List Change → List Change
  | [], changes => changes
  | container :: rest, changes =>
    match ops.parseImageID container.image with
    | .error _ => pollContainers ops candidateServices imageMap serviceID rest changes
    | .ok currentImageID =>
      match ops.latestImage imageMap (ops.repositoryOf currentImageID)
          (getTagPattern candidateServices serviceID container.name) with
      | some latest =>
        if latest.id ≠ currentImageID then
          pollContainers ops candidateServices imageMap serviceID rest
            (changes ++ [Change.mk serviceID container latest.id])
        else pollContainers ops candidateServices imageMap serviceID rest changes
      | none => pollContainers ops candidateServices imageMap serviceID rest changes

/-- Outer loop of `PollImages` over the services. -/
def pollServices (ops : ImageOps) (candidateServices : ServiceMap) (imageMap : ImageMap) :
    List Service → List Change → List Change
  | [], changes => changes
  | service :: rest, changes =>
    pollServices ops candidateServices imageMap rest
      (pollContainers ops candidateServices imageMap service.id service.ContainersOrNil changes)

/-- The method `PollImages`. -/
def Daemon.PollImages (ops : ImageOps) (d : Daemon) : PollOutcome :=
  match d.unlockedAutomatedServices with
  | .error e => .failed "getting unlocked automated services" e
  | .ok candidateServices =>
    if candidateServices.length = 0 then .noAutomatedServices
    else
      match d.SomeServices candidateServices.ToSlice with
      | .error e => .failed "checking services for new images" e
      | .ok services =>
        let collected := CollectAvailableImages ops d.registry services
        match collected.err with
        | some e => .failed "fetching image updates" e
        | none =>
          .released (Automated.mk
            (pollServices ops candidateServices (collected.images.getD []) services []))

/-! ## The coalesced sync signal (daemon/loop.go) -/

/-- Buffered channel of `struct{}`: how many values it holds, and its capacity. -/
structure Chan where
  buffered : Nat
  capacity : Nat
deriving DecidableEq, Repr

/-- The fields of the daemon that `askForSync` touches: whether `initSyncSoon`
has run, and the channel `syncSoon`, nil at first. -/
structure SyncState where
  initDone : Bool
  syncSoon : Option Chan
deriving DecidableEq, Repr

/-- The zero value of the two fields. -/
def SyncState.zero : SyncState := ⟨false, none⟩

/-- The call `d.initSyncSoon.Do(...)`: the first call makes the channel of depth 1. -/
def initSyncSoon (d : SyncState) : SyncState :=
  if d.initDone then d else SyncState.mk true (some (Chan.mk 0 1))

/-- The `select` of `askForSync`: the send is taken when the channel has room,
the `default` case otherwise (also for a nil channel). Neither case waits. -/
def trySend (d : SyncState) : SyncState :=
  match d.syncSoon with
  | some c =>
    if c.buffered < c.capacity then SyncState.mk d.initDone (some (Chan.mk (c.buffered + 1) c.capacity))
    else d
  | none => d

/-- The method `askForSync`. -/
def askForSync (d : SyncState) : SyncState := trySend (initSyncSoon d)

/-- The receive `<-d.syncSoon` of the loop, taken when a signal is pending. -/
def receiveSync (d : SyncState) : SyncState :=
  match d.syncSoon with
  | some c =>
    if c.buffered > 0 then SyncState.mk d.initDone (some (Chan.mk (c.buffered - 1) c.capacity))
    else d
  | none => d

/-- Number of sync signals pending. -/
def pendingSyncs (d : SyncState) : Nat :=
  match d.syncSoon with
  | some c => c.buffered
  | none => 0

/-- The method `askForSync` called `n` times in a row. -/
def askForSyncTimes : Nat → SyncState → SyncState
  | 0, d => d
  | n + 1, d => askForSyncTimes n (askForSync d)

/-- An ask or a receive. -/
inductive SyncOp where
  | ask
  | receive
deriving DecidableEq, Repr

/-- Effect of asks and receives, in order. -/
def runSync (d : SyncState) : List SyncOp → SyncState
  | [] => d
  | .ask :: rest => runSync (askForSync d) rest
  | .receive :: rest => runSync (receiveSync d) rest

/-! ## The automated-instance handler (automator/automator.go) -/

/-- The constant `automationCycle`, in seconds. -/
def automationCycle : Int := 60

/-- The job name `jobs.AutomatedInstanceJob`; its value is not in the sources. -/
def AutomatedInstanceJob : String := "automated_instance"

/-- Modelled from the spec: the job name `jobs.ReleaseJob` is not in the
sources; the spec writes the key of a release job as `release|...`. -/
def ReleaseJob : String := "release"

/-- Modelled from the spec: the priority `jobs.PriorityBackground` is not in
the sources; the spec orders the levels `interactive > background`. -/
def PriorityBackground : Int := 100

/-- Modelled from the spec: the priority `jobs.PriorityInteractive`. -/
def PriorityInteractive : Int := 200

/-- The library function `strings.Join`. -/
def joinWith (sep : String) : List String → String
  | [] => ""
  | [a] => a
  | a :: b :: rest => a ++ sep ++ joinWith sep (b :: rest)

/-- Method-specific parameters of a job. -/
inductive JobParams where
  | automatedInstance (instanceID : String)
  | release (serviceSpecs : List String) (imageSpec : ImageRef) (kind : String)
deriving DecidableEq, Repr

/-- The struct `jobs.Job` as the automator fills it in and reads it;
`scheduledAt` is `none` when left at the zero time. -/
structure AutomatorJob where
  instanceID : String
  queue : String
  key : String
  method : String
  priority : Int
  params : JobParams
  scheduledAt : Option Int
deriving DecidableEq, Repr

/-- The function `automatedInstanceJob(instanceID, now)`. The struct literal
leaves `Instance` at its zero value; the instance the job is for is in its key
and its params. -/
def automatedInstanceJob (instanceID : String) (now : Int) : AutomatorJob :=
  AutomatorJob.mk "" AutomatedInstanceJob
    (joinWith "|" [AutomatedInstanceJob, instanceID])
    AutomatedInstanceJob PriorityBackground (.automatedInstance instanceID)
    (some (now + automationCycle))

/-- What `service.Policy()` answers for a configured service. -/
inductive ServicePolicy where
  | automated
  | locked
  | none
deriving DecidableEq, Repr

/-- What the handler calls outside itself: `InstanceDB.GetConfig` (the policy of
each configured service), `Instancer.Get`, `CloneRepo`, `SelectServices` on the
automated ids (its error is dropped by the handler), `CollectAvailableImages`,
`flux.ParseImageID`, and the methods `Repository()` and `String()` of an image id. -/
structure AutomatorEnv where
  getConfig : String → Except String (List (String × ServicePolicy))
  getInstance : String → Option String
  cloneRepo : Option String
  selectServices : List String → List ServiceUpdate
  collectAvailableImages : List ServiceUpdate → Except String ImageMap
  parseImageID : String → Except String ImageRef
  repositoryOf : ImageRef → String
  imageString : ImageRef → String

/-- The ids of the configured services whose policy is automated. -/
def automatedServiceIDs (services : List (String × ServicePolicy)) : List String :=
  (services.filter (fun e => decide (e.2 = ServicePolicy.automated))).map Prod.fst

/-- The map `imageServices`, image to the services to move to it. -/
abbrev ImageServices := List (ImageRef × List String)

/-- The statement `imageServices[id] = append(imageServices[id], spec)`. -/
def appendService : ImageServices → ImageRef → String → ImageServices
  | [], id, spec => [(id, [spec])]
  | (k, l) :: m, id, spec =>
    if k = id then (k, l ++ [spec]) :: m else (k, l) :: appendService m id spec

/-- Inner loop of the transpose, over the containers of one update: the map, or
the parse error that ends the handler. -/
def transposeContainers (env : AutomatorEnv) (images : ImageMap) (serviceID : String) :
    List ClusterContainer → ImageServices → Except String ImageServices
  | [], m => .ok m
  | container :: rest, m =>
    match env.parseImageID container.image with
    | .error e => .error ("calculating image updates for " ++ container.name ++ ": " ++ e)
    | .ok currentImageID =>
      match images.LatestImage (env.repositoryOf currentImageID) with
      | some latest =>
        if latest.id ≠ currentImageID then
          transposeContainers env images serviceID rest (appendService m latest.id serviceID)
        else transposeContainers env images serviceID rest m
      | none => transposeContainers env images serviceID rest m

/-- Outer loop of the transpose, over the updates. -/
def transposeUpdates (env : AutomatorEnv) (images : ImageMap) :
    List ServiceUpdate → ImageServices → Except String ImageServices
  | [], m => .ok m
  | update :: rest, m =>
    match transposeContainers env images update.serviceID update.service.ContainersOrNil m with
    | .error e => .error e
    | .ok m1 => transposeUpdates env images rest m1

/-- The release job the handler appends for one image. -/
def releaseFollowUp (env : AutomatorEnv) (instanceID : String)
    (imageID : ImageRef) (services : List String) : AutomatorJob :=
  AutomatorJob.mk "" ReleaseJob
    (joinWith "|" [ReleaseJob, instanceID, env.imageString imageID, "automated"])
    ReleaseJob PriorityBackground (.release services imageID "execute") none

/-- The method `handleAutomatedInstanceJob` at clock reading `now`: the
follow-up jobs and the error; `none` when the type assertion on the params
fails, which stops the program. -/
def handleAutomatedInstanceJob (env : AutomatorEnv) (now : Int) (j : AutomatorJob) :
    Option (List AutomatorJob × Option String) :=
  let followUps := [automatedInstanceJob j.instanceID now]
  match j.params with
  | .release _ _ _ => none
  | .automatedInstance instanceID =>
    match env.getConfig instanceID with
    | .error e => some (followUps, some ("getting instance config: " ++ e))
    | .ok services =>
      if (automatedServiceIDs services).length = 0 then some ([], none)
      else
        match env.getInstance instanceID with
        | some e => some (followUps, some ("getting job instance: " ++ e))
        | none =>
          match env.cloneRepo with
          | some e => some (followUps, some ("cloning repo: " ++ e))
          | none =>
            let updates := env.selectServices (automatedServiceIDs services)
            if updates.length = 0 then
              some ([], some "no automated service(s) exist in config or running system")
            else
              match env.collectAvailableImages updates with
              | .error e => some (followUps, some ("fetching image updates: " ++ e))
              | .ok images =>
                match transposeUpdates env images updates [] with
                | .error e => some (followUps, some e)
                | .ok imageServices =>
                  some (followUps ++ imageServices.map
                      (fun e => releaseFollowUp env instanceID e.1 e.2), none)

/-- The method `Handle`: an automated-instance job goes to its handler, any
other method is unknown. -/
def Handle (env : AutomatorEnv) (now : Int) (j : AutomatorJob) :
    Option (List AutomatorJob × Option String) :=
  if j.method = AutomatedInstanceJob then handleAutomatedInstanceJob env now j
  else some ([], some "unknown job method")

/-- One pass of the loop body of `calculateImageUpdates` for the candidate `u`:
the result it records and the update it appends, or the parse error. -/
def candidateStep (parseImageID : String → Except String ImageRef)
    (serviceMap : List (String × List Change)) (u : ServiceUpdate) :
    Except String (ServiceResult × List ServiceUpdate) :=
  match u.service.containersOrError with
  | .error e => .ok (⟨.failed, e, []⟩, [])
  | .ok containers =>
    match collectContainerUpdates parseImageID (changesOf serviceMap u.serviceID) containers [] with
    | .error e => .error e
    | .ok containerUpdates =>
      if containerUpdates.length > 0 then
        .ok (⟨.success, "", containerUpdates⟩,
          [ServiceUpdate.mk u.serviceID u.service containerUpdates])
      else .ok (⟨.ignored, DoesNotUseImage, []⟩, [])

/-- Every container image of the candidates parses. -/
def AllParse (parseImageID : String → Except String ImageRef)
    (candidates : List ServiceUpdate) : Prop :=
  ∀ u ∈ candidates, ∀ k ∈ u.service.ContainersOrNil, ∃ id, parseImageID k.image = .ok id

/-- Some container of the candidate `u` has an image that does not parse. -/
def HasUnparseable (parseImageID : String → Except String ImageRef) (u : ServiceUpdate) : Prop :=
  ∃ k ∈ u.service.ContainersOrNil, ∃ e, parseImageID k.image = .error e

/-- The candidates have distinct ids. -/
def DistinctIDs (candidates : List ServiceUpdate) : Prop :=
  (candidates.map ServiceUpdate.serviceID).Nodup

instance (candidates : List ServiceUpdate) : Decidable (DistinctIDs candidates) := by
  unfold DistinctIDs; infer_instance

/-! ## Policy sets and annotations (cluster/kubernetes/resource/resource.go) -/

/-- Modelled from the spec: the method `Set(key, value)` of `policy.Set` is not
in the sources; `set(key, value)` binds the key to the value, in place of an
earlier binding of the key. -/
def policySet : PolicySet → String → String → PolicySet
  | [], p, v => [(p, v)]
  | (k, w) :: ps, p, v => if k = p then (k, v) :: ps else (k, w) :: policySet ps p v

/-- Modelled from the spec: the method `Add(p)` of `policy.Set` is not in the
sources; `add` makes a boolean policy present, which is stored as `"true"`. -/
def policyAdd (s : PolicySet) (p : String) : PolicySet := policySet s p "true"

/-- The constant `PolicyPrefix`. -/
def PolicyPrefix : String := "flux.weave.works/"

/-- The library function `strings.HasPrefix`. -/
def hasPrefix (s pre : String) : Bool := pre.data.isPrefixOf s.data

/-- The struct `baseObject`, without the source name and the bytes, which
`Policy()` does not read. -/
structure baseObject where
  kind : String
  metaNamespace : String
  metaName : String
  metaAnnotations : List (String × String)
deriving DecidableEq, Repr

/-- The loop `for k, v := range o.Meta.Annotations` of `Policy()`. `Parse` is
`policy.Parse`, which is not in the sources. -/
def policyLoop (Parse : String → String) : List (String × String) → PolicySet → PolicySet
  | [], set => set
  | (k, v) :: rest, set =>
    if hasPrefix k PolicyPrefix && v == "true" then
      policyLoop Parse rest (policyAdd set (Parse (trimPrefix k PolicyPrefix)))
    else policyLoop Parse rest set

/-- The method `Policy()` of `baseObject`. -/
def baseObject.Policy (Parse : String → String) (o : baseObject) : PolicySet :=
  policyLoop Parse o.metaAnnotations []

/-! ## The policy command (cmd/fluxctl/policy_cmd.go) -/

/-- Modelled from the spec: the policies `locked-user` and `locked-msg`, audit
metadata bound to `locked` (`policy.LockedUser`, `policy.LockedMsg`). -/
def policyLockedUser : String := "locked-user"

/-- Modelled from the spec: see `policyLockedUser`. -/
def policyLockedMsg : String := "locked-msg"

/-- Modelled from the spec: `policy.TagPrefix(container)` is not in the sources;
the policy `tag.<container>`, the key `getTagPattern` looks up. -/
def TagPrefix (container : String) : String := "tag." ++ container

/-- The struct `update.Cause`. -/
structure Cause where
  user : String
  message : String
deriving DecidableEq, Repr

/-- The options of the policy command that `calculatePolicyChanges` reads. -/
structure servicePolicyOpts where
  service : String
  tagAll : String
  tags : List String
  automate : Bool
  deautomate : Bool
  lock : Bool
  unlock : Bool
  cause : Cause
deriving DecidableEq, Repr

/-- The struct `policy.Update`. -/
structure PolicyUpdate where
  add : PolicySet
  remove : PolicySet
deriving DecidableEq, Repr

/-- Splitting of a list of characters at every occurrence of `sep`. -/
def splitChars (sep : Char) : List Char → List (List Char)
  | [] => [[]]
  | c :: cs =>
    if c = sep then [] :: splitChars sep cs
    else
      match splitChars sep cs with
      | [] => [[c]]
      | p :: ps => (c :: p) :: ps

/-- The library function `strings.Split` for a separator of one character. -/
def split (s : String) (sep : Char) : List String := (splitChars sep s.data).map String.mk

/-- The set `add` as it stands when the loop over the tag pairs starts: the
statements on `add` for `--automate`, `--lock` and `--tag-all`, in their order. -/
def initialAdd (opts : servicePolicyOpts) : PolicySet :=
  let add : PolicySet := []
  let add := if opts.automate then policyAdd add policyAutomated else add
  let add :=
    if opts.lock then
      if opts.cause.user ≠ "" then
        policySet (policySet (policyAdd add policyLocked) policyLockedUser opts.cause.user)
          policyLockedMsg opts.cause.message
      else policyAdd add policyLocked
    else add
  if opts.tagAll ≠ "" then policySet add policyTagAll ("glob:" ++ opts.tagAll) else add

/-- The set `remove` as it stands when the loop over the tag pairs starts. -/
def initialRemove (opts : servicePolicyOpts) : PolicySet :=
  let remove : PolicySet := []
  let remove := if opts.deautomate then policyAdd remove policyAutomated else remove
  if opts.unlock then
    policyAdd (policyAdd (policyAdd remove policyLocked) policyLockedMsg) policyLockedUser
  else remove

/-- The loop `for _, tagPair := range opts.tags`, and the return after it. The
error names the pair; the rest of its message is fixed text. -/
def tagPairs : List String → PolicySet → PolicySet → Except String PolicyUpdate
  | [], add, remove => .ok ⟨add, remove⟩
  | tagPair :: rest, add, remove =>
    match split tagPair '=' with
    | [container, tag] =>
      if tag ≠ "*" then
        tagPairs rest (policySet add (TagPrefix container) ("glob:" ++ tag)) remove
      else tagPairs rest add (policyAdd remove (TagPrefix container))
    | _ => .error ("invalid container/tag pair: " ++ tagPair)

/-- The function `calculatePolicyChanges(opts)`. -/
def calculatePolicyChanges (opts : servicePolicyOpts) : Except String PolicyUpdate :=
  tagPairs opts.tags (initialAdd opts) (initialRemove opts)

/-- Modelled from the spec: set union, for the `current ∪ add` of applying an
update; where both sets bind a key, the binding of the update stands. -/
def policyUnion (current add : PolicySet) : PolicySet :=
  add ++ current.filter (fun e => !policyContains add e.1)

/-- Modelled from the spec: set difference on the keys. -/
def policyWithout (s remove : PolicySet) : PolicySet :=
  s.filter (fun e => !policyContains remove e.1)

/-- Modelled from the spec: the code that applies a `policy.Update` to the
policy set of a workload is not in the sources; the spec has it compute
`current ∪ add \ remove`. -/
def applyPolicyUpdate (current : PolicySet) (u : PolicyUpdate) : PolicySet :=
  policyWithout (policyUnion current u.add) u.remove

/-! ## One pass of the daemon loop (daemon/loop.go) -/

/-- What the `select` of the loop received: the stop signal, a pending sync, the
git poll timer, the image poll tick, or a ready job. The job is given by its id
and by the result its `Do()` is going to have. -/
inductive LoopEvent where
  | stop
  | syncSoon
  | pollGit
  | pollImages
  | ready (jobID : String) (err : Option String)
deriving DecidableEq, Repr

/-- The calls the loop body makes on the daemon. -/
inductive LoopCall where
  | pullAndSync
  | resetGitPoll
  | askForSync
  | PollImages
  | jobDo (jobID : String)
deriving DecidableEq, Repr

/-- The loop as it runs: the sync signal, the calls made so far in their order,
and whether the loop has returned. -/
structure LoopState where
  sync : SyncState
  calls : List LoopCall
  stopped : Bool
deriving DecidableEq, Repr

/-- One pass of the `for { select { ... } }` of `Loop` on the event received.
The receive from `syncSoon` takes the pending signal. -/
def loopStep (d : LoopState) : LoopEvent → LoopState
  | .stop => LoopState.mk d.sync d.calls true
  | .syncSoon =>
    LoopState.mk (receiveSync d.sync) (d.calls ++ [.pullAndSync, .resetGitPoll]) d.stopped
  | .pollGit => LoopState.mk (askForSync d.sync) (d.calls ++ [.askForSync]) d.stopped
  | .pollImages => LoopState.mk d.sync (d.calls ++ [.PollImages]) d.stopped
  | .ready jobID err =>
    match err with
    | some _ => LoopState.mk d.sync (d.calls ++ [.jobDo jobID]) d.stopped
    | none =>
      LoopState.mk (askForSync d.sync) (d.calls ++ [.jobDo jobID, .askForSync]) d.stopped

/-- The start of `Loop`, before its `for`: the first `askForSync`. -/
def loopStart (d : LoopState) : LoopState :=
  LoopState.mk (askForSync d.sync) (d.calls ++ [.askForSync]) d.stopped

/-! ## Cluster sync (sync/sync.go) -/

/-- The struct `cluster.SyncStack`. -/
structure SyncStack where
  Name : String
  Resources : List Resource
deriving DecidableEq, Repr

/-- The struct `cluster.SyncDef`. -/
structure SyncDef where
  Stacks : List SyncStack
deriving DecidableEq, Repr

/-- The loop `for _, res := range repoResources` of `makeStack`, appending to
the slice `resources`. -/
def makeStackLoop : List (String × Resource) → List Resource → List Resource
  | [], resources => resources
  | (_, res) :: rest, resources => makeStackLoop rest (resources ++ [res])

/-- The function `makeStack(name, repoResources)`. -/
def makeStack (name : String) (repoResources : ResourceMap) : SyncStack :=
  SyncStack.mk name (makeStackLoop repoResources [])

/-- The function `Sync(repoResources, clus)`; `clus` is the method `Sync` of the
cluster driver, and `none` is the nil error. -/
def Sync (repoResources : ResourceMap) (clus : SyncDef → Option String) : Option String :=
  let defaultStack := makeStack "default" repoResources
  let sync := SyncDef.mk [defaultStack]
  match clus sync with
  | some err => some err
  | none => none

/-! ## Submitting the polled changes (daemon/images.go) -/

/-- Modelled from the spec: the constant `update.Images` is not in the sources;
the type of a release spec for image changes. -/
def Images : String := "images"

/-- The struct `update.Spec`. -/
structure UpdateSpec where
  type : String
  cause : Cause
  spec : Automated
deriving DecidableEq, Repr

/-- The method `ReleaseChanges(changes)`, given by its calls of
`UpdateManifests`: one, in every case. The result of the call is dropped. -/
def Daemon.ReleaseChanges (changes : Automated) : List UpdateSpec :=
  let cause := Cause.mk "" ""
  [UpdateSpec.mk Images cause changes]

/-- The calls of `UpdateManifests` in one run of `PollImages`: those of
`ReleaseChanges` when the run gets to its last statement, none when it returns
before. -/
def Daemon.pollSubmissions (ops : ImageOps) (d : Daemon) : List UpdateSpec :=
  match d.PollImages ops with
  | .released changes => Daemon.ReleaseChanges changes
  | .failed _ _ => []
  | .noAutomatedServices => []

/-! ## Pull and sync (daemon/loop.go) -/

/-- Whether the list of characters has `substr` as a run of consecutive characters. -/
def containsChars (substr : List Char) : List Char → Bool
  | [] => substr.isPrefixOf []
  | c :: cs => substr.isPrefixOf (c :: cs) || containsChars substr cs

/-- The library function `strings.Contains`. -/
def strContains (s substr : String) : Bool := containsChars substr.data s.data

/-- The function `isUnknownRevision(err)`; `none` is the nil error. -/
def isUnknownRevision (err : Option String) : Bool :=
  match err with
  | none => false
  | some msg =>
    strContains msg "unknown revision or path not in the working tree." ||
      strContains msg "bad revision"

/-- Modelled from the spec: the constant `history.EventSync`, the type of a
`sync` event; its declaration is not in the sources. -/
def EventSync : String := "sync"

/-- Modelled from the spec: the constant `history.LogLevelInfo`; its declaration
is not in the sources. -/
def LogLevelInfo : String := "info"

/-- The struct `history.Event` as `pullAndSync` fills it in; `metadata` is the
field `Revisions` of its `SyncEventMetadata`. -/
structure Event where
  serviceIDs : List String
  type : String
  startedAt : Int
  endedAt : Int
  logLevel : String
  metadata : List String
deriving DecidableEq, Repr

/-- The working clone: its sync tag and manifest directory, and what its git
commands return. A command that returns a value and an error is a pair. -/
structure Working where
  SyncTag : String
  ManifestDir : String
  RevisionsBetween : String → String → List String × Option String
  RevisionsBefore : String → List String × Option String
  ChangedFiles : String → List String × Option String

/-- What `pullAndSync` calls on the daemon: `Checkout.Pull`,
`Checkout.WorkingClone`, `Cluster.LoadManifests` on a list of paths, the cluster
as the driver of `sync.Sync`, and the service ids that the loop over the changed
resources collects in a `flux.ServiceIDSet` (a type that is not in the sources)
from `r.ServiceIDs(allResources)`. -/
structure SyncDaemon where
  pull : Option String
  workingClone : Except String Working
  loadManifests : List String → Except String ResourceMap
  clusterSync : SyncDef → Option String
  collectServiceIDs : ResourceMap → ResourceMap → List String

/-- What one call of `pullAndSync` did: the resource maps it gave to `sync.Sync`,
the events it gave to `LogEvent`, and whether it got to `MoveTagAndPush`. -/
structure SyncRun where
  synced : List ResourceMap
  events : List Event
  tagMoved : Bool
deriving DecidableEq, Repr

/-- The revisions `pullAndSync` computes: those between the commit before the
sync tag and `HEAD`, or, when that fails with an unknown revision, those before
`HEAD`; with the error that is left, which is logged only. -/
def computedRevisions (working : Working) : List String × Option String :=
  let (revisions, err) := working.RevisionsBetween (working.SyncTag ++ "~1") "HEAD"
  if isUnknownRevision err then working.RevisionsBefore "HEAD" else (revisions, err)

/-- The `switch` of `pullAndSync` on the result of `ChangedFiles`: the changed
resources, or `none` where `pullAndSync` returns because loading them failed. -/
def changedResources (d : SyncDaemon) (working : Working) (allResources : ResourceMap) :
    Option ResourceMap :=
  let (changedFiles, err) := working.ChangedFiles working.SyncTag
  match err with
  | none =>
    match d.loadManifests changedFiles with
    | .error _ => none
    | .ok changed => some changed
  | some _ => if isUnknownRevision err then some allResources else some []

/-- The method `pullAndSync`, called at the clock reading `started`. The errors
of `sync.Sync`, `LogEvent` and `MoveTagAndPush` are logged and nothing else. -/
def pullAndSync (d : SyncDaemon) (started : Int) : SyncRun :=
  match d.pull with
  | some _ => SyncRun.mk [] [] false
  | none =>
    match d.workingClone with
    | .error _ => SyncRun.mk [] [] false
    | .ok working =>
      let revisions := (computedRevisions working).1
      match d.loadManifests [working.ManifestDir] with
      | .error _ => SyncRun.mk [] [] false
      | .ok allResources =>
        match changedResources d working allResources with
        | none => SyncRun.mk [allResources] [] false
        | some changed =>
          let serviceIDs := d.collectServiceIDs changed allResources
          if revisions.length > 0 then
            SyncRun.mk [allResources]
              [Event.mk serviceIDs EventSync started started LogLevelInfo revisions] true
          else SyncRun.mk [allResources] [] true

/-! ## Predicates of the statements -/

/-- A policy key of the tag family, `tag.<container>` or `tag-all`: it begins
with `tag`. -/
def isTagPolicy (key : String) : Bool := "tag".data.isPrefixOf key.data

/-- The repository `repo` is fetched in full: its name parses, the registry
answers, and every image id it returns parses, giving `res`. -/
def RepoOk (ops : ImageOps) (reg : String → Except String (List RegistryImage))
    (repo : String) (res : List ImageDescription) : Prop :=
  ∃ r l, ops.parseRepository repo = .ok r ∧ reg r = .ok l ∧ describeImages ops l = .ok res

/-- The repository `repo` fails: its name does not parse, or the registry
lookup fails, or an image id the registry returns does not parse. -/
def RepoFails (ops : ImageOps) (reg : String → Except String (List RegistryImage))
    (repo : String) : Prop :=
  (∃ e, ops.parseRepository repo = .error e) ∨
  (∃ r e, ops.parseRepository repo = .ok r ∧ reg r = .error e) ∨
  (∃ r l im e, ops.parseRepository repo = .ok r ∧ reg r = .ok l ∧ im ∈ l ∧
    ops.parseImageID im.name = .error e)

/-- The repository `repo` is that of a container image of the services. -/
def UsedRepo (ops : ImageOps) (services : List Service) (repo : String) : Prop :=
  ∃ s ∈ services, ∃ k ∈ s.ContainersOrNil, ∃ id,
    ops.parseImageID k.image = .ok id ∧ ops.repositoryOf id = repo

/-- The states of the sync signal met from the zero value: no channel yet, or
the channel of depth 1 holding nothing or one signal. -/
def SyncInv (d : SyncState) : Prop :=
  d = SyncState.zero ∨ d = SyncState.mk true (some (Chan.mk 0 1)) ∨
    d = SyncState.mk true (some (Chan.mk 1 1))

instance (d : SyncState) : Decidable (SyncInv d) := by
  unfold SyncInv; infer_instance

/-- The handler finds nothing automated: the configuration of the instance has
no service with the automated policy, or, the instance and its clone being
there, `SelectServices` gives no update for the automated services. -/
def NothingAutomated (env : AutomatorEnv) (instanceID : String) : Prop :=
  ∃ services, env.getConfig instanceID = .ok services ∧
    ((automatedServiceIDs services).length = 0 ∨
      (env.getInstance instanceID = none ∧ env.cloneRepo = none ∧
        (env.selectServices (automatedServiceIDs services)).length = 0))

/-- The option `--tag` as the command line gives it for a container and a pattern. -/
def tagPair (e : String × String) : String := e.1 ++ "=" ++ e.2

/-- The policies the options other than `--tag` can put in `add` or `remove`. -/
def plainPolicies : List String :=
  [policyAutomated, policyLocked, policyLockedUser, policyLockedMsg, policyTagAll]

/-- The condition under which `PollImages` adds the change `ch` for a container
of the service `serviceID`: the image of the container parses and `LatestImage`
gives an image other than it. -/
def AddsChange (ops : ImageOps) (candidateServices : ServiceMap) (imageMap : ImageMap)
    (serviceID : String) (container : ClusterContainer) (ch : Change) : Prop :=
  ∃ currentImageID latest, ops.parseImageID container.image = .ok currentImageID ∧
    ops.latestImage imageMap (ops.repositoryOf currentImageID)
      (getTagPattern candidateServices serviceID container.name) = some latest ∧
    latest.id ≠ currentImageID ∧ ch = Change.mk serviceID container latest.id

/-! ## Concrete inputs used by the witnesses -/

/-- Image `img:v1`. -/
def exImg1 : ImageRef := ⟨"", "img", "v1"⟩

/-- Image `img:v2`. -/
def exImg2 : ImageRef := ⟨"", "img", "v2"⟩

/-- A tree with the workload `default/hello` pinned to `img:v1` and one other resource. -/
def exBefore : ResourceMap :=
  [("default/hello", .workload [⟨"hello", exImg1⟩]), ("default/svc", .other)]

/-- The same tree with `hello` at `img:v2`, loaded in another order. -/
def exAfter : ResourceMap :=
  [("default/svc", .other), ("default/hello", .workload [⟨"hello", exImg2⟩])]

/-- The planned update `hello: v1 -> v2` of `default/hello`. -/
def exUpdates : List ControllerUpdate := [⟨"default/hello", [⟨"hello", exImg1, exImg2⟩]⟩]

/-- What a faulty rewriter leaves: the workload has lost its container. -/
def exAfterLost : ResourceMap :=
  [("default/svc", .other), ("default/hello", .workload [])]

/-- A tree in which a resource has appeared. -/
def exAfterNew : ResourceMap :=
  [("default/svc", .other), ("default/hello", .workload [⟨"hello", exImg2⟩]),
   ("default/extra", .other)]

/-- Collaborators of `Release` over a tree that is the manifest map itself: the
plan is `exUpdates` and the write puts `exAfter` in place. -/
def exOps : ReleaseOps ResourceMap String where
  loadManifests := fun t => (t, none)
  calculateRelease := fun t => (t, exUpdates, "result", none)
  writeUpdates := fun _ _ => (exAfter, none)

/-- Collaborators with a faulty rewriter: the write leaves `exAfterLost`. -/
def exOpsLost : ReleaseOps ResourceMap String where
  loadManifests := fun t => (t, none)
  calculateRelease := fun t => (t, exUpdates, "result", none)
  writeUpdates := fun _ _ => (exAfterLost, none)

/-- Collaborators whose plan is empty; a write, were it called, would fail. -/
def exOpsEmpty : ReleaseOps ResourceMap String where
  loadManifests := fun t => (t, none)
  calculateRelease := fun t => (t, [], "result", none)
  writeUpdates := fun _ t => (t, some (.external "write"))

/-- Stand-in for `flux.ParseImageID` in the witnesses: the empty string does
not parse, any other string is taken as the repository. -/
def exParse (s : String) : Except String ImageRef :=
  if s = "" then .error "empty image" else .ok ⟨"", s, ""⟩

/-- A repository with the locked workload `default/hello` and the unlocked
`default/web`, both automated and both running. -/
def exContext : ReleaseContext where
  manifests := .ok [("default/hello", [("automated", "true"), ("locked", "true")]),
    ("default/web", [("automated", "true")])]
  cluster := .ok [⟨"default/hello", .ok [⟨"hello", "img"⟩]⟩, ⟨"default/web", .ok [⟨"web", "img"⟩]⟩]

/-- A change set that plans `img:v2` for both workloads. -/
def exAutomated : Automated :=
  ⟨[⟨"default/hello", ⟨"hello", "img"⟩, exImg2⟩, ⟨"default/web", ⟨"web", "img"⟩, exImg2⟩]⟩

/-- An image map whose repository `img` holds `2.0` (newest) and `1.3`. -/
def exImageMap : ImageMap :=
  [("img", [⟨⟨"", "img", "2.0"⟩, 20⟩, ⟨⟨"", "img", "1.3"⟩, 10⟩])]

/-- A release job request with the given key, priority and schedule. -/
def exJob (key : String) (priority : Int) (scheduledAt : Option Int) : NewJob :=
  ⟨"release", key, "release", priority, scheduledAt, ""⟩

/-- A release job request as the test of the store makes it: queue and key left
unset. -/
def exUnkeyedJob (priority : Int) : NewJob := ⟨"", "", "release", priority, none, ""⟩

/-- The queue after one such job has been put at time 0 for `instance`. -/
def exStoreUnkeyed : Store :=
  (PutJob (emptyStore 60 30) 0 "instance" (exUnkeyedJob 100)).1

/-- A queue holding one queued release job, put at time 0 for instance `inst`. -/
def exStoreOne : Store :=
  (PutJob (emptyStore 60 30) 0 "inst" (exJob "release|inst|img:1.3|automated" 100 none)).1

/-- A queue with a background job, an interactive job, and a job due at 50. -/
def exStoreMixed : Store :=
  runQueue (emptyStore 60 30)
    [.put 0 "inst" (exJob "a" 100 none), .put 1 "inst" (exJob "b" 200 none),
     .put 2 "inst" (exJob "c" 300 (some 50))]

/-- A queue with one job finished at time 3 and one job still queued. -/
def exStoreFinished : Store :=
  runQueue (emptyStore 60 30)
    [.put 0 "inst" (exJob "a" 100 none), .put 1 "inst" (exJob "b" 200 none),
     .update 3 (Job.mk 0 "inst" "release" "a" "release" 100 0 0 none none none true true
       "done" ["done"] "")]

/-- The finished row of `exStoreFinished`. -/
def exRowDone : Job :=
  Job.mk 0 "inst" "release" "a" "release" 100 0 0 none none (some 3) true true "done" ["done"] ""

/-- The queued row of `exStoreFinished`. -/
def exRowQueued : Job :=
  Job.mk 1 "inst" "release" "b" "release" 200 1 1 none none none false false "" [] ""

/-- Candidates `default/web`, which the changes of `exAutomated` name, and
`default/db`, which they do not. -/
def exCandidates : List ServiceUpdate :=
  [⟨"default/web", ⟨"default/web", .ok [⟨"web", "img"⟩]⟩, []⟩,
   ⟨"default/db", ⟨"default/db", .ok [⟨"db", "postgres"⟩]⟩, []⟩]

/-- The candidate `default/web` with a second container whose image is the
empty string. -/
def exCandidatesSidecar : List ServiceUpdate :=
  [⟨"default/web", ⟨"default/web", .ok [⟨"web", "img"⟩, ⟨"sidecar", ""⟩]⟩, []⟩]

/-- The candidate `default/db`, whose only container has the empty string as
image, followed by `default/web`. -/
def exCandidatesUnnamed : List ServiceUpdate :=
  [⟨"default/db", ⟨"default/db", .ok [⟨"db", ""⟩]⟩, []⟩,
   ⟨"default/web", ⟨"default/web", .ok [⟨"web", "img"⟩]⟩, []⟩]

/-- The candidate `default/web` whose image is the empty string, and
`default/db` whose containers the cluster could not give. -/
def exCandidatesFailed : List ServiceUpdate :=
  [⟨"default/db", ⟨"default/db", .error "no containers"⟩, []⟩,
   ⟨"default/web", ⟨"default/web", .ok [⟨"web", ""⟩]⟩, []⟩]

/-- Library functions for the polling witnesses: images parse as `exParse` has
it, the repository is the field, and the latest image is always `img:v2`. -/
def exImageOps : ImageOps where
  parseImageID := exParse
  repositoryOf := fun id => id.repository
  parseRepository := fun repo => .ok repo
  latestImage := fun _ _ _ => some ⟨exImg2, 20⟩

/-- A daemon whose checkout declares the locked and automated `default/hello`
and the automated `default/web`, both running, with a registry that knows `img`. -/
def exDaemon : Daemon where
  manifests := .ok [("default/hello", [("automated", "true"), ("locked", "true")]),
    ("default/web", [("automated", "true"), ("tag.web", "glob:1.*")])]
  cluster := .ok [⟨"default/hello", .ok [⟨"hello", "img"⟩]⟩, ⟨"default/web", .ok [⟨"web", "img"⟩]⟩]
  registry := fun _ => .ok [⟨"img:v2", 20⟩, ⟨"img:v1", 10⟩]

/-- Policies of `default/web`, with a pattern for its container `web`, and of
`default/hello`, with `tag-all` only. -/
def exServices : ServiceMap :=
  [("default/web", [("automated", "true"), ("tag.web", "glob:1.*")]),
   ("default/hello", [("automated", "true"), ("tag-all", "glob:master-*")])]

/-- A registry for the witnesses: it knows the repository `img` and no other. -/
def exRegistry (repo : String) : Except String (List RegistryImage) :=
  if repo = "img" then .ok [⟨"img:v2", 20⟩, ⟨"img:v1", 10⟩] else .error "not found"

/-- Three running workloads over the two repositories `img` and `postgres`. -/
def exRunning : List Service :=
  [⟨"default/hello", .ok [⟨"hello", "img"⟩]⟩, ⟨"default/web", .ok [⟨"web", "img"⟩]⟩,
   ⟨"default/db", .ok [⟨"db", "postgres"⟩]⟩]

/-- Library functions for the witnesses of the image map: as `exImageOps`, but
the repository name `postgres` does not parse. -/
def exImageOpsStrict : ImageOps where
  parseImageID := exParse
  repositoryOf := fun id => id.repository
  parseRepository := fun repo => if repo = "postgres" then .error "bad name" else .ok repo
  latestImage := fun _ _ _ => none

/-- An automated-instance job of the instance `inst`, as the queue hands it to
the handler. -/
def exAutoJob : AutomatorJob :=
  AutomatorJob.mk "inst" AutomatedInstanceJob (joinWith "|" [AutomatedInstanceJob, "inst"])
    AutomatedInstanceJob PriorityBackground (.automatedInstance "inst") (some 60)

/-- Surroundings of the handler in which the instance has one service, and it
is not automated. -/
def exEnvNoneAutomated : AutomatorEnv where
  getConfig := fun _ => .ok [("default/hello", .none)]
  getInstance := fun _ => none
  cloneRepo := none
  selectServices := fun _ => []
  collectAvailableImages := fun _ => .ok []
  parseImageID := exParse
  repositoryOf := fun id => id.repository
  imageString := fun id => id.repository ++ ":" ++ id.tag

/-- Surroundings in which the one service is automated but neither in the
repository nor running: `SelectServices` gives no update. -/
def exEnvGone : AutomatorEnv where
  getConfig := fun _ => .ok [("default/hello", .automated)]
  getInstance := fun _ => none
  cloneRepo := none
  selectServices := fun _ => []
  collectAvailableImages := fun _ => .ok []
  parseImageID := exParse
  repositoryOf := fun id => id.repository
  imageString := fun id => id.repository ++ ":" ++ id.tag

/-- Surroundings in which the automated service runs `img` and the registry has
the newer `img:v2`. -/
def exEnvNewer : AutomatorEnv where
  getConfig := fun _ => .ok [("default/hello", .automated)]
  getInstance := fun _ => none
  cloneRepo := none
  selectServices := fun _ => [⟨"default/hello", ⟨"default/hello", .ok [⟨"hello", "img"⟩]⟩, []⟩]
  collectAvailableImages := fun _ => .ok [("img", [⟨exImg2, 20⟩])]
  parseImageID := exParse
  repositoryOf := fun id => id.repository
  imageString := fun id => id.repository ++ ":" ++ id.tag

/-- Before with two workloads, to show that the reported error follows the order. -/
def exBeforeTwo : ResourceMap :=
  [("default/a", .workload [⟨"a", exImg1⟩]), ("default/b", .workload [⟨"b", exImg1⟩])]

/-- Reloaded tree in which neither id is a workload any more. -/
def exAfterTwo : ResourceMap := [("default/a", .other), ("default/b", .other)]

/-- Same entries as `exAfterTwo`, visited in the other order. -/
def exAfterTwoSwapped : ResourceMap := [("default/b", .other), ("default/a", .other)]

/-- A deployment annotated as automated, with a tag pattern for its container
and an annotation that is not a policy. -/
def exAnnotated : baseObject :=
  ⟨"Deployment", "default", "hello",
    [("flux.weave.works/automated", "true"), ("flux.weave.works/tag.hello", "glob:1.*"),
     ("app", "true")]⟩

/-- The options `--tag 'hello=1.*' --tag 'sidecar=*' --tag-all 'master-*'`. -/
def exTagOpts : servicePolicyOpts :=
  ⟨"default/hello", "master-*", ["hello=1.*", "sidecar=*"], false, false, false, false, ⟨"", ""⟩⟩

/-- The options `--tag 'hello=1.*' --tag 'hello=*'`, which name one container twice. -/
def exTagTwiceOpts : servicePolicyOpts :=
  ⟨"default/hello", "", ["hello=1.*", "hello=*"], false, false, false, false, ⟨"", ""⟩⟩

/-- The single option `--tag 'hello=glob:1.*'`, whose pattern starts with `glob:`. -/
def exTagGlobOpts : servicePolicyOpts :=
  ⟨"default/hello", "", ["hello=glob:1.*"], false, false, false, false, ⟨"", ""⟩⟩

/-- A working clone without a sync tag yet: the range from the tag is a bad
revision, and two revisions lead up to `HEAD`. -/
def exWorking : Working where
  SyncTag := "flux-sync"
  ManifestDir := "deploy"
  RevisionsBetween := fun _ _ => ([], some "fatal: bad revision flux-sync~1..HEAD")
  RevisionsBefore := fun _ => (["r1", "r2"], none)
  ChangedFiles := fun _ => ([], some "fatal: bad revision flux-sync")

/-- A daemon on `exWorking` whose repository holds `exBefore`. -/
def exSyncDaemon : SyncDaemon where
  pull := none
  workingClone := .ok exWorking
  loadManifests := fun _ => .ok exBefore
  clusterSync := fun _ => none
  collectServiceIDs := fun changed _ => keys changed

/-- Library functions for the counterexample on polling: images parse as
`exParse` has it, and the latest image is the one `LatestImage` of the image map
gives for the repository. -/
def exImageOpsSource : ImageOps where
  parseImageID := exParse
  repositoryOf := fun id => id.repository
  parseRepository := fun repo => .ok repo
  latestImage := fun m repo _ => m.LatestImage repo

/-- A daemon whose one automated workload runs `img`, the only image the
registry has. -/
def exDaemonCurrent : Daemon where
  manifests := .ok [("default/web", [("automated", "true")])]
  cluster := .ok [⟨"default/web", .ok [⟨"web", "img"⟩]⟩]
  registry := fun _ => .ok [⟨"img", 20⟩]

/-! # Theorems -/

/-! ## Maps -/

theorem mapGet_isSome_iff (m : ResourceMap) (id : String) :
    (mapGet m id).isSome ↔ id ∈ keys m := by
  induction m with
  | nil => simp [mapGet, keys]
  | cons e m ih =>
    obtain ⟨k, r⟩ := e
    by_cases h : k = id
    · simp [mapGet, keys, h]
    · have h2 : ¬ id = k := fun h3 => h h3.symm
      simpa [mapGet, keys, h, h2] using ih

theorem mapGet_eq_none_iff (m : ResourceMap) (id : String) :
    mapGet m id = none ↔ id ∉ keys m := by
  rw [← mapGet_isSome_iff]
  cases mapGet m id <;> simp

theorem mapGet_eq_some_iff_mem (m : ResourceMap) (h : WellFormed m) (id : String) (r : Resource) :
    mapGet m id = some r ↔ (id, r) ∈ m := by
  induction m with
  | nil => simp [mapGet]
  | cons e m ih =>
    obtain ⟨k, r0⟩ := e
    have hnd : k ∉ keys m ∧ WellFormed m := by
      simpa [WellFormed, keys] using h
    by_cases hk : k = id
    · subst hk
      have hno : ∀ r1, (k, r1) ∉ m := by
        intro r1 hmem
        exact hnd.1 (List.mem_map.mpr ⟨(k, r1), hmem, rfl⟩)
      simp only [mapGet, if_true, List.mem_cons, Prod.mk.injEq, true_and, Option.some.injEq]
      constructor
      · intro h1; exact Or.inl h1.symm
      · rintro (h1 | h1)
        · exact h1.symm
        · exact absurd h1 (hno r)
    · have h2 : ¬ id = k := fun h3 => hk h3.symm
      simp [mapGet, hk, h2, ih hnd.2]

theorem keys_mapSet (m : ResourceMap) (id : String) (v : Resource) :
    keys (mapSet m id v) = keys m := by
  induction m with
  | nil => rfl
  | cons e m ih =>
    obtain ⟨k, r⟩ := e
    by_cases h : k = id
    · simp [mapSet, keys, h]
    · simp only [mapSet, h, if_false, keys, List.map_cons] at ih ⊢
      rw [ih]

theorem mapGet_mapSet (m : ResourceMap) (id : String) (v : Resource) (id2 : String) :
    mapGet (mapSet m id v) id2 =
      if id = id2 then (mapGet m id).map (fun _ => v) else mapGet m id2 := by
  induction m with
  | nil => simp [mapSet, mapGet]
  | cons e m ih =>
    obtain ⟨k, r⟩ := e
    by_cases h : k = id
    · subst h
      by_cases h2 : k = id2
      · simp [mapSet, mapGet, h2]
      · simp [mapSet, mapGet, h2]
    · by_cases h2 : k = id2
      · subst h2
        simp [mapSet, mapGet, h, Ne.symm h]
      · simp only [mapSet, h, if_false, mapGet, h2, ih]

theorem mapGet_mapDelete (m : ResourceMap) (id id2 : String) :
    mapGet (mapDelete m id) id2 = if id2 = id then none else mapGet m id2 := by
  induction m with
  | nil => simp [mapDelete, mapGet]
  | cons e m ih =>
    obtain ⟨k, r⟩ := e
    unfold mapDelete at ih ⊢
    by_cases h : k = id
    · subst h
      by_cases h2 : k = id2
      · subst h2; simpa [List.filter, mapGet] using ih
      · simpa [List.filter, mapGet, h2] using ih
    · by_cases h2 : k = id2
      · subst h2; simp [List.filter, mapGet, h]
      · simpa [List.filter, mapGet, h, h2] using ih

/-! ## First phase of VerifyChanges -/

theorem setContainerImage_names (cs : List Container) (n : String) (t : ImageRef) :
    (setContainerImage cs n t).map Container.name = cs.map Container.name := by
  induction cs with
  | nil => rfl
  | cons c cs ih =>
    by_cases h : c.name = n
    · simp [setContainerImage, h]
    · simp [setContainerImage, h, ih]

theorem applyContainerUpdates_names (cs : List Container) (us : List ContainerUpdate) :
    (applyContainerUpdates cs us).map Container.name = cs.map Container.name := by
  induction us generalizing cs with
  | nil => rfl
  | cons u us ih =>
    simp only [applyContainerUpdates]
    rw [ih, setContainerImage_names]

theorem expectedContainers_names (id : String) (cs : List Container) (us : List ControllerUpdate) :
    (expectedContainers id cs us).map Container.name = cs.map Container.name := by
  induction us generalizing cs with
  | nil => rfl
  | cons u us ih =>
    by_cases h : u.resourceID = id
    · simp only [expectedContainers, h, if_true]
      rw [ih, applyContainerUpdates_names]
    · simp only [expectedContainers, h, if_false]
      exact ih cs

theorem applyUpdates_ok_iff (b : ResourceMap) (us : List ControllerUpdate) :
    (∃ b1, applyUpdates b us = .ok b1) ↔
      ∀ u ∈ us, ∃ cs, mapGet b u.resourceID = some (.workload cs) := by
  induction us generalizing b with
  | nil => simp [applyUpdates]
  | cons u us ih =>
    cases hg : mapGet b u.resourceID with
    | none => simp [applyUpdates, hg]
    | some r =>
      cases r with
      | other => simp [applyUpdates, hg]
      | workload cs =>
        simp only [applyUpdates, hg, List.mem_cons, forall_eq_or_imp]
        rw [ih]
        constructor
        · intro h
          refine ⟨⟨cs, rfl⟩, ?_⟩
          intro u2 hu2
          obtain ⟨cs2, h2⟩ := h u2 hu2
          rw [mapGet_mapSet] at h2
          by_cases he : u.resourceID = u2.resourceID
          · exact ⟨cs, by rw [← he, hg]⟩
          · rw [if_neg he] at h2
            exact ⟨cs2, h2⟩
        · rintro ⟨-, h⟩ u2 hu2
          obtain ⟨cs2, h2⟩ := h u2 hu2
          rw [mapGet_mapSet]
          by_cases he : u.resourceID = u2.resourceID
          · rw [if_pos he, hg]
            exact ⟨_, rfl⟩
          · rw [if_neg he]
            exact ⟨cs2, h2⟩

theorem applyUpdates_spec (b b1 : ResourceMap) (us : List ControllerUpdate)
    (h : applyUpdates b us = .ok b1) :
    keys b1 = keys b ∧ ∀ id, mapGet b1 id = (mapGet b id).map (updatedResource id us) := by
  induction us generalizing b with
  | nil =>
    simp only [applyUpdates, Except.ok.injEq] at h
    subst h
    refine ⟨rfl, ?_⟩
    intro id
    cases hg : mapGet b id with
    | none => rfl
    | some r => cases r <;> rfl
  | cons u us ih =>
    cases hg : mapGet b u.resourceID with
    | none => simp [applyUpdates, hg] at h
    | some r =>
      cases r with
      | other => simp [applyUpdates, hg] at h
      | workload cs =>
        simp only [applyUpdates, hg] at h
        obtain ⟨hk, hget⟩ := ih _ h
        refine ⟨by rw [hk, keys_mapSet], ?_⟩
        intro id
        rw [hget id, mapGet_mapSet]
        by_cases he : u.resourceID = id
        · subst he
          simp [hg, updatedResource, expectedContainers]
        · rw [if_neg he]
          cases hg2 : mapGet b id with
          | none => rfl
          | some r2 =>
            cases r2 with
            | other => rfl
            | workload cs2 => simp [updatedResource, expectedContainers, he]

/-! ## Second phase of VerifyChanges -/

theorem compareContainers_none_iff (id : String) (bs as : List Container) (is : List Nat)
    (h : ∀ i ∈ is, i < bs.length ∧ i < as.length) :
    compareContainers id bs as is = none ↔ ∀ i ∈ is, bs[i]? = as[i]? := by
  induction is with
  | nil => simp [compareContainers]
  | cons i is ih =>
    have hi := h i (List.mem_cons_self _ _)
    have ih2 := ih (fun j hj => h j (List.mem_cons_of_mem _ hj))
    have hb : bs[i]? = some bs[i] := List.getElem?_eq_getElem hi.1
    have ha : as[i]? = some as[i] := List.getElem?_eq_getElem hi.2
    simp only [compareContainers, hb, ha, List.mem_cons, forall_eq_or_imp, Option.some.injEq]
    by_cases hn : bs[i].name = as[i].name
    · by_cases hm : bs[i].image = as[i].image
      · have heq : bs[i] = as[i] := by
          cases hbi : bs[i]; cases hai : as[i]
          rw [hbi, hai] at hn hm
          simp only at hn hm
          rw [hn, hm]
        simp only [hn, hm, ne_eq, not_true_eq_false, if_false, heq, true_and]
        exact ih2
      · have hne : bs[i] ≠ as[i] := fun h2 => hm (by rw [h2])
        simp [hn, hm, hne]
    · have hne : bs[i] ≠ as[i] := fun h2 => hn (by rw [h2])
      simp [hn, hne]

theorem compareContainers_range (id : String) (bs as : List Container)
    (hlen : bs.length = as.length) :
    compareContainers id bs as (List.range as.length) = none ↔ bs = as := by
  rw [compareContainers_none_iff]
  · constructor
    · intro h
      apply List.ext_getElem? 
      intro i
      by_cases hi : i < as.length
      · exact h i (List.mem_range.mpr hi)
      · have h1 : as.length ≤ i := Nat.le_of_not_lt hi
        rw [List.getElem?_eq_none h1, List.getElem?_eq_none (hlen ▸ h1)]
    · intro h i _
      rw [h]
  · intro i hi
    have := List.mem_range.mp hi
    omega

theorem mapDelete_filter (b : ResourceMap) (id : String) (ks : List String) :
    (mapDelete b id).filter (fun e => decide (e.1 ∉ ks)) =
      b.filter (fun e => decide (e.1 ∉ id :: ks)) := by
  unfold mapDelete
  rw [List.filter_filter]
  apply List.filter_congr
  intro e _
  by_cases h1 : e.1 = id <;> by_cases h2 : e.1 ∈ ks <;> simp [h1, h2]

theorem verifyAfter_ok_iff (a : List (String × Resource)) (ha : WellFormed a)
    (b left : ResourceMap) :
    verifyAfter b a = .ok left ↔
      (∀ e ∈ a, ∃ br, mapGet b e.1 = some br ∧
          ∀ bcs, br = .workload bcs → e.2 = .workload bcs) ∧
        left = b.filter (fun e => decide (e.1 ∉ keys a)) := by
  induction a generalizing b left with
  | nil =>
    simp only [verifyAfter, Except.ok.injEq, List.not_mem_nil, false_imp_iff, implies_true,
      true_and, keys, List.map_nil, not_false_eq_true, decide_True, List.filter_true]
    exact eq_comm
  | cons e rest ih =>
    obtain ⟨id, ar⟩ := e
    have hnd : id ∉ keys rest ∧ WellFormed rest := by
      simpa [WellFormed, keys] using ha
    have hrest : ∀ e2 ∈ rest, mapGet (mapDelete b id) e2.1 = mapGet b e2.1 := by
      intro e2 he2
      rw [mapGet_mapDelete]
      have : e2.1 ≠ id := by
        intro h
        apply hnd.1
        rw [← h]
        exact List.mem_map.mpr ⟨e2, he2, rfl⟩
      rw [if_neg this]
    have hstep : ∀ left2, verifyAfter (mapDelete b id) rest = .ok left2 ↔
        (∀ e2 ∈ rest, ∃ br, mapGet b e2.1 = some br ∧
          ∀ bcs, br = .workload bcs → e2.2 = .workload bcs) ∧
        left2 = b.filter (fun e => decide (e.1 ∉ keys ((id, ar) :: rest))) := by
      intro left2
      rw [ih hnd.2, mapDelete_filter]
      constructor
      · rintro ⟨h1, h2⟩
        refine ⟨fun e2 he2 => ?_, h2⟩
        rw [← hrest e2 he2]; exact h1 e2 he2
      · rintro ⟨h1, h2⟩
        refine ⟨fun e2 he2 => ?_, h2⟩
        rw [hrest e2 he2]; exact h1 e2 he2
    simp only [List.mem_cons, forall_eq_or_imp]
    cases hg : mapGet b id with
    | none => simp [verifyAfter, hg]
    | some br =>
      cases br with
      | other =>
        simp only [verifyAfter, hg]
        rw [hstep]
        simp
      | workload bcs =>
        cases ar with
        | other => simp [verifyAfter, hg]
        | workload acs =>
          by_cases hlen : bcs.length = acs.length
          · have hc := compareContainers_range id bcs acs hlen
            cases hcmp : compareContainers id bcs acs (List.range acs.length) with
            | none =>
              have heq : bcs = acs := hc.mp hcmp
              simp only [verifyAfter, hg, hlen, ne_eq, not_true_eq_false, if_false, hcmp]
              rw [hstep]
              simp [heq]
            | some err =>
              have hne : ¬ bcs = acs := fun h => by
                rw [hc.mpr h] at hcmp; cases hcmp
              simp only [verifyAfter, hg, hlen, ne_eq, not_true_eq_false, if_false, hcmp]
              simp [Ne.symm hne]
          · have hne : ¬ acs = bcs := fun h => hlen (by rw [h])
            simp [verifyAfter, hg, hlen, hne]

/-- Characterisation of a nil result of `VerifyChanges` in terms of the maps. -/
theorem verifyChanges_none_iff (before after : ResourceMap) (updates : List ControllerUpdate)
    (ha : WellFormed after) :
    VerifyChanges before updates after = none ↔
      (∀ u ∈ updates, ∃ cs, mapGet before u.resourceID = some (.workload cs)) ∧
      (∀ id, id ∈ keys before ↔ id ∈ keys after) ∧
      (∀ id cs, mapGet before id = some (.workload cs) →
        mapGet after id = some (.workload (expectedContainers id cs updates))) := by
  rw [← applyUpdates_ok_iff]
  cases h1 : applyUpdates before updates with
  | error e => simp [VerifyChanges, h1]
  | ok b1 =>
    obtain ⟨hk, hget⟩ := applyUpdates_spec _ _ _ h1
    have hv := verifyAfter_ok_iff after ha b1
    have hsome : (∃ b2, (Except.ok b1 : Except VerifyError ResourceMap) = .ok b2) := ⟨b1, rfl⟩
    simp only [hsome, true_and]
    cases h2 : verifyAfter b1 after with
    | error e =>
      simp only [VerifyChanges, h1, h2]
      refine ⟨fun h => (by cases h), ?_⟩
      rintro ⟨hkeys, hw⟩
      exfalso
      have : verifyAfter b1 after = .ok (b1.filter (fun e => decide (e.1 ∉ keys after))) := by
        rw [hv]
        refine ⟨?_, rfl⟩
        intro e he
        have hmem : e.1 ∈ keys before := (hkeys e.1).mpr (List.mem_map.mpr ⟨e, he, rfl⟩)
        have hex := (mapGet_isSome_iff before e.1).mpr hmem
        cases hb : mapGet before e.1 with
        | none => rw [hb] at hex; cases hex
        | some r =>
          refine ⟨updatedResource e.1 updates r, by rw [hget, hb]; rfl, ?_⟩
          intro bcs hbcs
          cases r with
          | other => cases hbcs
          | workload cs =>
            have h3 := hw e.1 cs hb
            have h4 := (mapGet_eq_some_iff_mem after ha e.1 _).mp h3
            have h5 := (mapGet_eq_some_iff_mem after ha e.1 e.2).mpr he
            rw [h3] at h5
            simp only [updatedResource, Resource.workload.injEq] at hbcs
            rw [← hbcs]
            exact (Option.some.inj h5).symm
      rw [this] at h2
      cases h2
    | ok left =>
      have hl := (hv left).mp h2
      obtain ⟨hall, hleft⟩ := hl
      have hlen : left.length > 0 ↔ ¬ (∀ id, id ∈ keys before → id ∈ keys after) := by
        rw [hleft, ← hk]
        constructor
        · intro hpos hsub
          have hnil : b1.filter (fun e => decide (e.1 ∉ keys after)) = [] := by
            rw [List.filter_eq_nil_iff]
            intro e he
            have := hsub e.1 (List.mem_map.mpr ⟨e, he, rfl⟩)
            simp [this]
          rw [hnil] at hpos
          exact absurd hpos (by simp)
        · intro hn
          rw [gt_iff_lt, List.length_pos]
          intro hnil
          apply hn
          intro id hid
          obtain ⟨e, he, rfl⟩ := List.mem_map.mp hid
          rw [List.filter_eq_nil_iff] at hnil
          have := hnil e he
          simpa using this
      simp only [VerifyChanges, h1, h2]
      constructor
      · intro hres
        have hsub : ∀ id, id ∈ keys before → id ∈ keys after := by
          by_contra hcon
          rw [if_pos (hlen.mpr hcon)] at hres
          cases hres
        refine ⟨fun id => ⟨hsub id, ?_⟩, ?_⟩
        · intro hid
          obtain ⟨e, he, rfl⟩ := List.mem_map.mp hid
          obtain ⟨br, hbr, -⟩ := hall e he
          rw [← hk, ← mapGet_isSome_iff, hbr]
          rfl
        · intro id cs hb
          have hid : id ∈ keys after := hsub id ((mapGet_isSome_iff _ _).mp (by rw [hb]; rfl))
          obtain ⟨e, he, rfl⟩ := List.mem_map.mp hid
          obtain ⟨br, hbr, hw⟩ := hall e he
          rw [hget, hb] at hbr
          have h3 := hw (expectedContainers e.1 cs updates) (Option.some.inj hbr).symm
          rw [mapGet_eq_some_iff_mem after ha, ← h3]
          exact he
      · rintro ⟨hkeys, -⟩
        have : ¬ left.length > 0 := by
          rw [hlen]; exact not_not.mpr (fun id => (hkeys id).mp)
        rw [if_neg this]

theorem positional_eq_iff_map_eq {α β : Type} (f : α → β) (l1 l2 : List α) :
    (∀ i : Nat, (l1[i]?).map f = (l2[i]?).map f) ↔ l1.map f = l2.map f := by
  constructor
  · intro h
    apply List.ext_getElem?
    intro i
    rw [List.getElem?_map, List.getElem?_map]
    exact h i
  · intro h i
    rw [← List.getElem?_map, ← List.getElem?_map, h]

theorem container_list_ext (l1 l2 : List Container)
    (hn : l1.map Container.name = l2.map Container.name)
    (hi : l1.map Container.image = l2.map Container.image) : l1 = l2 := by
  induction l1 generalizing l2 with
  | nil =>
    cases l2 with
    | nil => rfl
    | cons c l2 => simp at hn
  | cons c1 l1 ih =>
    cases l2 with
    | nil => simp at hn
    | cons c2 l2 =>
      simp only [List.map_cons, List.cons.injEq] at hn hi
      have hc : c1 = c2 := by
        cases c1; cases c2
        simp only at hn hi
        rw [hn.1, hi.1]
      rw [hc, ih l2 hn.2 hi.2]

/-! ## Release unfolded -/

theorem Release_unfold {Tree Res : Type} (ops : ReleaseOps Tree Res) (t t1 t2 : Tree)
    (updates : List ControllerUpdate) (results : Res) (aerr : Option ReleaseErr)
    (hc : ops.calculateRelease t = (t1, updates, results, none))
    (hw : ApplyChanges ops updates t1 = (t2, aerr)) :
    Release ops t = ReleaseOutcome.mk (some results)
      (Option.map MakeReleaseError
        (match aerr with
          | none =>
            match ops.loadManifests t2 with
            | (after, none) =>
              (VerifyChanges (ops.loadManifests t).1 updates after).map ReleaseErr.verify
            | (_, some e) => some e
          | some e => some e)) t2 := by
  cases aerr <;> simp only [Release, hc, hw]

/-! ## Claims on VerifyChanges -/

/-- C1. For well-formed maps, `VerifyChanges(before, updates, after)` returns
no error if and only if every update names a workload of `before`, the two maps
have the same resource ids, and every workload of `before` is in `after` a
workload with the same number of containers, the same name at every position,
and at every position the image `before` has once the updates are set on it. -/
theorem VerifyChanges_ok_iff (before after : ResourceMap) (updates : List ControllerUpdate)
    (ha : WellFormed after) :
    VerifyChanges before updates after = none ↔
      (∀ u ∈ updates, ∃ cs, mapGet before u.resourceID = some (.workload cs)) ∧
      (∀ id, (mapGet before id).isSome ↔ (mapGet after id).isSome) ∧
      (∀ id cs, mapGet before id = some (.workload cs) →
        ∃ cs2, mapGet after id = some (.workload cs2) ∧
          cs2.length = cs.length ∧
          (∀ i : Nat, (cs2[i]?).map Container.name = (cs[i]?).map Container.name) ∧
          (∀ i : Nat, (cs2[i]?).map Container.image =
            ((expectedContainers id cs updates)[i]?).map Container.image)) := by
  rw [verifyChanges_none_iff before after updates ha]
  simp only [mapGet_isSome_iff]
  refine and_congr_right (fun _ => and_congr_right (fun _ => ?_))
  constructor
  · intro h id cs hb
    refine ⟨_, h id cs hb, ?_, ?_, fun i => rfl⟩
    · have := congrArg List.length (expectedContainers_names id cs updates)
      simpa using this
    · rw [positional_eq_iff_map_eq]
      exact expectedContainers_names id cs updates
  · intro h id cs hb
    obtain ⟨cs2, h1, -, h3, h4⟩ := h id cs hb
    rw [positional_eq_iff_map_eq] at h3 h4
    rw [h1, container_list_ext cs2 _ (by rw [h3, expectedContainers_names]) h4]

/-- Witness of C1: the update `hello: v1 -> v2` verifies against the reloaded tree. -/
theorem VerifyChanges_ok_iff_witness :
    WellFormed exAfter ∧ VerifyChanges exBefore exUpdates exAfter = none ∧
      ∃ cs2, mapGet exAfter "default/hello" = some (.workload cs2) ∧ cs2.length = 1 :=
  ⟨by decide, by decide,
    by
      obtain ⟨cs2, h1, h2, -⟩ :=
        ((VerifyChanges_ok_iff exBefore exAfter exUpdates (by decide)).mp (by decide)).2.2
          "default/hello" [⟨"hello", exImg1⟩] (by decide)
      exact ⟨cs2, h1, h2⟩⟩

/-- C3. If a workload of `before` has in `after` a container list of another
length, `VerifyChanges` returns an error, whatever the update list; and a
`Release` that plans these updates over `before` and reloads `after` returns
that error, wrapped as a release error. -/
theorem VerifyChanges_container_count (before after : ResourceMap)
    (updates : List ControllerUpdate) (ha : WellFormed after)
    (id : String) (cs cs2 : List Container)
    (hb : mapGet before id = some (.workload cs))
    (h2 : mapGet after id = some (.workload cs2))
    (hlen : cs2.length ≠ cs.length) :
    (∃ e, VerifyChanges before updates after = some e) ∧
    ∀ (Tree Res : Type) (ops : ReleaseOps Tree Res) (t t1 t2 : Tree) (results : Res),
      (ops.loadManifests t).1 = before →
      ops.calculateRelease t = (t1, updates, results, none) →
      ApplyChanges ops updates t1 = (t2, none) →
      ops.loadManifests t2 = (after, none) →
      ∃ e, (Release ops t).err = some (MakeReleaseError (.verify e)) := by
  have hv : ∃ e, VerifyChanges before updates after = some e := by
    cases hv : VerifyChanges before updates after with
    | some e => exact ⟨e, rfl⟩
    | none =>
      exfalso
      have h := ((verifyChanges_none_iff before after updates ha).mp hv).2.2 id cs hb
      rw [h2] at h
      simp only [Option.some.injEq, Resource.workload.injEq] at h
      apply hlen
      rw [h]
      have := congrArg List.length (expectedContainers_names id cs updates)
      simpa using this
  refine ⟨hv, ?_⟩
  intro Tree Res ops t t1 t2 results hbefore hc hw hl
  obtain ⟨e, he⟩ := hv
  refine ⟨e, ?_⟩
  rw [Release_unfold ops t t1 t2 updates results none hc hw]
  simp [hl, hbefore, he]

/-- Witness of C3: the reloaded workload has lost its only container, and the
release over it fails. -/
theorem VerifyChanges_container_count_witness :
    (∃ e, VerifyChanges exBefore exUpdates exAfterLost = some e) ∧
      ∃ e, (Release exOpsLost exBefore).err = some (MakeReleaseError (.verify e)) :=
  have h := VerifyChanges_container_count exBefore exAfterLost exUpdates (by decide)
    "default/hello" [⟨"hello", exImg1⟩] [] (by decide) (by decide) (by decide)
  ⟨h.1, h.2 ResourceMap String exOpsLost exBefore exBefore exAfterLost "result" rfl rfl rfl rfl⟩

/-- C4. If some id of `after` is not in `before`, or some id of `before` is not
in `after`, `VerifyChanges` returns an error, whatever the updates are. -/
theorem VerifyChanges_id_sets_differ (before after : ResourceMap)
    (updates : List ControllerUpdate) (ha : WellFormed after)
    (h : (∃ id, (mapGet after id).isSome ∧ mapGet before id = none) ∨
      (∃ id, (mapGet before id).isSome ∧ mapGet after id = none)) :
    ∃ e, VerifyChanges before updates after = some e := by
  cases hv : VerifyChanges before updates after with
  | some e => exact ⟨e, rfl⟩
  | none =>
    exfalso
    have hk := ((verifyChanges_none_iff before after updates ha).mp hv).2.1
    simp only [mapGet_isSome_iff, mapGet_eq_none_iff] at h
    rcases h with ⟨id, h1, h2⟩ | ⟨id, h1, h2⟩
    · exact h2 ((hk id).mpr h1)
    · exact h2 ((hk id).mp h1)

/-- Witness of C4: the resource `default/extra` is new after the update. -/
theorem VerifyChanges_id_sets_differ_witness :
    ∃ e, VerifyChanges exBefore exUpdates exAfterNew = some e :=
  VerifyChanges_id_sets_differ exBefore exAfterNew exUpdates (by decide)
    (Or.inl ⟨"default/extra", by decide, by decide⟩)

/-! ## Claims on Release -/

/-- C2. `Release` returns a nil error only if `CalculateRelease` succeeded,
`ApplyChanges` (the write) succeeded, the reload succeeded and `VerifyChanges`
on the first load, the planned updates and the reload returned no error; and
whenever that `VerifyChanges` call returns an error, `Release` returns it
wrapped as a release error. -/
theorem Release_verification_mandatory {Tree Res : Type} (ops : ReleaseOps Tree Res) (t : Tree) :
    ((Release ops t).err = none →
      ∃ t1 updates results t2 after,
        ops.calculateRelease t = (t1, updates, results, none) ∧
        ApplyChanges ops updates t1 = (t2, none) ∧
        ops.loadManifests t2 = (after, none) ∧
        VerifyChanges (ops.loadManifests t).1 updates after = none) ∧
    (∀ t1 updates results t2 after e,
        ops.calculateRelease t = (t1, updates, results, none) →
        ApplyChanges ops updates t1 = (t2, none) →
        ops.loadManifests t2 = (after, none) →
        VerifyChanges (ops.loadManifests t).1 updates after = some e →
        (Release ops t).err = some (MakeReleaseError (.verify e))) := by
  constructor
  · intro h
    rcases hc : ops.calculateRelease t with ⟨t1, updates, results, cerr⟩
    cases cerr with
    | some e => simp [Release, hc] at h
    | none =>
      rcases hw : ApplyChanges ops updates t1 with ⟨t2, aerr⟩
      rw [Release_unfold ops t t1 t2 updates results aerr hc hw] at h
      cases aerr with
      | some e => simp at h
      | none =>
        rcases hl : ops.loadManifests t2 with ⟨after, lerr⟩
        cases lerr with
        | some e => simp [hl] at h
        | none =>
          refine ⟨t1, updates, results, t2, after, rfl, hw, hl, ?_⟩
          cases hv : VerifyChanges (ops.loadManifests t).1 updates after with
          | none => rfl
          | some e => simp [hl, hv] at h
  · intro t1 updates results t2 after e hc hw hl hv
    rw [Release_unfold ops t t1 t2 updates results none hc hw]
    simp [hl, hv]

/-- Witness of C2: a release whose plan, write and reload succeed and verify. -/
theorem Release_verification_mandatory_witness :
    (Release exOps exBefore).err = none ∧
      ∃ t1 updates results t2 after,
        exOps.calculateRelease exBefore = (t1, updates, results, none) ∧
        ApplyChanges exOps updates t1 = (t2, none) ∧
        exOps.loadManifests t2 = (after, none) ∧
        VerifyChanges (exOps.loadManifests exBefore).1 updates after = none :=
  ⟨by decide, (Release_verification_mandatory exOps exBefore).1 (by decide)⟩

theorem VerifyChanges_same (m : ResourceMap) (h : WellFormed m) :
    VerifyChanges m [] m = none := by
  rw [verifyChanges_none_iff m m [] h]
  refine ⟨by simp, fun _ => Iff.rfl, ?_⟩
  intro id cs hg
  simpa [expectedContainers] using hg

/-- C5. If `CalculateRelease` returns zero updates and no error, `ApplyChanges`
returns nil and leaves the tree as it is, whatever `WriteUpdates` would do; and
if the manifests load to the same (well-formed) map before and after, `Release`
returns that result map and a nil error. -/
theorem Release_zero_updates {Tree Res : Type} (ops : ReleaseOps Tree Res) (t t1 : Tree)
    (results : Res) (hc : ops.calculateRelease t = (t1, [], results, none)) :
    ApplyChanges ops [] t1 = (t1, none) ∧
    (Release ops t).tree = t1 ∧
    (∀ m, WellFormed m → (ops.loadManifests t).1 = m → ops.loadManifests t1 = (m, none) →
      (Release ops t).results = some results ∧ (Release ops t).err = none) := by
  have hw : ApplyChanges ops [] t1 = (t1, none) := by simp [ApplyChanges]
  rw [Release_unfold ops t t1 t1 [] results none hc hw]
  refine ⟨hw, rfl, ?_⟩
  intro m hm hb hl
  simp [hl, hb, VerifyChanges_same m hm]

/-- Witness of C5: an empty plan over an unchanged tree. -/
theorem Release_zero_updates_witness :
    ApplyChanges exOpsEmpty [] exBefore = (exBefore, none) ∧
      (Release exOpsEmpty exBefore).results = some "result" ∧
      (Release exOpsEmpty exBefore).err = none :=
  have h := Release_zero_updates exOpsEmpty exBefore exBefore "result" rfl
  ⟨h.1, h.2.2 exBefore (by decide) rfl rfl⟩

/-! ## Claims on the automated change set -/

theorem calculateImageUpdatesLoop_ids (parseImageID : String → Except String ImageRef)
    (sm : List (String × List Change)) (cands acc : List ServiceUpdate) (result res2 : Result)
    (ups : List ServiceUpdate)
    (h : calculateImageUpdatesLoop parseImageID sm cands acc result = (res2, .ok ups)) :
    ∀ u ∈ ups, u ∈ acc ∨ ∃ c ∈ cands, u.serviceID = c.serviceID := by
  induction cands generalizing acc result with
  | nil =>
    simp only [calculateImageUpdatesLoop, Prod.mk.injEq, Except.ok.injEq] at h
    intro u hu
    rw [← h.2] at hu
    exact Or.inl hu
  | cons c rest ih =>
    intro u hu
    unfold calculateImageUpdatesLoop at h
    split at h
    · rcases ih _ _ h u hu with h1 | ⟨c2, hc2, h2⟩
      · exact Or.inl h1
      · exact Or.inr ⟨c2, List.mem_cons_of_mem _ hc2, h2⟩
    · split at h
      · simp at h
      · split at h
        · rcases ih _ _ h u hu with h1 | ⟨c2, hc2, h2⟩
          · rcases List.mem_append.mp h1 with h3 | h3
            · exact Or.inl h3
            · simp only [List.mem_singleton] at h3
              exact Or.inr ⟨c, List.mem_cons_self _ _, by rw [h3]⟩
          · exact Or.inr ⟨c2, List.mem_cons_of_mem _ hc2, h2⟩
        · rcases ih _ _ h u hu with h1 | ⟨c2, hc2, h2⟩
          · exact Or.inl h1
          · exact Or.inr ⟨c2, List.mem_cons_of_mem _ hc2, h2⟩

theorem selectRunning_pass (defined : List String) (filters : List ServiceFilter)
    (running : List Service) (result : Result) :
    ∀ u ∈ (selectRunning defined filters running result).1,
      filterVerdict filters u.serviceID = .pass := by
  induction running generalizing result with
  | nil => simp [selectRunning]
  | cons s rest ih =>
    intro u hu
    unfold selectRunning at hu
    split at hu
    · exact ih _ u hu
    · split at hu <;> exact ih _ u hu
    · rename_i hv
      split at hu
      · simp only [List.mem_cons] at hu
        rcases hu with h1 | h1
        · rw [h1]; exact hv
        · exact ih _ u h1
      · exact ih _ u hu

theorem filterVerdict_locked (ids ls : List String) (id : String)
    (h : filterVerdict [.includeFilter ids, .lockedFilter ls] id = .pass) : id ∉ ls := by
  intro hmem
  by_cases hi : id ∈ ids
  · simp [filterVerdict, ServiceFilter.verdict, hi, hmem] at h
  · simp [filterVerdict, ServiceFilter.verdict, hi] at h

/-- C6. A workload that carries the `locked` policy in the repository is never
in an Automated release: `CalculateRelease` returns no update at all, and no
update returned by `ServiceUpdates` has the id of a locked workload, whatever
the planned changes are. -/
theorem Automated_never_updates_locked (parseImageID : String → Except String ImageRef)
    (a : Automated) (rc : ReleaseContext) :
    (a.CalculateRelease rc).1 = [] ∧
    ∀ ups ms id ps, a.ServiceUpdates parseImageID rc = .ok ups →
      rc.manifests = .ok ms → (id, ps) ∈ ms → policyContains ps policyLocked = true →
      ∀ u ∈ ups, u.serviceID ≠ id := by
  refine ⟨rfl, ?_⟩
  intro ups ms id ps hsu hms hmem hlocked u hu heq
  unfold Automated.ServiceUpdates Automated.filters ReleaseContext.ServicesWithPolicy at hsu
  rw [hms] at hsu
  simp only at hsu
  unfold ReleaseContext.SelectServices at hsu
  rw [hms] at hsu
  cases hcl : rc.cluster with
  | error e => rw [hcl] at hsu; simp at hsu
  | ok running =>
    rw [hcl] at hsu
    simp only at hsu
    unfold Automated.calculateImageUpdates at hsu
    generalize hlk : (ms.filter (fun e => policyContains e.2 policyLocked)).map Prod.fst = ls at hsu
    rcases hsel : selectRunning (ms.map Prod.fst) [.includeFilter a.serviceIDs, .lockedFilter ls]
      running [] with ⟨stubs, res1⟩
    rw [hsel] at hsu
    simp only at hsu
    rcases hcalc : calculateImageUpdatesLoop parseImageID a.serviceMap stubs []
      (a.markSkipped (selectDefined (running.map Service.id)
        [.includeFilter a.serviceIDs, .lockedFilter ls] (ms.map Prod.fst) res1)) with ⟨res2, out⟩
    rw [hcalc] at hsu
    simp only at hsu
    rw [hsu] at hcalc
    rcases calculateImageUpdatesLoop_ids _ _ _ _ _ _ _ hcalc u hu with h1 | ⟨c, hc, h2⟩
    · simp at h1
    · have hpass := selectRunning_pass (ms.map Prod.fst)
        [.includeFilter a.serviceIDs, .lockedFilter ls] running [] c (by rw [hsel]; exact hc)
      have hnot := filterVerdict_locked _ _ _ hpass
      apply hnot
      rw [← h2, heq, ← hlk]
      exact List.mem_map.mpr ⟨(id, ps), List.mem_filter.mpr ⟨hmem, hlocked⟩, rfl⟩

/-- Witness of C6: with a planned change for the locked `default/hello` and one
for `default/web`, the only update is for `default/web`. -/
theorem Automated_never_updates_locked_witness :
    (∃ ups, exAutomated.ServiceUpdates exParse exContext = .ok ups ∧
      ups.map ServiceUpdate.serviceID = ["default/web"]) ∧
    ∀ ups, exAutomated.ServiceUpdates exParse exContext = .ok ups →
      ∀ u ∈ ups, u.serviceID ≠ "default/hello" :=
  ⟨⟨_, rfl, by decide⟩,
    fun ups h => (Automated_never_updates_locked exParse exAutomated exContext).2 ups _
      "default/hello" [("automated", "true"), ("locked", "true")] h rfl (by decide) (by decide)⟩

/-! ## Claims on the image map -/

theorem latestImageLoop_eq_find (l : List ImageDescription) :
    latestImageLoop l = l.find? (fun image => !equalFold image.id.tag "latest") := by
  induction l with
  | nil => rfl
  | cons image rest ih =>
    by_cases h : equalFold image.id.tag "latest" = true
    · simp [latestImageLoop, List.find?, h, ih]
    · simp [latestImageLoop, List.find?, h]

theorem foldChar_eq_letter (c : Char) (t : Nat)
    (ht : t = 108 ∨ t = 97 ∨ t = 116 ∨ t = 101) :
    foldChar c = Char.ofNat t ↔ c = Char.ofNat t ∨ c = Char.ofNat (t - 32) := by
  have hc : c = Char.ofNat c.toNat := (Char.ofNat_toNat c).symm
  by_cases hu : 65 ≤ c.toNat ∧ c.toNat ≤ 90
  · obtain ⟨h1, h2⟩ := hu
    generalize c.toNat = n at hc h1 h2
    subst hc
    interval_cases n <;> rcases ht with rfl | rfl | rfl | rfl <;> decide
  · by_cases hs : c.toNat = 0x17F
    · rw [hs] at hc
      subst hc
      rcases ht with rfl | rfl | rfl | rfl <;> decide
    · by_cases hk : c.toNat = 0x212A
      · rw [hk] at hc
        subst hc
        rcases ht with rfl | rfl | rfl | rfl <;> decide
      · have hf : foldChar c = c := by
          unfold foldChar
          rw [if_neg hu, if_neg hs, if_neg hk]
        rw [hf]
        constructor
        · intro h
          exact Or.inl h
        · rintro (h | h)
          · exact h
          · exfalso
            apply hu
            rw [h]
            rcases ht with rfl | rfl | rfl | rfl <;> decide

theorem foldChar_eq_s (c : Char) :
    foldChar c = Char.ofNat 115 ↔
      c = Char.ofNat 115 ∨ c = Char.ofNat 83 ∨ c = Char.ofNat 0x17F := by
  have hc : c = Char.ofNat c.toNat := (Char.ofNat_toNat c).symm
  by_cases hu : 65 ≤ c.toNat ∧ c.toNat ≤ 90
  · obtain ⟨h1, h2⟩ := hu
    generalize c.toNat = n at hc h1 h2
    subst hc
    interval_cases n <;> decide
  · by_cases hs : c.toNat = 0x17F
    · rw [hs] at hc
      subst hc
      decide
    · by_cases hk : c.toNat = 0x212A
      · rw [hk] at hc
        subst hc
        decide
      · have hf : foldChar c = c := by
          unfold foldChar
          rw [if_neg hu, if_neg hs, if_neg hk]
        rw [hf]
        constructor
        · intro h
          exact Or.inl h
        · rintro (h | h | h)
          · exact h
          · exfalso
            apply hu
            rw [h]
            decide
          · exfalso
            apply hs
            rw [h]
            decide

theorem equalFold_latest_iff (tag : String) :
    equalFold tag "latest" = true ↔
      ∃ c1 c2 c3 c4 c5 c6 : Char, tag.data = [c1, c2, c3, c4, c5, c6] ∧
        (c1 = 'l' ∨ c1 = 'L') ∧ (c2 = 'a' ∨ c2 = 'A') ∧ (c3 = 't' ∨ c3 = 'T') ∧
        (c4 = 'e' ∨ c4 = 'E') ∧ (c5 = 's' ∨ c5 = 'S' ∨ c5 = Char.ofNat 0x17F) ∧
        (c6 = 't' ∨ c6 = 'T') := by
  have hl : "latest".data.map foldChar =
      [Char.ofNat 108, Char.ofNat 97, Char.ofNat 116, Char.ofNat 101, Char.ofNat 115,
        Char.ofNat 116] := by decide
  have h1 := fun c => foldChar_eq_letter c 108 (Or.inl rfl)
  have h2 := fun c => foldChar_eq_letter c 97 (Or.inr (Or.inl rfl))
  have h3 := fun c => foldChar_eq_letter c 116 (Or.inr (Or.inr (Or.inl rfl)))
  have h4 := fun c => foldChar_eq_letter c 101 (Or.inr (Or.inr (Or.inr rfl)))
  unfold equalFold
  rw [hl, beq_iff_eq]
  constructor
  · intro h
    simp only [List.map_eq_cons_iff, List.map_eq_nil_iff] at h
    obtain ⟨c1, r1, hd1, e1, c2, r2, hd2, e2, c3, r3, hd3, e3, c4, r4, hd4, e4,
      c5, r5, hd5, e5, c6, r6, hd6, e6, hd7⟩ := h
    refine ⟨c1, c2, c3, c4, c5, c6, ?_, (h1 c1).mp e1, (h2 c2).mp e2, (h3 c3).mp e3,
      (h4 c4).mp e4, (foldChar_eq_s c5).mp e5, (h3 c6).mp e6⟩
    rw [hd1, hd2, hd3, hd4, hd5, hd6, hd7]
  · rintro ⟨c1, c2, c3, c4, c5, c6, hd, e1, e2, e3, e4, e5, e6⟩
    rw [hd]
    simp only [List.map_cons, List.map_nil, List.cons.injEq, and_true]
    exact ⟨(h1 c1).mpr e1, (h2 c2).mpr e2, (h3 c3).mpr e3, (h4 c4).mpr e4,
      (foldChar_eq_s c5).mpr e5, (h3 c6).mpr e6⟩

/-- C7, as the code has it. `LatestImage(repo)` takes no pattern: it is the
first entry of `m[repo]`, in list order, whose tag is not `latest` compared
without regard to case, and it is none exactly when every entry of `m[repo]`
(none, for an empty list or an unknown repository) is tagged `latest`. A tag
counts as `latest` under `strings.EqualFold` exactly when it is the six letters
of that word, each one small or capital, where the long s (U+017F) also stands
for the `s`. -/
theorem LatestImage_first_not_latest (m : ImageMap) (repo : String) :
    m.LatestImage repo =
        (imagesOf m repo).find? (fun image => !equalFold image.id.tag "latest") ∧
      (m.LatestImage repo = none ↔
        ∀ image ∈ imagesOf m repo, equalFold image.id.tag "latest" = true) ∧
      (∀ tag : String, equalFold tag "latest" = true ↔
        ∃ c1 c2 c3 c4 c5 c6 : Char, tag.data = [c1, c2, c3, c4, c5, c6] ∧
          (c1 = 'l' ∨ c1 = 'L') ∧ (c2 = 'a' ∨ c2 = 'A') ∧ (c3 = 't' ∨ c3 = 'T') ∧
          (c4 = 'e' ∨ c4 = 'E') ∧ (c5 = 's' ∨ c5 = 'S' ∨ c5 = Char.ofNat 0x17F) ∧
          (c6 = 't' ∨ c6 = 'T')) := by
  unfold ImageMap.LatestImage
  rw [latestImageLoop_eq_find]
  refine ⟨rfl, ?_, equalFold_latest_iff⟩
  rw [List.find?_eq_none]
  simp

/-- The fold is that of `strings.EqualFold`: a first entry tagged `late`, long s
(U+017F), `t` counts as `latest` and is passed over. -/
theorem LatestImage_folds_long_s :
    ImageMap.LatestImage
        [("img", [⟨⟨"", "img", String.mk ['l', 'a', 't', 'e', Char.ofNat 0x17F, 't']⟩, 20⟩,
          ⟨⟨"", "img", "v1"⟩, 10⟩])] "img" =
      some ⟨⟨"", "img", "v1"⟩, 10⟩ := by
  decide

/-- Counterexample to C7 as stated: with `2.0` listed before `1.3` and the
pattern `1.*`, the first entry that matches the pattern is `1.3`, while
`LatestImage` returns `2.0`. -/
theorem LatestImage_ignores_pattern :
    exImageMap.LatestImage "img" = some ⟨⟨"", "img", "2.0"⟩, 20⟩ ∧
      firstReleasable exImageMap "img" "1.*" = some ⟨⟨"", "img", "1.3"⟩, 10⟩ ∧
      exImageMap.LatestImage "img" ≠ firstReleasable exImageMap "img" "1.*" := by
  decide

/-! ## The job queue: invariants of its operations -/

theorem preserving_id : Preserving (fun r => r) := by
  intro r; exact ⟨rfl, rfl, rfl, fun h => h⟩

theorem preserving_at (id : Nat) (f : Job → Job) (hf : Preserving f) :
    Preserving (fun r => if r.id = id then f r else r) := by
  intro r
  dsimp only
  by_cases h : r.id = id
  · rw [if_pos h]; exact hf r
  · rw [if_neg h]; exact ⟨rfl, rfl, rfl, fun h => h⟩

theorem preserving_claim (now : Int) : Preserving (claim now) := by
  intro r; exact ⟨rfl, rfl, rfl, fun h => h⟩

theorem preserving_beat (now : Int) : Preserving (beat now) := by
  intro r; exact ⟨rfl, rfl, rfl, fun h => h⟩

theorem preserving_unclaim : Preserving unclaim := by
  intro r; exact ⟨rfl, rfl, rfl, fun h => h⟩

theorem preserving_updated (now : Int) (job : Job) : Preserving (updated now job) := by
  intro r
  refine ⟨rfl, rfl, rfl, ?_⟩
  cases hf : r.finishedAt with
  | none => intro _; simp [Job.finished, hf]
  | some t => simp [Job.finished, updated, hf]

/-- Shape of one step: the rows are changed in place, or filtered, or one row
with the next free id, in conflict with no row, is appended. -/
theorem stepQueue_shape (s : Store) (op : QueueOp) :
    ((stepQueue s op).nextID = s.nextID ∧
        ∃ g, Preserving g ∧ (stepQueue s op).rows = s.rows.map g) ∨
      ((stepQueue s op).nextID = s.nextID ∧
        ∃ p, (stepQueue s op).rows = s.rows.filter p) ∨
      (∃ row, (stepQueue s op).nextID = s.nextID + 1 ∧
        (stepQueue s op).rows = s.rows ++ [row] ∧ row.id = s.nextID ∧
        ∀ r ∈ s.rows, distinctPending r row) := by
  cases op with
  | put now inst job =>
    by_cases h : (decide (job.key ≠ "") &&
        s.rows.any (fun r => r.instanceID == inst && r.key == job.key && !r.finished)) = true
    · left
      refine ⟨by simp only [stepQueue, PutJob, h, if_true], fun r => r, preserving_id, ?_⟩
      simp only [stepQueue, PutJob, h, if_true, List.map_id']
    · right; right
      refine ⟨Job.mk s.nextID inst (if job.queue = "" then DefaultQueue else job.queue) job.key
        job.method job.priority
        (job.scheduledAt.getD now) now none none none false false "" [] job.params, ?_, ?_, rfl, ?_⟩
      · simp only [stepQueue, PutJob, h, Bool.false_eq_true, if_false]
      · simp only [stepQueue, PutJob, h, Bool.false_eq_true, if_false]
      · intro r hr hcon
        apply h
        obtain ⟨h1, h2, h3, h4, -⟩ := hcon
        simp only at h1 h2
        rw [Bool.and_eq_true, List.any_eq_true]
        refine ⟨?_, r, hr, ?_⟩
        · rw [← h2]
          exact decide_eq_true h3
        · simp [h1, h2, h4]
  | next now =>
    left
    cases hp : pickJob (s.rows.filter (eligible now)) with
    | none =>
      refine ⟨by simp [stepQueue, NextJob, hp], fun r => r, preserving_id, ?_⟩
      simp [stepQueue, NextJob, hp]
    | some j =>
      refine ⟨by simp [stepQueue, NextJob, hp], _, preserving_at j.id _ (preserving_claim now), ?_⟩
      simp [stepQueue, NextJob, hp, updateRow]
  | update now job =>
    left
    exact ⟨rfl, _, preserving_at job.id _ (preserving_updated now job), rfl⟩
  | heartbeat now id =>
    left
    exact ⟨rfl, _, preserving_at id _ (preserving_beat now), rfl⟩
  | gc now =>
    right; left
    exact ⟨rfl, _, rfl⟩
  | reap now =>
    left
    refine ⟨rfl, fun r => if stale s.staleness now r then unclaim r else r, ?_, rfl⟩
    intro r
    dsimp only
    by_cases h : stale s.staleness now r = true
    · rw [if_pos h]; exact preserving_unclaim r
    · rw [if_neg h]; exact ⟨rfl, rfl, rfl, fun h => h⟩

theorem stepQueue_fresh (s : Store) (op : QueueOp) (h : Fresh s) : Fresh (stepQueue s op) := by
  rcases stepQueue_shape s op with ⟨hn, g, hg, hr⟩ | ⟨hn, p, hr⟩ | ⟨row, hn, hr, hid, -⟩
  · intro r hmem
    rw [hr] at hmem
    obtain ⟨r0, hr0, rfl⟩ := List.mem_map.mp hmem
    rw [hn, (hg r0).1]
    exact h r0 hr0
  · intro r hmem
    rw [hr] at hmem
    rw [hn]
    exact h r (List.mem_filter.mp hmem).1
  · intro r hmem
    rw [hr] at hmem
    rw [hn]
    rcases List.mem_append.mp hmem with h1 | h1
    · exact Nat.lt_succ_of_lt (h r h1)
    · simp only [List.mem_singleton] at h1
      rw [h1, hid]
      exact Nat.lt_succ_self _

theorem stepQueue_pairwise (s : Store) (op : QueueOp)
    (h : s.rows.Pairwise distinctPending) : (stepQueue s op).rows.Pairwise distinctPending := by
  rcases stepQueue_shape s op with ⟨-, g, hg, hr⟩ | ⟨-, p, hr⟩ | ⟨row, -, hr, -, hrow⟩
  · rw [hr]
    refine List.Pairwise.map g ?_ h
    intro a b hab hcon
    obtain ⟨h1, h2, h3, h4, h5⟩ := hcon
    apply hab
    refine ⟨?_, ?_, ?_, (hg a).2.2.2 h4, (hg b).2.2.2 h5⟩
    · rw [← (hg a).2.1, ← (hg b).2.1, h1]
    · rw [← (hg a).2.2.1, ← (hg b).2.2.1, h2]
    · rw [← (hg a).2.2.1]
      exact h3
  · rw [hr]
    exact List.Pairwise.filter p h
  · rw [hr, List.pairwise_append]
    refine ⟨h, List.pairwise_singleton _ _, ?_⟩
    intro a ha b hb
    simp only [List.mem_singleton] at hb
    rw [hb]
    exact hrow a ha

theorem stepQueue_tracks (s : Store) (op : QueueOp) (id : Nat) (inst key : String)
    (h : Tracks id inst key s) : Tracks id inst key (stepQueue s op) := by
  obtain ⟨hlt, hrows⟩ := h
  rcases stepQueue_shape s op with ⟨hn, g, hg, hr⟩ | ⟨hn, p, hr⟩ | ⟨row, hn, hr, hid, -⟩
  · refine ⟨by rw [hn]; exact hlt, ?_⟩
    intro r hmem hrid
    rw [hr] at hmem
    obtain ⟨r0, hr0, rfl⟩ := List.mem_map.mp hmem
    rw [(hg r0).1] at hrid
    rw [(hg r0).2.1, (hg r0).2.2.1]
    exact hrows r0 hr0 hrid
  · refine ⟨by rw [hn]; exact hlt, ?_⟩
    intro r hmem hrid
    rw [hr] at hmem
    exact hrows r (List.mem_filter.mp hmem).1 hrid
  · refine ⟨by rw [hn]; exact Nat.lt_succ_of_lt hlt, ?_⟩
    intro r hmem hrid
    rw [hr] at hmem
    rcases List.mem_append.mp hmem with h1 | h1
    · exact hrows r h1 hrid
    · simp only [List.mem_singleton] at h1
      rw [h1, hid] at hrid
      omega

theorem runQueue_fresh (ops : List QueueOp) (s : Store) (h : Fresh s) : Fresh (runQueue s ops) := by
  induction ops generalizing s with
  | nil => exact h
  | cons op ops ih => exact ih _ (stepQueue_fresh s op h)

theorem runQueue_pairwise (ops : List QueueOp) (s : Store)
    (h : s.rows.Pairwise distinctPending) : (runQueue s ops).rows.Pairwise distinctPending := by
  induction ops generalizing s with
  | nil => exact h
  | cons op ops ih => exact ih _ (stepQueue_pairwise s op h)

theorem runQueue_tracks (ops : List QueueOp) (s : Store) (id : Nat) (inst key : String)
    (h : Tracks id inst key s) : Tracks id inst key (runQueue s ops) := by
  induction ops generalizing s with
  | nil => exact h
  | cons op ops ih => exact ih _ (stepQueue_tracks s op id inst key h)

theorem PutJob_tracks (s s1 : Store) (now : Int) (inst : String) (job : NewJob) (id : Nat)
    (hf : Fresh s) (h : PutJob s now inst job = (s1, .ok id)) : Tracks id inst job.key s1 := by
  unfold PutJob at h
  split at h
  · simp at h
  · simp only [Prod.mk.injEq, Except.ok.injEq] at h
    obtain ⟨h1, h2⟩ := h
    subst h1
    subst h2
    refine ⟨Nat.lt_succ_self _, ?_⟩
    intro r hmem hrid
    rcases List.mem_append.mp hmem with h3 | h3
    · have := hf r h3
      omega
    · simp only [List.mem_singleton] at h3
      rw [h3]
      exact ⟨rfl, rfl⟩

/-! ## Claims on the job queue -/

theorem goesBefore_false_iff (r j : Job) :
    goesBefore r j = false ↔
      r.priority ≤ j.priority ∧ (r.priority = j.priority → j.scheduledAt ≤ r.scheduledAt) := by
  simp only [goesBefore, Bool.or_eq_false_iff, Bool.and_eq_false_iff, decide_eq_false_iff_not]
  constructor
  · rintro ⟨h1, h2 | h2⟩
    · exact ⟨by omega, fun h => absurd h h2⟩
    · exact ⟨by omega, fun _ => by omega⟩
  · rintro ⟨h1, h2⟩
    refine ⟨by omega, ?_⟩
    by_cases h : r.priority = j.priority
    · exact Or.inr (by have := h2 h; omega)
    · exact Or.inl h

theorem pickJob_spec (l : List Job) :
    (pickJob l = none ↔ l = []) ∧
      ∀ j, pickJob l = some j → j ∈ l ∧ ∀ r ∈ l, goesBefore r j = false := by
  induction l with
  | nil => simp [pickJob]
  | cons j0 rest ih =>
    constructor
    · cases hp : pickJob rest with
      | none => simp [pickJob, hp]
      | some b =>
        by_cases hb : goesBefore b j0 = true <;> simp [pickJob, hp, hb]
    · intro j hj
      cases hp : pickJob rest with
      | none =>
        have hnil := ih.1.mp hp
        subst hnil
        simp only [pickJob, Option.some.injEq] at hj
        subst hj
        refine ⟨List.mem_singleton.mpr rfl, ?_⟩
        intro r hr
        rw [List.mem_singleton.mp hr, goesBefore_false_iff]
        exact ⟨le_refl _, fun _ => le_refl _⟩
      | some b =>
        obtain ⟨hbmem, hball⟩ := ih.2 b hp
        by_cases hb : goesBefore b j0 = true
        · simp only [pickJob, hp, hb, if_true, Option.some.injEq] at hj
          subst hj
          refine ⟨List.mem_cons_of_mem _ hbmem, ?_⟩
          intro r hr
          rcases List.mem_cons.mp hr with h1 | h1
          · rw [h1, goesBefore_false_iff]
            simp only [goesBefore, Bool.or_eq_true, Bool.and_eq_true, decide_eq_true_eq] at hb
            rcases hb with h2 | ⟨h2, h3⟩
            · exact ⟨by omega, fun h => by omega⟩
            · exact ⟨by omega, fun _ => by omega⟩
          · exact hball r h1
        · have hb2 : goesBefore b j0 = false := by simpa using hb
          simp only [pickJob, hp, hb2, Bool.false_eq_true, if_false, Option.some.injEq] at hj
          subst hj
          refine ⟨List.mem_cons_self _ _, ?_⟩
          intro r hr
          rcases List.mem_cons.mp hr with h1 | h1
          · rw [h1, goesBefore_false_iff]
            exact ⟨le_refl _, fun _ => le_refl _⟩
          · have h3 := (goesBefore_false_iff r b).mp (hball r h1)
            have h4 := (goesBefore_false_iff b j0).mp hb2
            rw [goesBefore_false_iff]
            obtain ⟨h5, h6⟩ := h3
            obtain ⟨h7, h8⟩ := h4
            refine ⟨by omega, fun h => ?_⟩
            have e1 : r.priority = b.priority := by omega
            have e2 : b.priority = j0.priority := by omega
            have := h6 e1
            have := h8 e2
            omega

/-- C9. `NextJob` at time `now` returns `NoJobAvailable` exactly when no row is
unclaimed, unfinished and scheduled at or before `now` (so on the empty queue,
and when every such row is scheduled in the future); otherwise it returns,
marked claimed, such a row, and no such row has a higher priority, or the same
priority and an earlier scheduled-at. -/
theorem NextJob_selects (s : Store) (now : Int) :
    ((NextJob s now).2 = .error .noJobAvailable ↔
      ∀ r ∈ s.rows, ¬ (r.claimedAt = none ∧ r.finished = false ∧ r.scheduledAt ≤ now)) ∧
    ((NextJob s now).2 = .error .noJobAvailable ∨ ∃ j, (NextJob s now).2 = .ok j) ∧
    (∀ j, (NextJob s now).2 = .ok j →
      ∃ r ∈ s.rows, j = claim now r ∧
        (r.claimedAt = none ∧ r.finished = false ∧ r.scheduledAt ≤ now) ∧
        ∀ r2 ∈ s.rows, (r2.claimedAt = none ∧ r2.finished = false ∧ r2.scheduledAt ≤ now) →
          r2.priority ≤ r.priority ∧
            (r2.priority = r.priority → r.scheduledAt ≤ r2.scheduledAt)) ∧
    (s.rows = [] → (NextJob s now).2 = .error .noJobAvailable) := by
  have helig : ∀ r : Job, eligible now r = true ↔
      (r.claimedAt = none ∧ r.finished = false ∧ r.scheduledAt ≤ now) := by
    intro r
    simp [eligible, Option.isNone_iff_eq_none, and_assoc]
  have hspec := pickJob_spec (s.rows.filter (eligible now))
  have hnone : (NextJob s now).2 = .error .noJobAvailable ↔
      ∀ r ∈ s.rows, ¬ (r.claimedAt = none ∧ r.finished = false ∧ r.scheduledAt ≤ now) := by
    cases hp : pickJob (s.rows.filter (eligible now)) with
    | none =>
      have hnil := hspec.1.mp hp
      simp only [NextJob, hp, true_iff]
      intro r hr hel
      have : r ∈ s.rows.filter (eligible now) :=
        List.mem_filter.mpr ⟨hr, (helig r).mpr hel⟩
      rw [hnil] at this
      cases this
    | some j =>
      obtain ⟨hj, -⟩ := hspec.2 j hp
      obtain ⟨hj1, hj2⟩ := List.mem_filter.mp hj
      simp only [NextJob, hp]
      constructor
      · intro h; cases h
      · intro h
        exact absurd ((helig j).mp hj2) (h j hj1)
  refine ⟨hnone, ?_, ?_, ?_⟩
  · cases hp : pickJob (s.rows.filter (eligible now)) with
    | none => left; simp [NextJob, hp]
    | some j => right; exact ⟨claim now j, by simp [NextJob, hp]⟩
  · intro j hj
    cases hp : pickJob (s.rows.filter (eligible now)) with
    | none => simp [NextJob, hp] at hj
    | some r =>
      simp only [NextJob, hp, Except.ok.injEq] at hj
      obtain ⟨hr, hall⟩ := hspec.2 r hp
      obtain ⟨hr1, hr2⟩ := List.mem_filter.mp hr
      refine ⟨r, hr1, hj.symm, (helig r).mp hr2, ?_⟩
      intro r2 hr2mem hel2
      exact (goesBefore_false_iff r2 r).mp
        (hall r2 (List.mem_filter.mpr ⟨hr2mem, (helig r2).mpr hel2⟩))
  · intro hempty
    rw [hnone, hempty]
    intro r hr
    cases hr

/-- Witness of C9: with a background job, an interactive job and a job of still
higher priority that is due only at 50, `NextJob` at time 5 hands out the
interactive job. -/
theorem NextJob_selects_witness :
    (∃ j, (NextJob exStoreMixed 5).2 = .ok j ∧ j.key = "b") ∧
      ∃ r ∈ exStoreMixed.rows, r.key = "b" ∧
        ∀ r2 ∈ exStoreMixed.rows,
          (r2.claimedAt = none ∧ r2.finished = false ∧ r2.scheduledAt ≤ 5) →
            r2.priority ≤ r.priority :=
  ⟨⟨_, rfl, rfl⟩,
    by
      obtain ⟨r, hr, hj, -, hall⟩ := (NextJob_selects exStoreMixed 5).2.2.1 _ rfl
      refine ⟨r, hr, ?_, fun r2 h2 h3 => (hall r2 h2 h3).1⟩
      have hk : (claim 5 r).key = "b" := by rw [← hj]; rfl
      exact hk⟩

theorem find_unique_id (rows : List Job) (j : Job) (hid : (rows.map Job.id).Nodup)
    (hj : j ∈ rows) :
    rows.find? (fun r => r.id == j.id && r.instanceID == j.instanceID) = some j := by
  induction rows with
  | nil => cases hj
  | cons r rest ih =>
    have hnd : r.id ∉ rest.map Job.id ∧ (rest.map Job.id).Nodup := by
      simpa using hid
    rcases List.mem_cons.mp hj with h1 | h1
    · subst h1
      simp [List.find?]
    · have hne : r.id ≠ j.id := by
        intro h
        apply hnd.1
        rw [h]
        exact List.mem_map.mpr ⟨j, h1, rfl⟩
      have hb : (r.id == j.id && r.instanceID == j.instanceID) = false := by simp [hne]
      simp only [List.find?, hb]
      exact ih hnd.2 h1

/-- C10. For a queue whose rows have distinct ids, `GC` at time `now` removes
exactly the rows that are done and whose finished-at is before `now` minus the
retention window: such a row is gone and `GetJob` answers `NoSuchJob` for it;
every other row is still there as it was, `GetJob` returns it, and nothing else
of the queue changes. -/
theorem GC_removes_exactly (s : Store) (now : Int) (hid : (s.rows.map Job.id).Nodup) :
    (∀ j ∈ s.rows, (j.done = true ∧ ∃ t, j.finishedAt = some t ∧ t < now - s.retention) →
      j ∉ (GC s now).rows ∧ GetJob (GC s now) j.instanceID j.id = .error .noSuchJob) ∧
    (∀ j ∈ s.rows, ¬ (j.done = true ∧ ∃ t, j.finishedAt = some t ∧ t < now - s.retention) →
      j ∈ (GC s now).rows ∧ GetJob (GC s now) j.instanceID j.id = .ok j) ∧
    (GC s now).rows.Sublist s.rows ∧
    (GC s now).nextID = s.nextID ∧ (GC s now).retention = s.retention ∧
    (GC s now).staleness = s.staleness := by
  have hexp : ∀ j : Job, expired s.retention now j = true ↔
      (j.done = true ∧ ∃ t, j.finishedAt = some t ∧ t < now - s.retention) := by
    intro j
    cases hf : j.finishedAt with
    | none => simp [expired, hf]
    | some t => simp [expired, hf]
  have hsub : (GC s now).rows.Sublist s.rows := List.filter_sublist _
  have hid2 : ((GC s now).rows.map Job.id).Nodup := (hsub.map Job.id).nodup hid
  refine ⟨?_, ?_, hsub, rfl, rfl, rfl⟩
  · intro j hj hcond
    have hnot : j ∉ (GC s now).rows := by
      intro hmem
      have := (List.mem_filter.mp hmem).2
      rw [(hexp j).mpr hcond] at this
      cases this
    refine ⟨hnot, ?_⟩
    unfold GetJob
    cases hfind : (GC s now).rows.find? (fun r => r.id == j.id && r.instanceID == j.instanceID) with
    | none => rfl
    | some r =>
      exfalso
      have hr := List.mem_of_find?_eq_some hfind
      have hp := List.find?_some hfind
      simp only [Bool.and_eq_true, beq_iff_eq] at hp
      have hr0 : r ∈ s.rows := hsub.subset hr
      have h1 := find_unique_id s.rows r hid hr0
      have h2 := find_unique_id s.rows j hid hj
      rw [hp.1, hp.2, h2] at h1
      rw [Option.some.inj h1] at hnot
      exact hnot hr
  · intro j hj hcond
    have hmem : j ∈ (GC s now).rows := by
      refine List.mem_filter.mpr ⟨hj, ?_⟩
      cases he : expired s.retention now j with
      | false => rfl
      | true => exact absurd ((hexp j).mp he) hcond
    refine ⟨hmem, ?_⟩
    unfold GetJob
    rw [find_unique_id _ j hid2 hmem]

/-- Witness of C10: well after the retention window `GC` removes the finished
job and keeps the queued one. -/
theorem GC_removes_exactly_witness :
    exRowDone ∈ exStoreFinished.rows ∧ exRowQueued ∈ exStoreFinished.rows ∧
      GetJob (GC exStoreFinished 120) "inst" 0 = .error .noSuchJob ∧
      GetJob (GC exStoreFinished 120) "inst" 1 = .ok exRowQueued :=
  have h := GC_removes_exactly exStoreFinished 120 (by decide)
  ⟨by decide, by decide, (h.1 exRowDone (by decide) ⟨rfl, 3, rfl, by decide⟩).2,
    (h.2.1 exRowQueued (by decide) (by decide)).2⟩

/-! ## The result map and the grouped changes -/

theorem resultGet_resultSet (m : Result) (k : String) (v : ServiceResult) (id : String) :
    resultGet (resultSet m k v) id = if id = k then some v else resultGet m id := by
  induction m with
  | nil =>
    by_cases h : k = id
    · simp [resultSet, resultGet, h]
    · simp [resultSet, resultGet, h, Ne.symm h]
  | cons e m ih =>
    obtain ⟨k0, r0⟩ := e
    by_cases h0 : k0 = k
    · subst h0
      by_cases h : k0 = id
      · simp [resultSet, resultGet, h]
      · simp [resultSet, resultGet, h, Ne.symm h]
    · by_cases h : k0 = id
      · subst h
        simp [resultSet, resultGet, h0]
      · simp only [resultSet, h0, if_false, resultGet, h, ih]

theorem changesOf_cons (k : String) (l : List Change) (m : List (String × List Change))
    (id : String) :
    changesOf ((k, l) :: m) id = if k = id then l else changesOf m id := by
  by_cases h : k = id
  · simp [changesOf, List.find?, h]
  · have hb : (k == id) = false := by simpa using h
    simp only [changesOf, List.find?, hb, h, if_false]

theorem changesOf_absent (m : List (String × List Change)) (id : String)
    (h : m.any (fun e => e.1 == id) = false) : changesOf m id = [] := by
  induction m with
  | nil => rfl
  | cons e m ih =>
    obtain ⟨k, l⟩ := e
    simp only [List.any_cons, Bool.or_eq_false_iff, beq_eq_false_iff_ne, ne_eq] at h
    rw [changesOf_cons, if_neg h.1]
    exact ih h.2

theorem changesOf_append_new (m : List (String × List Change)) (s : String) (l : List Change)
    (id : String) (h : m.any (fun e => e.1 == s) = false) :
    changesOf (m ++ [(s, l)]) id = if s = id then l else changesOf m id := by
  induction m with
  | nil =>
    simp only [List.nil_append, changesOf_cons]
  | cons e m ih =>
    obtain ⟨k, l0⟩ := e
    simp only [List.any_cons, Bool.or_eq_false_iff, beq_eq_false_iff_ne, ne_eq] at h
    simp only [List.cons_append, changesOf_cons]
    by_cases hk : k = id
    · have : ¬ s = id := fun hs => h.1 (hk.trans hs.symm)
      simp [hk, this]
    · simp only [hk, if_false]
      exact ih h.2

theorem changesOf_extend (m : List (String × List Change)) (change : Change) (id : String)
    (h : m.any (fun e => e.1 == change.service) = true) :
    changesOf (m.map (fun e => if e.1 = change.service then (e.1, e.2 ++ [change]) else e)) id =
      if change.service = id then changesOf m id ++ [change] else changesOf m id := by
  induction m with
  | nil => simp at h
  | cons e m ih =>
    obtain ⟨k, l0⟩ := e
    simp only [List.map_cons]
    by_cases hk : k = change.service
    · simp only [hk, if_true, changesOf_cons]
      by_cases hid : change.service = id
      · simp [hid]
      · simp only [hid, if_false]
        by_cases hany : m.any (fun e => e.1 == change.service) = true
        · rw [ih hany, if_neg hid]
        · have hmap : m.map (fun e => if e.1 = change.service then (e.1, e.2 ++ [change]) else e)
              = m := by
            have hall : ∀ e ∈ m, e.1 ≠ change.service := by
              intro e he hc
              apply hany
              rw [List.any_eq_true]
              exact ⟨e, he, by simp [hc]⟩
            conv_rhs => rw [← List.map_id m]
            apply List.map_congr_left
            intro e he
            simp [hall e he]
          rw [hmap]
    · have hany : m.any (fun e => e.1 == change.service) = true := by
        simpa [List.any_cons, hk] using h
      simp only [hk, if_false, changesOf_cons]
      by_cases hid : k = id
      · have : ¬ change.service = id := fun hc => hk (hid.trans hc.symm)
        simp [hid, this]
      · simp only [hid, if_false]
        exact ih hany

/-- The step of the fold that builds `serviceMap`. -/
theorem serviceMap_fold (changes : List Change) (set : List (String × List Change))
    (seen : List Change)
    (hget : ∀ id, changesOf set id = seen.filter (fun c => c.service == id))
    (hkeys : ∀ id, set.any (fun e => e.1 == id) = seen.any (fun c => c.service == id)) :
    let out := changes.foldl
      (fun set change =>
        if set.any (fun e => e.1 == change.service) then
          set.map (fun e => if e.1 = change.service then (e.1, e.2 ++ [change]) else e)
        else set ++ [(change.service, [change])])
      set
    (∀ id, changesOf out id = (seen ++ changes).filter (fun c => c.service == id)) ∧
      (∀ id, out.any (fun e => e.1 == id) = (seen ++ changes).any (fun c => c.service == id)) := by
  induction changes generalizing set seen with
  | nil => simpa using ⟨hget, hkeys⟩
  | cons change rest ih =>
    simp only [List.foldl_cons]
    have happ : seen ++ change :: rest = (seen ++ [change]) ++ rest := by simp
    rw [happ]
    by_cases hany : set.any (fun e => e.1 == change.service) = true
    · rw [if_pos hany]
      apply ih
      · intro id
        rw [changesOf_extend set change id hany, List.filter_append, hget id]
        by_cases hid : change.service = id
        · simp [hid]
        · simp [hid]
      · intro id
        rw [List.any_append, ← hkeys id]
        by_cases hid : change.service = id
        · subst hid
          simp only [List.any_cons, List.any_nil, beq_self_eq_true, Bool.or_false,
            Bool.or_true]
          rw [List.any_eq_true]
          rw [List.any_eq_true] at hany
          obtain ⟨e, he, hek⟩ := hany
          refine ⟨_, List.mem_map.mpr ⟨e, he, rfl⟩, ?_⟩
          have : e.1 = change.service := by simpa using hek
          simp [this]
        · have hmap : ∀ l : List (String × List Change),
              (l.map (fun e => if e.1 = change.service then (e.1, e.2 ++ [change]) else e)).any
                (fun e => e.1 == id) = l.any (fun e => e.1 == id) := by
            intro l
            induction l with
            | nil => rfl
            | cons e l ihl =>
              simp only [List.map_cons, List.any_cons, ihl]
              by_cases he : e.1 = change.service <;> simp [he]
          rw [hmap]
          simp [hid]
    · have hany2 : set.any (fun e => e.1 == change.service) = false := by
        cases hb : set.any (fun e => e.1 == change.service) with
        | false => rfl
        | true => exact absurd hb hany
      rw [if_neg hany]
      apply ih
      · intro id
        rw [changesOf_append_new set change.service [change] id hany2, List.filter_append, hget id]
        by_cases hid : change.service = id
        · subst hid
          have hnone : seen.filter (fun c => c.service == change.service) = [] := by
            rw [← hget, changesOf_absent set _ hany2]
          simp [hnone]
        · simp [hid]
      · intro id
        rw [List.any_append, List.any_append, hkeys id]
        simp

theorem serviceMap_changesOf (a : Automated) (id : String) :
    changesOf a.serviceMap id = a.changes.filter (fun c => c.service == id) := by
  have h := (serviceMap_fold a.changes [] [] (by intro id; rfl) (by intro id; rfl)).1 id
  simpa [Automated.serviceMap] using h

theorem serviceIDs_mem (a : Automated) (id : String) :
    id ∈ a.serviceIDs ↔ ∃ c ∈ a.changes, c.service = id := by
  have h := (serviceMap_fold a.changes [] [] (by intro id; rfl) (by intro id; rfl)).2 id
  simp only [List.nil_append] at h
  have h1 : id ∈ a.serviceIDs ↔ a.serviceMap.any (fun e => e.1 == id) = true := by
    simp [Automated.serviceIDs, List.any_eq_true]
  rw [h1]
  have h2 : a.serviceMap.any (fun e => e.1 == id) = a.changes.any (fun c => c.service == id) := by
    simpa [Automated.serviceMap] using h
  rw [h2, List.any_eq_true]
  simp

/-! ## Claim on markSkipped -/

theorem markSkipped_fold (ids : List String) (results : Result) (id : String) :
    resultGet (ids.foldl
        (fun res v =>
          match resultGet res v with
          | some _ => res
          | none => resultSet res v ⟨.skipped, NotInRepo, []⟩)
        results) id =
      match resultGet results id with
      | some r => some r
      | none => if id ∈ ids then some ⟨.skipped, NotInRepo, []⟩ else none := by
  induction ids generalizing results with
  | nil => cases h : resultGet results id <;> simp [h]
  | cons v rest ih =>
    simp only [List.foldl_cons]
    rw [ih]
    cases hv : resultGet results v with
    | some r0 =>
      simp only
      cases hid : resultGet results id with
      | some r => rfl
      | none =>
        have hne : ¬ id = v := fun h => by rw [h, hv] at hid; cases hid
        simp [hne]
    | none =>
      simp only [resultGet_resultSet]
      by_cases hidv : id = v
      · subst hidv
        simp [hv]
      · simp only [hidv, if_false]
        cases hid : resultGet results id with
        | some r => rfl
        | none => simp [hidv]

/-- C14. After `markSkipped`, every workload id of the planned changes that had
no entry in the result has status skipped with reason not-in-repo, every entry
that was present is unchanged, and no other id gets an entry. -/
theorem markSkipped_marks (a : Automated) (results : Result) (id : String) :
    (∀ r, resultGet results id = some r → resultGet (a.markSkipped results) id = some r) ∧
    ((∃ c ∈ a.changes, c.service = id) → resultGet results id = none →
      resultGet (a.markSkipped results) id = some ⟨.skipped, NotInRepo, []⟩) ∧
    ((¬ ∃ c ∈ a.changes, c.service = id) → resultGet results id = none →
      resultGet (a.markSkipped results) id = none) := by
  have h := markSkipped_fold a.serviceIDs results id
  have hmem := serviceIDs_mem a id
  unfold Automated.markSkipped
  refine ⟨?_, ?_, ?_⟩
  · intro r hr
    rw [h, hr]
  · intro hc hr
    rw [h, hr]
    simp [hmem.mpr hc]
  · intro hc hr
    rw [h, hr]
    have : id ∉ a.serviceIDs := fun hin => hc (hmem.mp hin)
    simp [this]

/-- Witness of C14: with changes planned for `default/hello` and `default/web`
and a result that holds `default/hello` only, `default/web` is marked skipped
and the entry of `default/hello` stays. -/
theorem markSkipped_marks_witness :
    resultGet (exAutomated.markSkipped [("default/hello", ⟨.skipped, Locked, []⟩)])
        "default/web" = some ⟨.skipped, NotInRepo, []⟩ ∧
      resultGet (exAutomated.markSkipped [("default/hello", ⟨.skipped, Locked, []⟩)])
        "default/hello" = some ⟨.skipped, Locked, []⟩ :=
  ⟨(markSkipped_marks exAutomated [("default/hello", ⟨.skipped, Locked, []⟩)]
      "default/web").2.1 ⟨_, List.mem_cons_of_mem _ (List.mem_singleton.mpr rfl), rfl⟩
      (by decide),
    (markSkipped_marks exAutomated [("default/hello", ⟨.skipped, Locked, []⟩)]
      "default/hello").1 _ (by decide)⟩

/-! ## The loop of calculateImageUpdates -/

theorem containerUpdatesFor_mem (changes : List Change) (k : ClusterContainer) (cur : ImageRef)
    (x : ContainerUpdate) :
    x ∈ containerUpdatesFor changes k cur ↔
      ∃ c ∈ changes, c.container.name = k.name ∧ x = ContainerUpdate.mk k.name cur c.imageID := by
  simp only [containerUpdatesFor, List.mem_map, List.mem_filter, beq_iff_eq]
  constructor
  · rintro ⟨c, ⟨hc, hn⟩, rfl⟩
    exact ⟨c, hc, hn, rfl⟩
  · rintro ⟨c, hc, hn, rfl⟩
    exact ⟨c, ⟨hc, hn⟩, rfl⟩

theorem collectContainerUpdates_mem (parseImageID : String → Except String ImageRef)
    (changes : List Change) (cs : List ClusterContainer) (acc l : List ContainerUpdate)
    (h : collectContainerUpdates parseImageID changes cs acc = .ok l) (x : ContainerUpdate) :
    x ∈ l ↔ x ∈ acc ∨ ∃ k ∈ cs, ∃ cur, parseImageID k.image = .ok cur ∧
      x ∈ containerUpdatesFor changes k cur := by
  induction cs generalizing acc with
  | nil =>
    simp only [collectContainerUpdates, Except.ok.injEq] at h
    subst h
    simp
  | cons k rest ih =>
    cases hp : parseImageID k.image with
    | error e => simp [collectContainerUpdates, hp] at h
    | ok cur =>
      simp only [collectContainerUpdates, hp] at h
      rw [ih _ h, List.mem_append]
      constructor
      · rintro ((h1 | h1) | ⟨k2, hk2, cur2, hc2, hx⟩)
        · exact Or.inl h1
        · exact Or.inr ⟨k, List.mem_cons_self _ _, cur, hp, h1⟩
        · exact Or.inr ⟨k2, List.mem_cons_of_mem _ hk2, cur2, hc2, hx⟩
      · rintro (h1 | ⟨k2, hk2, cur2, hc2, hx⟩)
        · exact Or.inl (Or.inl h1)
        · rcases List.mem_cons.mp hk2 with h2 | h2
          · subst h2
            rw [hp] at hc2
            cases hc2
            exact Or.inl (Or.inr hx)
          · exact Or.inr ⟨k2, h2, cur2, hc2, hx⟩

theorem collectContainerUpdates_total (parseImageID : String → Except String ImageRef)
    (changes : List Change) (cs : List ClusterContainer) (acc : List ContainerUpdate)
    (h : ∀ k ∈ cs, ∃ id, parseImageID k.image = .ok id) :
    ∃ l, collectContainerUpdates parseImageID changes cs acc = .ok l := by
  induction cs generalizing acc with
  | nil => exact ⟨acc, rfl⟩
  | cons k rest ih =>
    obtain ⟨id, hid⟩ := h k (List.mem_cons_self _ _)
    simp only [collectContainerUpdates, hid]
    exact ih _ (fun k2 hk2 => h k2 (List.mem_cons_of_mem _ hk2))

theorem collectContainerUpdates_error (parseImageID : String → Except String ImageRef)
    (changes : List Change) (cs : List ClusterContainer) (acc : List ContainerUpdate)
    (h : ∃ k ∈ cs, ∃ e, parseImageID k.image = .error e) :
    ∃ e, collectContainerUpdates parseImageID changes cs acc = .error e := by
  induction cs generalizing acc with
  | nil =>
    obtain ⟨k, hk, -⟩ := h
    cases hk
  | cons k rest ih =>
    cases hp : parseImageID k.image with
    | error e => exact ⟨e, by simp [collectContainerUpdates, hp]⟩
    | ok cur =>
      simp only [collectContainerUpdates, hp]
      apply ih
      obtain ⟨k2, hk2, e, he⟩ := h
      rcases List.mem_cons.mp hk2 with h2 | h2
      · subst h2
        rw [hp] at he
        cases he
      · exact ⟨k2, h2, e, he⟩

theorem calculateImageUpdatesLoop_cons (parseImageID : String → Except String ImageRef)
    (sm : List (String × List Change)) (u : ServiceUpdate) (rest acc : List ServiceUpdate)
    (result : Result) :
    calculateImageUpdatesLoop parseImageID sm (u :: rest) acc result =
      match candidateStep parseImageID sm u with
      | .error e => (result, .error e)
      | .ok (r, us) =>
        calculateImageUpdatesLoop parseImageID sm rest (acc ++ us) (resultSet result u.serviceID r) := by
  unfold candidateStep
  cases hc : u.service.containersOrError with
  | error e => simp [calculateImageUpdatesLoop, hc]
  | ok cs =>
    cases hcol : collectContainerUpdates parseImageID (changesOf sm u.serviceID) cs [] with
    | error e => simp [calculateImageUpdatesLoop, hc, hcol]
    | ok l =>
      by_cases hl : l.length > 0
      · simp [calculateImageUpdatesLoop, hc, hcol, hl]
      · simp [calculateImageUpdatesLoop, hc, hcol, hl]

theorem candidateStep_total (parseImageID : String → Except String ImageRef)
    (sm : List (String × List Change)) (u : ServiceUpdate)
    (h : ∀ k ∈ u.service.ContainersOrNil, ∃ id, parseImageID k.image = .ok id) :
    ∃ r us, candidateStep parseImageID sm u = .ok (r, us) := by
  unfold candidateStep
  cases hc : u.service.containersOrError with
  | error e => exact ⟨_, _, rfl⟩
  | ok cs =>
    have h2 : ∀ k ∈ cs, ∃ id, parseImageID k.image = .ok id := by
      intro k hk
      apply h
      simp [Service.ContainersOrNil, hc, hk]
    obtain ⟨l, hl⟩ := collectContainerUpdates_total parseImageID (changesOf sm u.serviceID) cs [] h2
    simp only [hl]
    by_cases hlen : l.length > 0
    · exact ⟨_, _, by rw [if_pos hlen]⟩
    · exact ⟨_, _, by rw [if_neg hlen]⟩

theorem candidateStep_error (parseImageID : String → Except String ImageRef)
    (sm : List (String × List Change)) (u : ServiceUpdate)
    (h : HasUnparseable parseImageID u) :
    ∃ e, candidateStep parseImageID sm u = .error e := by
  unfold candidateStep
  obtain ⟨k, hk, e, he⟩ := h
  cases hc : u.service.containersOrError with
  | error e2 => simp [Service.ContainersOrNil, hc] at hk
  | ok cs =>
    have hk2 : k ∈ cs := by simpa [Service.ContainersOrNil, hc] using hk
    obtain ⟨e3, he3⟩ := collectContainerUpdates_error parseImageID (changesOf sm u.serviceID) cs []
      ⟨k, hk2, e, he⟩
    exact ⟨e3, by simp only [he3]⟩

/-- The loop when every candidate passes: it returns updates, namely those it
started with and those of the candidates, and the entry of each candidate. -/
theorem calculateImageUpdatesLoop_ok (parseImageID : String → Except String ImageRef)
    (sm : List (String × List Change)) (cands acc : List ServiceUpdate) (result : Result)
    (hall : ∀ u ∈ cands, ∃ r us, candidateStep parseImageID sm u = .ok (r, us)) :
    ∃ res ups, calculateImageUpdatesLoop parseImageID sm cands acc result = (res, .ok ups) ∧
      (∀ x, x ∈ ups ↔ x ∈ acc ∨
        ∃ u ∈ cands, ∃ r us, candidateStep parseImageID sm u = .ok (r, us) ∧ x ∈ us) ∧
      (∀ id, id ∉ cands.map ServiceUpdate.serviceID → resultGet res id = resultGet result id) ∧
      (DistinctIDs cands → ∀ u ∈ cands, ∀ r us,
        candidateStep parseImageID sm u = .ok (r, us) → resultGet res u.serviceID = some r) := by
  induction cands generalizing acc result with
  | nil =>
    refine ⟨result, acc, rfl, ?_, fun _ _ => rfl, ?_⟩
    · intro x; simp
    · intro _ u hu; cases hu
  | cons u rest ih =>
    obtain ⟨r, us, hstep⟩ := hall u (List.mem_cons_self _ _)
    obtain ⟨res, ups, hloop, hmem, hframe, hres⟩ :=
      ih (acc ++ us) (resultSet result u.serviceID r)
        (fun u2 hu2 => hall u2 (List.mem_cons_of_mem _ hu2))
    refine ⟨res, ups, ?_, ?_, ?_, ?_⟩
    · rw [calculateImageUpdatesLoop_cons, hstep]
      exact hloop
    · intro x
      rw [hmem x, List.mem_append]
      constructor
      · rintro ((h1 | h1) | ⟨u2, hu2, r2, us2, hs2, hx⟩)
        · exact Or.inl h1
        · exact Or.inr ⟨u, List.mem_cons_self _ _, r, us, hstep, h1⟩
        · exact Or.inr ⟨u2, List.mem_cons_of_mem _ hu2, r2, us2, hs2, hx⟩
      · rintro (h1 | ⟨u2, hu2, r2, us2, hs2, hx⟩)
        · exact Or.inl (Or.inl h1)
        · rcases List.mem_cons.mp hu2 with h2 | h2
          · subst h2
            rw [hstep] at hs2
            cases hs2
            exact Or.inl (Or.inr hx)
          · exact Or.inr ⟨u2, h2, r2, us2, hs2, hx⟩
    · intro id hid
      simp only [List.map_cons, List.mem_cons, not_or] at hid
      rw [hframe id hid.2, resultGet_resultSet, if_neg hid.1]
    · intro hnd u2 hu2 r2 us2 hs2
      have hnd2 : u.serviceID ∉ rest.map ServiceUpdate.serviceID ∧ DistinctIDs rest := by
        simpa [DistinctIDs] using hnd
      rcases List.mem_cons.mp hu2 with h2 | h2
      · subst h2
        rw [hstep] at hs2
        cases hs2
        rw [hframe _ hnd2.1, resultGet_resultSet, if_pos rfl]
      · exact hres hnd2.2 u2 h2 r2 us2 hs2

/-- The loop when some candidate has an image that does not parse: it returns
an error, and has recorded nothing for a candidate with such an image. -/
theorem calculateImageUpdatesLoop_error (parseImageID : String → Except String ImageRef)
    (sm : List (String × List Change)) (cands acc : List ServiceUpdate) (result : Result)
    (hbad : ∃ u ∈ cands, HasUnparseable parseImageID u) :
    ∃ res e, calculateImageUpdatesLoop parseImageID sm cands acc result = (res, .error e) ∧
      (DistinctIDs cands → ∀ u ∈ cands, HasUnparseable parseImageID u →
        resultGet res u.serviceID = resultGet result u.serviceID) := by
  induction cands generalizing acc result with
  | nil =>
    obtain ⟨u, hu, -⟩ := hbad
    cases hu
  | cons u rest ih =>
    rw [calculateImageUpdatesLoop_cons]
    cases hstep : candidateStep parseImageID sm u with
    | error e =>
      exact ⟨result, e, rfl, fun _ _ _ _ => rfl⟩
    | ok p =>
      obtain ⟨r, us⟩ := p
      have hu_ok : ¬ HasUnparseable parseImageID u := by
        intro hb
        obtain ⟨e, he⟩ := candidateStep_error parseImageID sm u hb
        rw [hstep] at he
        cases he
      have hbad2 : ∃ u2 ∈ rest, HasUnparseable parseImageID u2 := by
        obtain ⟨u2, hu2, hb⟩ := hbad
        rcases List.mem_cons.mp hu2 with h2 | h2
        · subst h2; exact absurd hb hu_ok
        · exact ⟨u2, h2, hb⟩
      obtain ⟨res, e, hloop, hkeep⟩ := ih (acc ++ us) (resultSet result u.serviceID r) hbad2
      refine ⟨res, e, hloop, ?_⟩
      intro hnd u2 hu2 hb
      have hnd2 : u.serviceID ∉ rest.map ServiceUpdate.serviceID ∧ DistinctIDs rest := by
        simpa [DistinctIDs] using hnd
      rcases List.mem_cons.mp hu2 with h2 | h2
      · subst h2; exact absurd hb hu_ok
      · rw [hkeep hnd2.2 u2 h2 hb, resultGet_resultSet]
        have hne : u2.serviceID ≠ u.serviceID := by
          intro heq
          apply hnd2.1
          rw [← heq]
          exact List.mem_map.mpr ⟨u2, h2, rfl⟩
        rw [if_neg hne]

theorem collectContainerUpdates_parses (parseImageID : String → Except String ImageRef)
    (changes : List Change) (cs : List ClusterContainer) (acc l : List ContainerUpdate)
    (h : collectContainerUpdates parseImageID changes cs acc = .ok l) :
    ∀ k ∈ cs, ∃ cur, parseImageID k.image = .ok cur := by
  intro k hk
  cases hp : parseImageID k.image with
  | ok cur => exact ⟨cur, rfl⟩
  | error e =>
    obtain ⟨e2, he2⟩ := collectContainerUpdates_error parseImageID changes cs acc ⟨k, hk, e, hp⟩
    rw [h] at he2
    cases he2

/-- The updates collected for a workload are not empty exactly when one of its
containers is named by a planned change for the workload. -/
theorem collected_nonempty_iff (parseImageID : String → Except String ImageRef) (a : Automated)
    (id : String) (cs : List ClusterContainer) (l : List ContainerUpdate)
    (h : collectContainerUpdates parseImageID (changesOf a.serviceMap id) cs [] = .ok l) :
    l.length > 0 ↔
      ∃ k ∈ cs, ∃ c ∈ a.changes, c.service = id ∧ c.container.name = k.name := by
  have hmem := collectContainerUpdates_mem parseImageID _ cs [] l h
  have hparse := collectContainerUpdates_parses parseImageID _ cs [] l h
  rw [gt_iff_lt, List.length_pos]
  constructor
  · intro hne
    obtain ⟨x, hx⟩ := List.exists_mem_of_ne_nil l hne
    rcases (hmem x).mp hx with h1 | ⟨k, hk, cur, -, hin⟩
    · cases h1
    · obtain ⟨c, hc, hn, -⟩ := (containerUpdatesFor_mem _ k cur x).mp hin
      rw [serviceMap_changesOf] at hc
      obtain ⟨hc1, hc2⟩ := List.mem_filter.mp hc
      exact ⟨k, hk, c, hc1, by simpa using hc2, hn⟩
  · rintro ⟨k, hk, c, hc, hs, hn⟩
    obtain ⟨cur, hcur⟩ := hparse k hk
    have hin : ContainerUpdate.mk k.name cur c.imageID ∈ l := by
      rw [hmem]
      refine Or.inr ⟨k, hk, cur, hcur, ?_⟩
      rw [containerUpdatesFor_mem]
      refine ⟨c, ?_, hn, rfl⟩
      rw [serviceMap_changesOf]
      exact List.mem_filter.mpr ⟨hc, by simpa using hs⟩
    exact List.ne_nil_of_mem hin

theorem candidateStep_cases (parseImageID : String → Except String ImageRef)
    (sm : List (String × List Change)) (u : ServiceUpdate) (r : ServiceResult)
    (us : List ServiceUpdate) (h : candidateStep parseImageID sm u = .ok (r, us)) :
    (∃ e, u.service.containersOrError = .error e ∧ r = ⟨.failed, e, []⟩ ∧ us = []) ∨
    (∃ cs l, u.service.containersOrError = .ok cs ∧
      collectContainerUpdates parseImageID (changesOf sm u.serviceID) cs [] = .ok l ∧
      ((l.length > 0 ∧ r = ⟨.success, "", l⟩ ∧ us = [ServiceUpdate.mk u.serviceID u.service l]) ∨
        (¬ l.length > 0 ∧ r = ⟨.ignored, DoesNotUseImage, []⟩ ∧ us = []))) := by
  unfold candidateStep at h
  cases hc : u.service.containersOrError with
  | error e =>
    rw [hc] at h
    simp only [Except.ok.injEq, Prod.mk.injEq] at h
    exact Or.inl ⟨e, rfl, h.1.symm, h.2.symm⟩
  | ok cs =>
    rw [hc] at h
    simp only at h
    cases hcol : collectContainerUpdates parseImageID (changesOf sm u.serviceID) cs [] with
    | error e => rw [hcol] at h; cases h
    | ok l =>
      rw [hcol] at h
      simp only at h
      refine Or.inr ⟨cs, l, rfl, hcol, ?_⟩
      by_cases hl : l.length > 0
      · rw [if_pos hl] at h
        simp only [Except.ok.injEq, Prod.mk.injEq] at h
        exact Or.inl ⟨hl, h.1.symm, h.2.symm⟩
      · rw [if_neg hl] at h
        simp only [Except.ok.injEq, Prod.mk.injEq] at h
        exact Or.inr ⟨hl, h.1.symm, h.2.symm⟩

/-! ## Claims on calculateImageUpdates -/

/-- C11, as the code has it. When the candidates have distinct ids and every
container image of the candidates parses, `calculateImageUpdates` returns, for a
planned change `(w, c, target)` and a candidate `w` with a container named `c`,
an update for `w` whose per-container list contains `(c, current image of c,
target)`, and records status success for `w` with that list in the result. -/
theorem calculateImageUpdates_success (parseImageID : String → Except String ImageRef)
    (a : Automated) (candidates : List ServiceUpdate) (result : Result)
    (u : ServiceUpdate) (cs : List ClusterContainer) (container : ClusterContainer)
    (current : ImageRef) (change : Change)
    (hnd : DistinctIDs candidates) (hparse : AllParse parseImageID candidates)
    (hu : u ∈ candidates) (hcs : u.service.containersOrError = .ok cs)
    (hc : container ∈ cs) (hcur : parseImageID container.image = .ok current)
    (hch : change ∈ a.changes) (hsvc : change.service = u.serviceID)
    (hname : change.container.name = container.name) :
    ∃ res ups l, a.calculateImageUpdates parseImageID candidates result = (res, .ok ups) ∧
      ServiceUpdate.mk u.serviceID u.service l ∈ ups ∧
      ContainerUpdate.mk container.name current change.imageID ∈ l ∧
      resultGet res u.serviceID = some ⟨.success, "", l⟩ := by
  obtain ⟨res, ups, hloop, hmem, -, hres⟩ :=
    calculateImageUpdatesLoop_ok parseImageID a.serviceMap candidates [] result
      (fun u2 hu2 => candidateStep_total parseImageID a.serviceMap u2 (hparse u2 hu2))
  obtain ⟨r, us, hstep⟩ := candidateStep_total parseImageID a.serviceMap u (hparse u hu)
  rcases candidateStep_cases parseImageID a.serviceMap u r us hstep with
    ⟨e, he, -, -⟩ | ⟨cs2, l, hcs2, hcol, hcase⟩
  · rw [hcs] at he; cases he
  · rw [hcs] at hcs2
    cases hcs2
    have hin : ContainerUpdate.mk container.name current change.imageID ∈ l := by
      rw [collectContainerUpdates_mem parseImageID _ cs [] l hcol]
      refine Or.inr ⟨container, hc, current, hcur, ?_⟩
      rw [containerUpdatesFor_mem]
      refine ⟨change, ?_, hname, rfl⟩
      rw [serviceMap_changesOf]
      exact List.mem_filter.mpr ⟨hch, by simpa using hsvc⟩
    have hpos : l.length > 0 := List.length_pos.mpr (List.ne_nil_of_mem hin)
    rcases hcase with ⟨-, hr, hus⟩ | ⟨hno, -, -⟩
    · refine ⟨res, ups, l, hloop, ?_, hin, ?_⟩
      · rw [hmem]
        exact Or.inr ⟨u, hu, r, us, hstep, by rw [hus]; exact List.mem_singleton.mpr rfl⟩
      · rw [hres hnd u hu r us hstep, hr]
    · exact absurd hpos hno

/-- Witness of C11: the change planned for container `web` of `default/web`
gives an update of `default/web` with `(web, img, img:v2)`, recorded as success. -/
theorem calculateImageUpdates_success_witness :
    ∃ res ups l, exAutomated.calculateImageUpdates exParse exCandidates [] = (res, .ok ups) ∧
      ServiceUpdate.mk "default/web" ⟨"default/web", .ok [⟨"web", "img"⟩]⟩ l ∈ ups ∧
      ContainerUpdate.mk "web" ⟨"", "img", ""⟩ exImg2 ∈ l ∧
      resultGet res "default/web" = some ⟨.success, "", l⟩ :=
  calculateImageUpdates_success exParse exAutomated exCandidates []
    ⟨"default/web", ⟨"default/web", .ok [⟨"web", "img"⟩]⟩, []⟩ [⟨"web", "img"⟩] ⟨"web", "img"⟩
    ⟨"", "img", ""⟩ ⟨"default/web", ⟨"web", "img"⟩, exImg2⟩
    (by decide)
    (by
      intro u hu k hk
      simp only [exCandidates, List.mem_cons, List.mem_singleton, List.not_mem_nil,
        or_false] at hu
      rcases hu with rfl | rfl
      · simp only [Service.ContainersOrNil, List.mem_singleton] at hk
        subst hk
        exact ⟨_, rfl⟩
      · simp only [Service.ContainersOrNil, List.mem_singleton] at hk
        subst hk
        exact ⟨_, rfl⟩)
    (List.mem_cons_self _ _) rfl (List.mem_singleton.mpr rfl) rfl
    (List.mem_cons_of_mem _ (List.mem_singleton.mpr rfl)) rfl rfl

/-- Counterexample to C11 as stated: a change is planned for container `web` of
the candidate `default/web`, whose image parses, and a second container of the
workload has an image that does not parse. `CalculateRelease` returns no
update, and `calculateImageUpdates` returns the parse error and no update. -/
theorem CalculateRelease_returns_no_update :
    exParse "img" = .ok ⟨"", "img", ""⟩ ∧
      (exAutomated.CalculateRelease exContext).1 = [] ∧
      (exAutomated.CalculateRelease exContext).2.1 = none ∧
      (exAutomated.calculateImageUpdates exParse exCandidatesSidecar []).2 =
        .error "empty image" := by
  refine ⟨rfl, rfl, rfl, rfl⟩

/-- C12, as the code has it. When the candidates have distinct ids and every
container image of the candidates parses, `calculateImageUpdates` returns
updates; a candidate none of whose containers is named by a planned change for
it is recorded as ignored with reason does-not-use-image and has no update; and
a workload has an update if and only if it is a candidate with a container that
a planned change for it names. -/
theorem calculateImageUpdates_ignored (parseImageID : String → Except String ImageRef)
    (a : Automated) (candidates : List ServiceUpdate) (result : Result)
    (hnd : DistinctIDs candidates) (hparse : AllParse parseImageID candidates) :
    ∃ res ups, a.calculateImageUpdates parseImageID candidates result = (res, .ok ups) ∧
      (∀ u ∈ candidates, ∀ cs, u.service.containersOrError = .ok cs →
        (∀ k ∈ cs, ∀ c ∈ a.changes, c.service = u.serviceID → c.container.name ≠ k.name) →
        resultGet res u.serviceID = some ⟨.ignored, DoesNotUseImage, []⟩ ∧
          ∀ x ∈ ups, x.serviceID ≠ u.serviceID) ∧
      (∀ id, (∃ x ∈ ups, x.serviceID = id) ↔
        ∃ u ∈ candidates, u.serviceID = id ∧
          ∃ k ∈ u.service.ContainersOrNil, ∃ c ∈ a.changes,
            c.service = id ∧ c.container.name = k.name) := by
  obtain ⟨res, ups, hloop, hmem, -, hres⟩ :=
    calculateImageUpdatesLoop_ok parseImageID a.serviceMap candidates [] result
      (fun u2 hu2 => candidateStep_total parseImageID a.serviceMap u2 (hparse u2 hu2))
  have hiff : ∀ id, (∃ x ∈ ups, x.serviceID = id) ↔
      ∃ u ∈ candidates, u.serviceID = id ∧
        ∃ k ∈ u.service.ContainersOrNil, ∃ c ∈ a.changes,
          c.service = id ∧ c.container.name = k.name := by
    intro id
    constructor
    · rintro ⟨x, hx, hxid⟩
      rcases (hmem x).mp hx with h1 | ⟨u, hu, r, us, hstep, hxu⟩
      · cases h1
      · rcases candidateStep_cases parseImageID a.serviceMap u r us hstep with
          ⟨e, -, -, hus⟩ | ⟨cs, l, hcs, hcol, hcase⟩
        · rw [hus] at hxu; cases hxu
        · rcases hcase with ⟨hpos, -, hus⟩ | ⟨-, -, hus⟩
          · rw [hus, List.mem_singleton] at hxu
            have huid : u.serviceID = id := by rw [← hxid, hxu]
            obtain ⟨k, hk, c, hc, hs, hn⟩ :=
              (collected_nonempty_iff parseImageID a u.serviceID cs l hcol).mp hpos
            refine ⟨u, hu, huid, k, ?_, c, hc, by rw [← huid]; exact hs, hn⟩
            simp [Service.ContainersOrNil, hcs, hk]
          · rw [hus] at hxu; cases hxu
    · rintro ⟨u, hu, huid, k, hk, c, hc, hs, hn⟩
      obtain ⟨r, us, hstep⟩ := candidateStep_total parseImageID a.serviceMap u (hparse u hu)
      rcases candidateStep_cases parseImageID a.serviceMap u r us hstep with
        ⟨e, he, -, -⟩ | ⟨cs, l, hcs, hcol, hcase⟩
      · simp [Service.ContainersOrNil, he] at hk
      · have hk2 : k ∈ cs := by simpa [Service.ContainersOrNil, hcs] using hk
        have hpos : l.length > 0 :=
          (collected_nonempty_iff parseImageID a u.serviceID cs l hcol).mpr
            ⟨k, hk2, c, hc, by rw [huid]; exact hs, hn⟩
        rcases hcase with ⟨-, -, hus⟩ | ⟨hno, -, -⟩
        · refine ⟨ServiceUpdate.mk u.serviceID u.service l, ?_, huid⟩
          rw [hmem]
          exact Or.inr ⟨u, hu, r, us, hstep, by rw [hus]; exact List.mem_singleton.mpr rfl⟩
        · exact absurd hpos hno
  refine ⟨res, ups, hloop, ?_, hiff⟩
  intro u hu cs hcs hnone
  obtain ⟨r, us, hstep⟩ := candidateStep_total parseImageID a.serviceMap u (hparse u hu)
  have hinj := List.inj_on_of_nodup_map hnd
  rcases candidateStep_cases parseImageID a.serviceMap u r us hstep with
    ⟨e, he, -, -⟩ | ⟨cs2, l, hcs2, hcol, hcase⟩
  · rw [hcs] at he; cases he
  · rw [hcs] at hcs2
    cases hcs2
    have hno : ¬ l.length > 0 := by
      intro hpos
      obtain ⟨k, hk, c, hc, hs, hn⟩ :=
        (collected_nonempty_iff parseImageID a u.serviceID cs l hcol).mp hpos
      exact hnone k hk c hc hs hn
    rcases hcase with ⟨hpos, -, -⟩ | ⟨-, hr, -⟩
    · exact absurd hpos hno
    · refine ⟨by rw [hres hnd u hu r us hstep, hr], ?_⟩
      intro x hx hxid
      obtain ⟨u2, hu2, huid, k, hk, c, hc, hs, hn⟩ := (hiff u.serviceID).mp ⟨x, hx, hxid⟩
      have heq : u2 = u := hinj hu2 hu huid
      subst heq
      have hk2 : k ∈ cs := by simpa [Service.ContainersOrNil, hcs] using hk
      exact hnone k hk2 c hc hs hn

/-- Witness of C12: of the candidates `default/web` and `default/db`, the first
has an update and the second, which no planned change names, is ignored. -/
theorem calculateImageUpdates_ignored_witness :
    ∃ res ups, exAutomated.calculateImageUpdates exParse exCandidates [] = (res, .ok ups) ∧
      resultGet res "default/db" = some ⟨.ignored, DoesNotUseImage, []⟩ ∧
      (∀ x ∈ ups, x.serviceID ≠ "default/db") ∧
      ∃ x ∈ ups, x.serviceID = "default/web" := by
  obtain ⟨res, ups, hcalc, hign, hiff⟩ :=
    calculateImageUpdates_ignored exParse exAutomated exCandidates [] (by decide)
      (by
        intro u hu k hk
        simp only [exCandidates, List.mem_cons, List.mem_singleton, List.not_mem_nil,
          or_false] at hu
        rcases hu with rfl | rfl
        · simp only [Service.ContainersOrNil, List.mem_singleton] at hk
          subst hk
          exact ⟨_, rfl⟩
        · simp only [Service.ContainersOrNil, List.mem_singleton] at hk
          subst hk
          exact ⟨_, rfl⟩)
  have h1 := hign ⟨"default/db", ⟨"default/db", .ok [⟨"db", "postgres"⟩]⟩, []⟩
    (List.mem_cons_of_mem _ (List.mem_singleton.mpr rfl)) [⟨"db", "postgres"⟩] rfl
    (by
      intro k hk c hc hs
      simp only [exAutomated, List.mem_cons, List.mem_singleton, List.not_mem_nil,
        or_false] at hc
      rcases hc with rfl | rfl <;> simp at hs)
  refine ⟨res, ups, hcalc, h1.1, h1.2, ?_⟩
  exact (hiff "default/web").mpr
    ⟨_, List.mem_cons_self _ _, rfl, ⟨"web", "img"⟩, List.mem_singleton.mpr rfl,
      ⟨"default/web", ⟨"web", "img"⟩, exImg2⟩,
      List.mem_cons_of_mem _ (List.mem_singleton.mpr rfl), rfl, rfl⟩

/-- Counterexample to C12 as stated: no planned change names the container of
the candidate `default/db`, whose image does not parse. The calculation returns
the parse error; `default/db` is not recorded as ignored, and `default/web`,
which a planned change names, is not among returned updates. -/
theorem calculateImageUpdates_not_ignored :
    (exAutomated.calculateImageUpdates exParse exCandidatesUnnamed []).2 =
        .error "empty image" ∧
      resultGet (exAutomated.calculateImageUpdates exParse exCandidatesUnnamed []).1
        "default/db" = none := by
  refine ⟨rfl, rfl⟩

/-- C13, as the code has it. For candidates with distinct ids: when a candidate
has a container whose image does not parse, `calculateImageUpdates` returns an
error and no updates, and the entry of that candidate in the result is as it
was; status failed is recorded, when every image parses, for a candidate whose
container list is not available, with the error of `ContainersOrError`. -/
theorem calculateImageUpdates_unparseable (parseImageID : String → Except String ImageRef)
    (a : Automated) (candidates : List ServiceUpdate) (result : Result)
    (hnd : DistinctIDs candidates) :
    ((∃ u ∈ candidates, HasUnparseable parseImageID u) →
      ∃ res e, a.calculateImageUpdates parseImageID candidates result = (res, .error e) ∧
        ∀ u ∈ candidates, HasUnparseable parseImageID u →
          resultGet res u.serviceID = resultGet result u.serviceID) ∧
    (AllParse parseImageID candidates →
      ∀ u ∈ candidates, ∀ e, u.service.containersOrError = .error e →
        resultGet (a.calculateImageUpdates parseImageID candidates result).1 u.serviceID =
          some ⟨.failed, e, []⟩) := by
  constructor
  · intro hbad
    obtain ⟨res, e, hloop, hkeep⟩ :=
      calculateImageUpdatesLoop_error parseImageID a.serviceMap candidates [] result hbad
    exact ⟨res, e, hloop, hkeep hnd⟩
  · intro hparse u hu e he
    obtain ⟨res, ups, hloop, -, -, hres⟩ :=
      calculateImageUpdatesLoop_ok parseImageID a.serviceMap candidates [] result
        (fun u2 hu2 => candidateStep_total parseImageID a.serviceMap u2 (hparse u2 hu2))
    have hstep : candidateStep parseImageID a.serviceMap u = .ok (⟨.failed, e, []⟩, []) := by
      simp [candidateStep, he]
    unfold Automated.calculateImageUpdates
    rw [hloop]
    exact hres hnd u hu _ _ hstep

/-- Witness of C13: the image of `default/web` does not parse, so the
calculation returns an error and leaves `default/web` without an entry. -/
theorem calculateImageUpdates_unparseable_witness :
    ∃ res e, exAutomated.calculateImageUpdates exParse exCandidatesFailed [] = (res, .error e) ∧
      resultGet res "default/web" = none := by
  obtain ⟨res, e, hcalc, hkeep⟩ :=
    (calculateImageUpdates_unparseable exParse exAutomated exCandidatesFailed [] (by decide)).1
      ⟨_, List.mem_cons_of_mem _ (List.mem_singleton.mpr rfl),
        ⟨"web", ""⟩, List.mem_singleton.mpr rfl, "empty image", rfl⟩
  refine ⟨res, e, hcalc, ?_⟩
  exact hkeep _ (List.mem_cons_of_mem _ (List.mem_singleton.mpr rfl))
    ⟨⟨"web", ""⟩, List.mem_singleton.mpr rfl, "empty image", rfl⟩

/-- Counterexample to C13 as stated: the candidate `default/web` has a container
whose image does not parse; the calculation returns the parse error and
`default/web` has no entry in the result, so it is not recorded as failed. -/
theorem calculateImageUpdates_not_failed :
    (exAutomated.calculateImageUpdates exParse exCandidatesFailed []).2 =
        .error "empty image" ∧
      resultGet (exAutomated.calculateImageUpdates exParse exCandidatesFailed []).1
        "default/web" = none ∧
      resultGet (exAutomated.calculateImageUpdates exParse exCandidatesFailed []).1
        "default/db" = some ⟨.failed, "no containers", []⟩ := by
  refine ⟨rfl, rfl, rfl⟩

/-! ## Claims on image polling -/

theorem pollContainers_services (ops : ImageOps) (cands : ServiceMap) (imageMap : ImageMap)
    (serviceID : String) (cs : List ClusterContainer) (changes : List Change) :
    ∀ c ∈ pollContainers ops cands imageMap serviceID cs changes,
      c ∈ changes ∨ c.service = serviceID := by
  induction cs generalizing changes with
  | nil => intro c hc; exact Or.inl hc
  | cons k rest ih =>
    intro c hc
    unfold pollContainers at hc
    split at hc
    · exact ih _ c hc
    · split at hc
      · split at hc
        · rcases ih _ c hc with h1 | h1
          · rcases List.mem_append.mp h1 with h2 | h2
            · exact Or.inl h2
            · rw [List.mem_singleton.mp h2]
              exact Or.inr rfl
          · exact Or.inr h1
        · exact ih _ c hc
      · exact ih _ c hc

theorem pollServices_services (ops : ImageOps) (cands : ServiceMap) (imageMap : ImageMap)
    (services : List Service) (changes : List Change) :
    ∀ c ∈ pollServices ops cands imageMap services changes,
      c ∈ changes ∨ ∃ s ∈ services, c.service = s.id := by
  induction services generalizing changes with
  | nil => intro c hc; exact Or.inl hc
  | cons s rest ih =>
    intro c hc
    unfold pollServices at hc
    rcases ih _ c hc with h1 | ⟨s2, hs2, h2⟩
    · rcases pollContainers_services ops cands imageMap s.id _ changes c h1 with h3 | h3
      · exact Or.inl h3
      · exact Or.inr ⟨s, List.mem_cons_self _ _, h3⟩
    · exact Or.inr ⟨s2, List.mem_cons_of_mem _ hs2, h2⟩

theorem unlockedAutomatedServices_mem (d : Daemon) (ms : List (String × PolicySet))
    (hms : d.manifests = .ok ms) :
    ∃ m, d.unlockedAutomatedServices = .ok m ∧
      ∀ id, id ∈ m.ToSlice ↔
        (∃ ps, (id, ps) ∈ ms ∧ policyContains ps policyAutomated = true) ∧
          ¬ ∃ ps, (id, ps) ∈ ms ∧ policyContains ps policyLocked = true := by
  have hu : d.unlockedAutomatedServices =
      .ok (ServiceMap.Without (ms.filter (fun e => policyContains e.2 policyAutomated))
        (ms.filter (fun e => policyContains e.2 policyLocked))) := by
    simp only [Daemon.unlockedAutomatedServices, Daemon.ServicesWithPolicy, hms]
  refine ⟨_, hu, ?_⟩
  intro id
  unfold ServiceMap.ToSlice ServiceMap.Without
  constructor
  · intro h
    obtain ⟨e, he, rfl⟩ := List.mem_map.mp h
    obtain ⟨heA, hnot⟩ := List.mem_filter.mp he
    obtain ⟨hems, haut⟩ := List.mem_filter.mp heA
    refine ⟨⟨e.2, hems, haut⟩, ?_⟩
    rintro ⟨ps2, hmem2, hl⟩
    have hany : (ms.filter (fun e => policyContains e.2 policyLocked)).any
        (fun o => o.1 == e.1) = true := by
      rw [List.any_eq_true]
      exact ⟨(e.1, ps2), List.mem_filter.mpr ⟨hmem2, hl⟩, by simp⟩
    rw [hany] at hnot
    cases hnot
  · rintro ⟨⟨ps, hmem, haut⟩, hno⟩
    refine List.mem_map.mpr
      ⟨(id, ps), List.mem_filter.mpr ⟨List.mem_filter.mpr ⟨hmem, haut⟩, ?_⟩, rfl⟩
    cases hany : (ms.filter (fun e => policyContains e.2 policyLocked)).any
        (fun o => o.1 == id) with
    | false => rfl
    | true =>
      exfalso
      rw [List.any_eq_true] at hany
      obtain ⟨o, ho, hoid⟩ := hany
      obtain ⟨homs, hol⟩ := List.mem_filter.mp ho
      have hid : o.1 = id := by simpa using hoid
      apply hno
      exact ⟨o.2, by rw [← hid]; exact homs, hol⟩

/-- C15. The candidate set of `unlockedAutomatedServices` is exactly the
workloads with the `automated` policy less those with the `locked` policy; no
change that `PollImages` hands to `ReleaseChanges` is for a workload with the
`locked` policy; and when the candidate set is empty `PollImages` ends at "no
automated services", before it asks the cluster or the registry. -/
theorem PollImages_ignores_locked (ops : ImageOps) (d : Daemon)
    (ms : List (String × PolicySet)) (hms : d.manifests = .ok ms) :
    (∃ m, d.unlockedAutomatedServices = .ok m ∧
      ∀ id, id ∈ m.ToSlice ↔
        (∃ ps, (id, ps) ∈ ms ∧ policyContains ps policyAutomated = true) ∧
          ¬ ∃ ps, (id, ps) ∈ ms ∧ policyContains ps policyLocked = true) ∧
    (∀ changes, d.PollImages ops = .released changes →
      ∀ c ∈ changes.changes, ¬ ∃ ps, (c.service, ps) ∈ ms ∧ policyContains ps policyLocked = true) ∧
    (d.unlockedAutomatedServices = .ok [] → d.PollImages ops = .noAutomatedServices) := by
  obtain ⟨m, hm, hmem⟩ := unlockedAutomatedServices_mem d ms hms
  refine ⟨⟨m, hm, hmem⟩, ?_, ?_⟩
  · intro changes hpoll c hc
    unfold Daemon.PollImages at hpoll
    rw [hm] at hpoll
    simp only at hpoll
    split at hpoll
    · cases hpoll
    · cases hsome : d.SomeServices m.ToSlice with
      | error e => rw [hsome] at hpoll; cases hpoll
      | ok services =>
        rw [hsome] at hpoll
        simp only at hpoll
        split at hpoll
        · cases hpoll
        · simp only [PollOutcome.released.injEq] at hpoll
          rw [← hpoll] at hc
          rcases pollServices_services ops m _ services [] c hc with h1 | ⟨s, hs, hcs⟩
          · cases h1
          · have hsid : s.id ∈ m.ToSlice := by
              unfold Daemon.SomeServices at hsome
              cases hcl : d.cluster with
              | error e => rw [hcl] at hsome; cases hsome
              | ok running =>
                rw [hcl] at hsome
                simp only [Except.ok.injEq] at hsome
                rw [← hsome] at hs
                have := (List.mem_filter.mp hs).2
                simpa using this
            rw [hcs]
            exact ((hmem s.id).mp hsid).2
  · intro hempty
    simp [Daemon.PollImages, hempty]

/-- Witness of C15: `default/hello` is automated and locked, `default/web` is
automated; the candidates are `default/web` alone and every change handed to
`ReleaseChanges` is for it. -/
theorem PollImages_ignores_locked_witness :
    (∃ m, exDaemon.unlockedAutomatedServices = .ok m ∧ m.ToSlice = ["default/web"]) ∧
      (∃ changes, exDaemon.PollImages exImageOps = .released changes ∧
        changes.changes.map Change.service = ["default/web"]) ∧
      ∀ changes, exDaemon.PollImages exImageOps = .released changes →
        ∀ c ∈ changes.changes, ¬ ∃ ps, (c.service, ps) ∈
          [("default/hello", [("automated", "true"), ("locked", "true")]),
            ("default/web", [("automated", "true"), ("tag.web", "glob:1.*")])] ∧
          policyContains ps policyLocked = true :=
  ⟨⟨_, rfl, by decide⟩, ⟨_, rfl, by decide⟩,
    (PollImages_ignores_locked exImageOps exDaemon _ rfl).2.1⟩

theorem trimPrefix_glob (p : String) : trimPrefix ("glob:" ++ p) "glob:" = p := by
  have hdata : ("glob:" ++ p).data = 'g' :: 'l' :: 'o' :: 'b' :: ':' :: p.data := by
    rw [String.data_append]
    rfl
  have hpre : "glob:".data = ['g', 'l', 'o', 'b', ':'] := rfl
  unfold trimPrefix
  rw [hdata, hpre]
  simp [List.isPrefixOf]

theorem policyGet_some_mem (ps : PolicySet) (key v : String) (h : policyGet ps key = some v) :
    (key, v) ∈ ps := by
  induction ps with
  | nil => cases h
  | cons e ps ih =>
    obtain ⟨k, v0⟩ := e
    by_cases hk : k = key
    · simp only [policyGet, hk, if_true, Option.some.injEq] at h
      rw [hk, h]
      exact List.mem_cons_self _ _
    · simp only [policyGet, hk, if_false] at h
      exact List.mem_cons_of_mem _ (ih h)

theorem isTagPolicy_tag (container : String) : isTagPolicy ("tag." ++ container) = true := by
  have hdata : ("tag." ++ container).data = 't' :: 'a' :: 'g' :: '.' :: container.data := by
    rw [String.data_append]
    rfl
  have hpre : "tag".data = ['t', 'a', 'g'] := rfl
  unfold isTagPolicy
  rw [hdata, hpre]
  simp [List.isPrefixOf]

/-- C16. `getTagPattern` returns the value stored under the workload's
`tag.<container>` policy with a leading `glob:` removed, so `p` for the value
`glob:p`, when that policy is present; it returns `*` when it is absent, and so
when the workload has no tag policy at all. -/
theorem getTagPattern_spec (services : ServiceMap) (service container : String) :
    (∀ pattern, policyGet (policiesOf services service) ("tag." ++ container) = some pattern →
      getTagPattern services service container = trimPrefix pattern "glob:") ∧
    (∀ p, policyGet (policiesOf services service) ("tag." ++ container) = some ("glob:" ++ p) →
      getTagPattern services service container = p) ∧
    (policyGet (policiesOf services service) ("tag." ++ container) = none →
      getTagPattern services service container = "*") ∧
    ((∀ e ∈ policiesOf services service, isTagPolicy e.1 = false) →
      getTagPattern services service container = "*") := by
  refine ⟨?_, ?_, ?_, ?_⟩
  · intro pattern h
    simp [getTagPattern, h]
  · intro p h
    simp only [getTagPattern, h]
    exact trimPrefix_glob p
  · intro h
    simp [getTagPattern, h]
  · intro h
    cases hg : policyGet (policiesOf services service) ("tag." ++ container) with
    | none => simp [getTagPattern, hg]
    | some v =>
      have := h _ (policyGet_some_mem _ _ _ hg)
      rw [isTagPolicy_tag] at this
      cases this

/-- Witness of C16: `default/web` has `tag.web` = `glob:1.*`, so the pattern of
its container `web` is `1.*`; an unknown workload has the pattern `*`. -/
theorem getTagPattern_spec_witness :
    getTagPattern exServices "default/web" "web" = "1.*" ∧
      getTagPattern exServices "default/none" "web" = "*" :=
  ⟨(getTagPattern_spec exServices "default/web" "web").2.1 "1.*" (by decide),
    (getTagPattern_spec exServices "default/none" "web").2.2.2 (by decide)⟩

/-- C17, the code at the failing input: `default/hello` has `tag-all` =
`glob:master-*` and no `tag.hello`; the pattern `getTagPattern` gives for its
container `hello` is `*`, not `master-*`. -/
theorem getTagPattern_ignores_tag_all :
    policyGet (policiesOf exServices "default/hello") policyTagAll = some "glob:master-*" ∧
      policyGet (policiesOf exServices "default/hello") ("tag." ++ "hello") = none ∧
      getTagPattern exServices "default/hello" "hello" = "*" := by
  decide

/-! ## Building the image map -/

theorem imageKeys_imageMapSet_mem (m : ImageMap) (repo : String) (l : List ImageDescription)
    (x : String) :
    x ∈ imageKeys (imageMapSet m repo l) ↔ x ∈ imageKeys m ∨ x = repo := by
  induction m with
  | nil => simp [imageMapSet, imageKeys]
  | cons e m ih =>
    obtain ⟨k, l0⟩ := e
    by_cases hk : k = repo
    · subst hk
      simp only [imageMapSet, if_true, imageKeys, List.map_cons, List.mem_cons]
      constructor
      · intro h; exact Or.inl h
      · rintro (h | h)
        · exact h
        · exact Or.inl h
    · simp only [imageMapSet, hk, if_false, imageKeys, List.map_cons, List.mem_cons] at ih ⊢
      rw [ih]
      constructor
      · rintro (h | h | h)
        · exact Or.inl (Or.inl h)
        · exact Or.inl (Or.inr h)
        · exact Or.inr h
      · rintro ((h | h) | h)
        · exact Or.inl h
        · exact Or.inr (Or.inl h)
        · exact Or.inr (Or.inr h)

theorem imageKeys_imageMapSet_nodup (m : ImageMap) (repo : String) (l : List ImageDescription)
    (h : (imageKeys m).Nodup) : (imageKeys (imageMapSet m repo l)).Nodup := by
  induction m with
  | nil => simp [imageMapSet, imageKeys]
  | cons e m ih =>
    obtain ⟨k, l0⟩ := e
    have hnd : k ∉ imageKeys m ∧ (imageKeys m).Nodup := by
      simpa [imageKeys] using h
    by_cases hk : k = repo
    · simpa [imageMapSet, hk, imageKeys] using h
    · have hnot : k ∉ imageKeys (imageMapSet m repo l) := by
        rw [imageKeys_imageMapSet_mem]
        rintro (h1 | h1)
        · exact hnd.1 h1
        · exact hk h1
      have := ih hnd.2
      simp only [imageMapSet, hk, if_false, imageKeys, List.map_cons, List.nodup_cons]
      exact ⟨hnot, this⟩

theorem imageKeys_imageMapSet_present (m : ImageMap) (repo : String) (l : List ImageDescription)
    (h : repo ∈ imageKeys m) : imageKeys (imageMapSet m repo l) = imageKeys m := by
  induction m with
  | nil => simp [imageKeys] at h
  | cons e m ih =>
    obtain ⟨k, l0⟩ := e
    by_cases hk : k = repo
    · simp [imageMapSet, hk, imageKeys]
    · have hin : repo ∈ imageKeys m := by
        simp only [imageKeys, List.map_cons, List.mem_cons] at h
        rcases h with h1 | h1
        · exact absurd h1.symm hk
        · exact h1
      have := ih hin
      simp only [imageMapSet, hk, if_false, imageKeys, List.map_cons] at this ⊢
      rw [this]

theorem imagesOf_imageMapSet (m : ImageMap) (repo : String) (l : List ImageDescription)
    (x : String) :
    imagesOf (imageMapSet m repo l) x = if x = repo then l else imagesOf m x := by
  induction m with
  | nil =>
    by_cases h : repo = x
    · simp [imageMapSet, imagesOf, h]
    · simp [imageMapSet, imagesOf, h, Ne.symm h]
  | cons e m ih =>
    obtain ⟨k, l0⟩ := e
    by_cases hk : k = repo
    · subst hk
      by_cases h : k = x
      · simp [imageMapSet, imagesOf, h]
      · simp [imageMapSet, imagesOf, h, Ne.symm h]
    · by_cases h : k = x
      · subst h
        simp [imageMapSet, imagesOf, hk]
      · simp only [imageMapSet, hk, if_false, imagesOf, h, ih]

theorem enterContainers_spec (ops : ImageOps) (cs : List ClusterContainer) (images : ImageMap) :
    ((∃ k ∈ cs, ∃ e, ops.parseImageID k.image = .error e) →
      ∃ e, enterContainers ops cs images = .error e) ∧
    ((∀ k ∈ cs, ∃ id, ops.parseImageID k.image = .ok id) →
      ∃ m, enterContainers ops cs images = .ok m ∧
        ((imageKeys images).Nodup → (imageKeys m).Nodup) ∧
        ∀ x, x ∈ imageKeys m ↔ x ∈ imageKeys images ∨
          ∃ k ∈ cs, ∃ id, ops.parseImageID k.image = .ok id ∧ ops.repositoryOf id = x) := by
  induction cs generalizing images with
  | nil =>
    refine ⟨?_, ?_⟩
    · rintro ⟨k, hk, -⟩; cases hk
    · intro _
      exact ⟨images, rfl, fun h => h, by intro x; simp⟩
  | cons k rest ih =>
    cases hp : ops.parseImageID k.image with
    | error e =>
      refine ⟨fun _ => ⟨e, by simp [enterContainers, hp]⟩, ?_⟩
      intro hall
      obtain ⟨id, hid⟩ := hall k (List.mem_cons_self _ _)
      rw [hp] at hid
      cases hid
    | ok id =>
      obtain ⟨ih1, ih2⟩ := ih (imageMapSet images (ops.repositoryOf id) [])
      refine ⟨?_, ?_⟩
      · rintro ⟨k2, hk2, e, he⟩
        simp only [enterContainers, hp]
        apply ih1
        rcases List.mem_cons.mp hk2 with h2 | h2
        · subst h2
          rw [hp] at he
          cases he
        · exact ⟨k2, h2, e, he⟩
      · intro hall
        obtain ⟨m, hm, hnd, hmem⟩ := ih2 (fun k2 hk2 => hall k2 (List.mem_cons_of_mem _ hk2))
        refine ⟨m, by simp only [enterContainers, hp]; exact hm, ?_, ?_⟩
        · intro h
          exact hnd (imageKeys_imageMapSet_nodup _ _ _ h)
        · intro x
          rw [hmem x, imageKeys_imageMapSet_mem]
          constructor
          · rintro ((h1 | h1) | ⟨k2, hk2, id2, hp2, hr2⟩)
            · exact Or.inl h1
            · exact Or.inr ⟨k, List.mem_cons_self _ _, id, hp, h1.symm⟩
            · exact Or.inr ⟨k2, List.mem_cons_of_mem _ hk2, id2, hp2, hr2⟩
          · rintro (h1 | ⟨k2, hk2, id2, hp2, hr2⟩)
            · exact Or.inl (Or.inl h1)
            · rcases List.mem_cons.mp hk2 with h2 | h2
              · subst h2
                rw [hp] at hp2
                cases hp2
                exact Or.inl (Or.inr hr2.symm)
              · exact Or.inr ⟨k2, h2, id2, hp2, hr2⟩

theorem enterServices_spec (ops : ImageOps) (services : List Service) (images : ImageMap) :
    ((∃ s ∈ services, ∃ k ∈ s.ContainersOrNil, ∃ e, ops.parseImageID k.image = .error e) →
      ∃ e, enterServices ops services images = .error e) ∧
    ((∀ s ∈ services, ∀ k ∈ s.ContainersOrNil, ∃ id, ops.parseImageID k.image = .ok id) →
      ∃ m, enterServices ops services images = .ok m ∧
        ((imageKeys images).Nodup → (imageKeys m).Nodup) ∧
        ∀ x, x ∈ imageKeys m ↔ x ∈ imageKeys images ∨ UsedRepo ops services x) := by
  induction services generalizing images with
  | nil =>
    refine ⟨?_, ?_⟩
    · rintro ⟨s, hs, -⟩; cases hs
    · intro _
      refine ⟨images, rfl, fun h => h, ?_⟩
      intro x
      simp [UsedRepo]
  | cons s rest ih =>
    obtain ⟨hc1, hc2⟩ := enterContainers_spec ops s.ContainersOrNil images
    by_cases hbad : ∃ k ∈ s.ContainersOrNil, ∃ e, ops.parseImageID k.image = .error e
    · obtain ⟨e, he⟩ := hc1 hbad
      refine ⟨fun _ => ⟨e, by simp [enterServices, he]⟩, ?_⟩
      intro hall
      obtain ⟨k, hk, e2, he2⟩ := hbad
      obtain ⟨id, hid⟩ := hall s (List.mem_cons_self _ _) k hk
      rw [he2] at hid
      cases hid
    · have hgood : ∀ k ∈ s.ContainersOrNil, ∃ id, ops.parseImageID k.image = .ok id := by
        intro k hk
        cases hp : ops.parseImageID k.image with
        | ok id => exact ⟨id, rfl⟩
        | error e => exact absurd ⟨k, hk, e, hp⟩ hbad
      obtain ⟨m1, hm1, hnd1, hmem1⟩ := hc2 hgood
      obtain ⟨ih1, ih2⟩ := ih m1
      refine ⟨?_, ?_⟩
      · rintro ⟨s2, hs2, k, hk, e, he⟩
        simp only [enterServices, hm1]
        apply ih1
        rcases List.mem_cons.mp hs2 with h2 | h2
        · subst h2
          exact absurd ⟨k, hk, e, he⟩ hbad
        · exact ⟨s2, h2, k, hk, e, he⟩
      · intro hall
        obtain ⟨m, hm, hnd, hmem⟩ := ih2 (fun s2 hs2 => hall s2 (List.mem_cons_of_mem _ hs2))
        refine ⟨m, by simp only [enterServices, hm1]; exact hm, fun h => hnd (hnd1 h), ?_⟩
        intro x
        rw [hmem x, hmem1 x]
        constructor
        · rintro ((h1 | ⟨k, hk, id, hp, hr⟩) | ⟨s2, hs2, k, hk, id, hp, hr⟩)
          · exact Or.inl h1
          · exact Or.inr ⟨s, List.mem_cons_self _ _, k, hk, id, hp, hr⟩
          · exact Or.inr ⟨s2, List.mem_cons_of_mem _ hs2, k, hk, id, hp, hr⟩
        · rintro (h1 | ⟨s2, hs2, k, hk, id, hp, hr⟩)
          · exact Or.inl (Or.inl h1)
          · rcases List.mem_cons.mp hs2 with h2 | h2
            · subst h2
              exact Or.inl (Or.inr ⟨k, hk, id, hp, hr⟩)
            · exact Or.inr ⟨s2, h2, k, hk, id, hp, hr⟩

theorem describeImages_error (ops : ImageOps) (l : List RegistryImage)
    (h : ∃ im ∈ l, ∃ e, ops.parseImageID im.name = .error e) :
    ∃ e, describeImages ops l = .error e := by
  induction l with
  | nil => obtain ⟨im, him, -⟩ := h; cases him
  | cons im rest ih =>
    cases hp : ops.parseImageID im.name with
    | error e => exact ⟨e, by simp [describeImages, hp]⟩
    | ok id =>
      have hrest : ∃ im2 ∈ rest, ∃ e, ops.parseImageID im2.name = .error e := by
        obtain ⟨im2, him2, e, he⟩ := h
        rcases List.mem_cons.mp him2 with h2 | h2
        · subst h2
          rw [hp] at he
          cases he
        · exact ⟨im2, h2, e, he⟩
      obtain ⟨e, he⟩ := ih hrest
      exact ⟨e, by simp [describeImages, hp, he]⟩

theorem describeImages_total (ops : ImageOps) (l : List RegistryImage)
    (h : ∀ im ∈ l, ∃ id, ops.parseImageID im.name = .ok id) :
    ∃ res, describeImages ops l = .ok res := by
  induction l with
  | nil => exact ⟨[], rfl⟩
  | cons im rest ih =>
    obtain ⟨id, hid⟩ := h im (List.mem_cons_self _ _)
    obtain ⟨res, hres⟩ := ih (fun im2 h2 => h im2 (List.mem_cons_of_mem _ h2))
    exact ⟨ImageDescription.mk id im.createdAt :: res, by simp [describeImages, hid, hres]⟩

/-- A repository either is fetched in full or fails. -/
theorem repoFails_iff (ops : ImageOps) (reg : String → Except String (List RegistryImage))
    (repo : String) : RepoFails ops reg repo ↔ ¬ ∃ res, RepoOk ops reg repo res := by
  constructor
  · rintro (⟨e, he⟩ | ⟨r, e, hr, he⟩ | ⟨r, l, im, e, hr, hl, him, he⟩) ⟨res, r2, l2, hr2, hl2, hd2⟩
    · rw [he] at hr2; cases hr2
    · rw [hr] at hr2
      cases hr2
      rw [he] at hl2
      cases hl2
    · rw [hr] at hr2
      cases hr2
      rw [hl] at hl2
      cases hl2
      obtain ⟨e2, he2⟩ := describeImages_error ops l ⟨im, him, e, he⟩
      rw [he2] at hd2
      cases hd2
  · intro hno
    cases hr : ops.parseRepository repo with
    | error e => exact Or.inl ⟨e, hr⟩
    | ok r =>
      cases hl : reg r with
      | error e => exact Or.inr (Or.inl ⟨r, e, hr, hl⟩)
      | ok l =>
        by_cases hall : ∀ im ∈ l, ∃ id, ops.parseImageID im.name = .ok id
        · obtain ⟨res, hres⟩ := describeImages_total ops l hall
          exact absurd ⟨res, r, l, hr, hl, hres⟩ hno
        · push_neg at hall
          obtain ⟨im, him, hne⟩ := hall
          cases hp : ops.parseImageID im.name with
          | ok id => exact absurd hp (hne id)
          | error e => exact Or.inr (Or.inr ⟨r, l, im, e, hr, hl, him, hp⟩)

theorem fetchRepositories_spec (ops : ImageOps) (reg : String → Except String (List RegistryImage))
    (ks : List String) (images : ImageMap) (queried : List String)
    (hsub : ∀ k ∈ ks, k ∈ imageKeys images) :
    ((∃ k ∈ ks, RepoFails ops reg k) →
      (fetchRepositories ops reg ks images queried).images = none ∧
        ∃ e, (fetchRepositories ops reg ks images queried).err = some e) ∧
    ((∀ k ∈ ks, ¬ RepoFails ops reg k) →
      ∃ m, fetchRepositories ops reg ks images queried =
          CollectResult.mk (some m) none (queried ++ ks) ∧
        imageKeys m = imageKeys images ∧
        (∀ x, x ∉ ks → imagesOf m x = imagesOf images x) ∧
        (ks.Nodup → ∀ k ∈ ks, RepoOk ops reg k (imagesOf m k))) := by
  induction ks generalizing images queried with
  | nil =>
    refine ⟨?_, ?_⟩
    · rintro ⟨k, hk, -⟩; cases hk
    · intro _
      refine ⟨images, by simp [fetchRepositories], rfl, fun _ _ => rfl, ?_⟩
      intro _ k hk
      cases hk
  | cons repo rest ih =>
    by_cases hfail : RepoFails ops reg repo
    · refine ⟨fun _ => ?_, fun hall => absurd hfail (hall repo (List.mem_cons_self _ _))⟩
      unfold fetchRepositories
      rcases hfail with ⟨e, he⟩ | ⟨r, e, hr, he⟩ | ⟨r, l, im, e, hr, hl, him, he⟩
      · simp [he]
      · simp [hr, he]
      · obtain ⟨e2, he2⟩ := describeImages_error ops l ⟨im, him, e, he⟩
        simp [hr, hl, he2]
    · have hok : ∃ res, RepoOk ops reg repo res := by
        by_contra hno
        exact hfail ((repoFails_iff ops reg repo).mpr hno)
      obtain ⟨res, r, l, hr, hl, hd⟩ := hok
      have hstep : fetchRepositories ops reg (repo :: rest) images queried =
          fetchRepositories ops reg rest (imageMapSet images repo res) (queried ++ [repo]) := by
        simp only [fetchRepositories, hr, hl, hd]
      have hkeys : imageKeys (imageMapSet images repo res) = imageKeys images :=
        imageKeys_imageMapSet_present _ _ _ (hsub repo (List.mem_cons_self _ _))
      obtain ⟨ih1, ih2⟩ := ih (imageMapSet images repo res) (queried ++ [repo])
        (fun k hk => by rw [hkeys]; exact hsub k (List.mem_cons_of_mem _ hk))
      refine ⟨?_, ?_⟩
      · rintro ⟨k, hk, hkf⟩
        rw [hstep]
        apply ih1
        rcases List.mem_cons.mp hk with h2 | h2
        · subst h2; exact absurd hkf hfail
        · exact ⟨k, h2, hkf⟩
      · intro hall
        obtain ⟨m, hm, hmk, hframe, hvals⟩ :=
          ih2 (fun k hk => hall k (List.mem_cons_of_mem _ hk))
        refine ⟨m, ?_, by rw [hmk, hkeys], ?_, ?_⟩
        · rw [hstep, hm]
          simp
        · intro x hx
          simp only [List.mem_cons, not_or] at hx
          rw [hframe x hx.2, imagesOf_imageMapSet, if_neg hx.1]
        · intro hnd k hk
          have hnd2 : repo ∉ rest ∧ rest.Nodup := by simpa using hnd
          rcases List.mem_cons.mp hk with h2 | h2
          · subst h2
            rw [hframe k hnd2.1, imagesOf_imageMapSet, if_pos rfl]
            exact ⟨r, l, hr, hl, hd⟩
          · exact hvals hnd2.2 k h2

/-- The three ways `CollectAvailableImages` can end. -/
theorem CollectAvailableImages_cases (ops : ImageOps)
    (reg : String → Except String (List RegistryImage)) (services : List Service) :
    ((∃ s ∈ services, ∃ k ∈ s.ContainersOrNil, ∃ e, ops.parseImageID k.image = .error e) ∧
      ∃ e, CollectAvailableImages ops reg services = CollectResult.mk none (some e) []) ∨
    ((¬ ∃ s ∈ services, ∃ k ∈ s.ContainersOrNil, ∃ e, ops.parseImageID k.image = .error e) ∧
      (∃ repo, UsedRepo ops services repo ∧ RepoFails ops reg repo) ∧
      (CollectAvailableImages ops reg services).images = none ∧
      ∃ e, (CollectAvailableImages ops reg services).err = some e) ∨
    ((¬ ∃ s ∈ services, ∃ k ∈ s.ContainersOrNil, ∃ e, ops.parseImageID k.image = .error e) ∧
      (¬ ∃ repo, UsedRepo ops services repo ∧ RepoFails ops reg repo) ∧
      ∃ m, CollectAvailableImages ops reg services = CollectResult.mk (some m) none (imageKeys m) ∧
        (imageKeys m).Nodup ∧ (∀ repo, repo ∈ imageKeys m ↔ UsedRepo ops services repo) ∧
        ∀ repo ∈ imageKeys m, RepoOk ops reg repo (imagesOf m repo)) := by
  obtain ⟨he1, he2⟩ := enterServices_spec ops services []
  by_cases hbad : ∃ s ∈ services, ∃ k ∈ s.ContainersOrNil, ∃ e,
      ops.parseImageID k.image = .error e
  · obtain ⟨e, he⟩ := he1 hbad
    exact Or.inl ⟨hbad, e, by simp [CollectAvailableImages, he]⟩
  · have hgood : ∀ s ∈ services, ∀ k ∈ s.ContainersOrNil, ∃ id,
        ops.parseImageID k.image = .ok id := by
      intro s hs k hk
      cases hp : ops.parseImageID k.image with
      | ok id => exact ⟨id, rfl⟩
      | error e => exact absurd ⟨s, hs, k, hk, e, hp⟩ hbad
    obtain ⟨m0, hm0, hnd0, hmem0⟩ := he2 hgood
    have hnd : (imageKeys m0).Nodup := hnd0 (by simp [imageKeys])
    have hkeys : ∀ repo, repo ∈ imageKeys m0 ↔ UsedRepo ops services repo := by
      intro repo
      rw [hmem0]
      simp [imageKeys]
    have hcai : CollectAvailableImages ops reg services =
        fetchRepositories ops reg (imageKeys m0) m0 [] := by
      simp [CollectAvailableImages, hm0]
    obtain ⟨hf1, hf2⟩ := fetchRepositories_spec ops reg (imageKeys m0) m0 [] (fun k hk => hk)
    by_cases hfail : ∃ repo, UsedRepo ops services repo ∧ RepoFails ops reg repo
    · obtain ⟨repo, hused, hrf⟩ := hfail
      have := hf1 ⟨repo, (hkeys repo).mpr hused, hrf⟩
      rw [← hcai] at this
      exact Or.inr (Or.inl ⟨hbad, ⟨repo, hused, hrf⟩, this⟩)
    · have hall : ∀ k ∈ imageKeys m0, ¬ RepoFails ops reg k := by
        intro k hk hrf
        exact hfail ⟨k, (hkeys k).mp hk, hrf⟩
      obtain ⟨m, hm, hmk, -, hvals⟩ := hf2 hall
      refine Or.inr (Or.inr ⟨hbad, hfail, m, ?_, ?_, ?_, ?_⟩)
      · rw [hcai, hm, hmk]
        simp
      · rw [hmk]; exact hnd
      · intro repo
        rw [hmk]
        exact hkeys repo
      · intro repo hrepo
        rw [hmk] at hrepo
        exact hvals hnd repo hrepo

/-! ## Claim on CollectAvailableImages -/

/-- C18. `CollectAvailableImages` fails as a whole: if a container image of the
services does not parse, or if for a repository of a container image of the
services the parsing of the repository fails, or the registry lookup, or the
parsing of a returned image id, then it returns an error and the nil map. When
it returns no error the map has an entry for exactly the repositories of the
container images of the services, each once, with the images the registry
returned, and the registry was asked once for each of them. It never returns
both an error and a map, or neither. -/
theorem CollectAvailableImages_all_or_nothing (ops : ImageOps)
    (reg : String → Except String (List RegistryImage)) (services : List Service) :
    ((∃ s ∈ services, ∃ k ∈ s.ContainersOrNil, ∃ e, ops.parseImageID k.image = .error e) →
      (CollectAvailableImages ops reg services).images = none ∧
      (∃ e, (CollectAvailableImages ops reg services).err = some e) ∧
      (CollectAvailableImages ops reg services).queried = []) ∧
    ((∃ repo, UsedRepo ops services repo ∧ RepoFails ops reg repo) →
      (CollectAvailableImages ops reg services).images = none ∧
      ∃ e, (CollectAvailableImages ops reg services).err = some e) ∧
    ((CollectAvailableImages ops reg services).err = none →
      ∃ m, (CollectAvailableImages ops reg services).images = some m ∧
        (imageKeys m).Nodup ∧
        (∀ repo, repo ∈ imageKeys m ↔ UsedRepo ops services repo) ∧
        (CollectAvailableImages ops reg services).queried = imageKeys m ∧
        ∀ repo ∈ imageKeys m, RepoOk ops reg repo (imagesOf m repo)) ∧
    ((CollectAvailableImages ops reg services).images = none ↔
      ∃ e, (CollectAvailableImages ops reg services).err = some e) := by
  rcases CollectAvailableImages_cases ops reg services with
    ⟨hbad, e, he⟩ | ⟨hgood, hfail, hnone, e, he⟩ | ⟨hgood, hnofail, m, hm, hnd, hkeys, hvals⟩
  · refine ⟨fun _ => ?_, fun _ => ?_, fun h => ?_, ?_⟩
    · rw [he]; exact ⟨rfl, ⟨e, rfl⟩, rfl⟩
    · rw [he]; exact ⟨rfl, ⟨e, rfl⟩⟩
    · rw [he] at h; cases h
    · rw [he]; exact ⟨fun _ => ⟨e, rfl⟩, fun _ => rfl⟩
  · refine ⟨fun hbad => absurd hbad hgood, fun _ => ⟨hnone, e, he⟩, fun h => ?_, ?_⟩
    · rw [he] at h; cases h
    · exact ⟨fun _ => ⟨e, he⟩, fun _ => hnone⟩
  · refine ⟨fun hbad => absurd hbad hgood, fun hfail => absurd hfail hnofail, fun _ => ?_, ?_⟩
    · rw [hm]
      exact ⟨m, rfl, hnd, hkeys, rfl, hvals⟩
    · rw [hm]
      exact ⟨fun h => (by cases h), fun ⟨e, he⟩ => (by cases he)⟩

/-- Witness of C18: over two workloads on `img` the registry is asked once and
the map has the one key `img`; with a third workload on `postgres`, whose
repository name does not parse, there is an error and no map. -/
theorem CollectAvailableImages_all_or_nothing_witness :
    (∃ m, (CollectAvailableImages exImageOpsStrict exRegistry (exRunning.take 2)).images = some m ∧
      imageKeys m = ["img"] ∧
      (CollectAvailableImages exImageOpsStrict exRegistry (exRunning.take 2)).queried = ["img"]) ∧
    (CollectAvailableImages exImageOpsStrict exRegistry exRunning).images = none ∧
    ∃ e, (CollectAvailableImages exImageOpsStrict exRegistry exRunning).err = some e := by
  refine ⟨?_, ?_⟩
  · obtain ⟨m, hm, -, -, hq, -⟩ :=
      (CollectAvailableImages_all_or_nothing exImageOpsStrict exRegistry (exRunning.take 2)).2.2.1
        rfl
    have hk : imageKeys m = ["img"] := by
      rw [← hq]
      rfl
    exact ⟨m, hm, hk, by rw [hq, hk]⟩
  · exact (CollectAvailableImages_all_or_nothing exImageOpsStrict exRegistry exRunning).2.1
      ⟨"postgres", ⟨_, List.mem_cons_of_mem _ (List.mem_cons_of_mem _ (List.mem_singleton.mpr rfl)),
        ⟨"db", "postgres"⟩, List.mem_singleton.mpr rfl, _, rfl, rfl⟩, Or.inl ⟨_, rfl⟩⟩

/-! ## Claim on askForSync -/

theorem askForSync_of_inv (d : SyncState) (h : SyncInv d) :
    askForSync d = SyncState.mk true (some (Chan.mk 1 1)) := by
  rcases h with h | h | h <;> subst h <;> rfl

theorem receiveSync_inv (d : SyncState) (h : SyncInv d) : SyncInv (receiveSync d) := by
  rcases h with h | h | h <;> subst h
  · exact Or.inl rfl
  · exact Or.inr (Or.inl rfl)
  · exact Or.inr (Or.inl rfl)

theorem runSync_inv (ops : List SyncOp) (d : SyncState) (h : SyncInv d) :
    SyncInv (runSync d ops) := by
  induction ops generalizing d with
  | nil => exact h
  | cons op rest ih =>
    cases op with
    | ask =>
      simp only [runSync]
      apply ih
      rw [askForSync_of_inv d h]
      exact Or.inr (Or.inr rfl)
    | receive =>
      simp only [runSync]
      exact ih _ (receiveSync_inv d h)

theorem askForSyncTimes_of_inv (n : Nat) (d : SyncState) (h : SyncInv d) (hn : 0 < n) :
    askForSyncTimes n d = SyncState.mk true (some (Chan.mk 1 1)) := by
  induction n generalizing d with
  | zero => cases hn
  | succ n ih =>
    simp only [askForSyncTimes]
    rw [askForSync_of_inv d h]
    cases n with
    | zero => rfl
    | succ m => exact ih _ (Or.inr (Or.inr rfl)) (Nat.succ_pos m)

/-- C19. With `syncSoon` a buffer of depth 1: in every state reached from the
zero value by asks and receives at most one sync signal is pending; after any
positive number of `askForSync` calls in a row exactly one is pending; and a
call made while one is pending leaves the state as it is. `askForSync` is a
total function: neither branch of its `select` waits. -/
theorem askForSync_coalesces (ops : List SyncOp) :
    pendingSyncs (runSync SyncState.zero ops) ≤ 1 ∧
    (∀ n, 0 < n → pendingSyncs (askForSyncTimes n (runSync SyncState.zero ops)) = 1) ∧
    (pendingSyncs (runSync SyncState.zero ops) = 1 →
      askForSync (runSync SyncState.zero ops) = runSync SyncState.zero ops) := by
  have hinv := runSync_inv ops SyncState.zero (Or.inl rfl)
  refine ⟨?_, ?_, ?_⟩
  · rcases hinv with h | h | h <;> rw [h] <;> decide
  · intro n hn
    rw [askForSyncTimes_of_inv n _ hinv hn]
    rfl
  · intro hp
    rw [askForSync_of_inv _ hinv]
    rcases hinv with h | h | h
    · rw [h] at hp; cases hp
    · rw [h] at hp; cases hp
    · exact h.symm

/-- Witness of C19: three asks after an ask and a receive leave one signal. -/
theorem askForSync_coalesces_witness :
    pendingSyncs (askForSyncTimes 3 (runSync SyncState.zero [.ask, .receive])) = 1 :=
  (askForSync_coalesces [.ask, .receive]).2.1 3 (by decide)

/-! ## Claim on the automated-instance handler -/

/-- C20, as the code has it. For an automated-instance job the handler returns,
and on every return path but the two that find nothing automated the follow-up
list begins with the automated-instance job of the job's instance, with the key
of that instance, background priority and scheduled-at the handling time plus
one automation cycle of 60 seconds; on those two paths it returns no follow-up. -/
theorem handleAutomatedInstanceJob_successor (env : AutomatorEnv) (now : Int)
    (j : AutomatorJob) (instanceID : String) (hp : j.params = .automatedInstance instanceID) :
    ∃ followUps err, handleAutomatedInstanceJob env now j = some (followUps, err) ∧
      (NothingAutomated env instanceID → followUps = []) ∧
      (¬ NothingAutomated env instanceID →
        followUps.head? = some (automatedInstanceJob j.instanceID now) ∧
          automatedInstanceJob j.instanceID now ∈ followUps) ∧
      (automatedInstanceJob j.instanceID now).key =
        joinWith "|" [AutomatedInstanceJob, j.instanceID] ∧
      (automatedInstanceJob j.instanceID now).params = .automatedInstance j.instanceID ∧
      (automatedInstanceJob j.instanceID now).method = AutomatedInstanceJob ∧
      (automatedInstanceJob j.instanceID now).priority = PriorityBackground ∧
      (automatedInstanceJob j.instanceID now).scheduledAt = some (now + 60) := by
  have hfields : (automatedInstanceJob j.instanceID now).key =
        joinWith "|" [AutomatedInstanceJob, j.instanceID] ∧
      (automatedInstanceJob j.instanceID now).params = .automatedInstance j.instanceID ∧
      (automatedInstanceJob j.instanceID now).method = AutomatedInstanceJob ∧
      (automatedInstanceJob j.instanceID now).priority = PriorityBackground ∧
      (automatedInstanceJob j.instanceID now).scheduledAt = some (now + 60) :=
    ⟨rfl, rfl, rfl, rfl, rfl⟩
  have hhead : ∀ (l : List AutomatorJob),
      (automatedInstanceJob j.instanceID now :: l).head? =
          some (automatedInstanceJob j.instanceID now) ∧
        automatedInstanceJob j.instanceID now ∈ automatedInstanceJob j.instanceID now :: l :=
    fun l => ⟨rfl, List.mem_cons_self _ _⟩
  unfold handleAutomatedInstanceJob
  rw [hp]
  simp only
  cases hc : env.getConfig instanceID with
  | error e =>
    refine ⟨_, _, rfl, ?_, fun _ => hhead [], hfields⟩
    rintro ⟨services, hs, -⟩
    rw [hc] at hs
    cases hs
  | ok services =>
    simp only
    by_cases hlen : (automatedServiceIDs services).length = 0
    · rw [if_pos hlen]
      refine ⟨_, _, rfl, fun _ => rfl, ?_, hfields⟩
      intro hno
      exact absurd ⟨services, hc, Or.inl hlen⟩ hno
    · rw [if_neg hlen]
      cases hi : env.getInstance instanceID with
      | some e =>
        refine ⟨_, _, rfl, ?_, fun _ => hhead [], hfields⟩
        rintro ⟨services2, hs, hcase⟩
        rw [hc] at hs
        cases hs
        rcases hcase with h1 | ⟨h1, -, -⟩
        · exact absurd h1 hlen
        · rw [hi] at h1; cases h1
      | none =>
        simp only
        cases hcl : env.cloneRepo with
        | some e =>
          refine ⟨_, _, rfl, ?_, fun _ => hhead [], hfields⟩
          rintro ⟨services2, hs, hcase⟩
          rw [hc] at hs
          cases hs
          rcases hcase with h1 | ⟨-, h1, -⟩
          · exact absurd h1 hlen
          · rw [hcl] at h1; cases h1
        | none =>
          simp only
          by_cases hup : (env.selectServices (automatedServiceIDs services)).length = 0
          · rw [if_pos hup]
            refine ⟨_, _, rfl, fun _ => rfl, ?_, hfields⟩
            intro hno
            exact absurd ⟨services, hc, Or.inr ⟨hi, hcl, hup⟩⟩ hno
          · rw [if_neg hup]
            have hnot : ¬ NothingAutomated env instanceID := by
              rintro ⟨services2, hs, hcase⟩
              rw [hc] at hs
              cases hs
              rcases hcase with h1 | ⟨-, -, h1⟩
              · exact hlen h1
              · exact hup h1
            cases hcol : env.collectAvailableImages
                (env.selectServices (automatedServiceIDs services)) with
            | error e =>
              exact ⟨_, _, rfl, fun h => absurd h hnot, fun _ => hhead [], hfields⟩
            | ok images =>
              simp only
              cases htr : transposeUpdates env images
                  (env.selectServices (automatedServiceIDs services)) [] with
              | error e =>
                exact ⟨_, _, rfl, fun h => absurd h hnot, fun _ => hhead [], hfields⟩
              | ok imageServices =>
                exact ⟨_, _, rfl, fun h => absurd h hnot, fun _ => hhead _, hfields⟩

/-- Witness of C20: with a newer image in the registry the handler returns its
successor, due at 160 when handled at 100, and then the release job. -/
theorem handleAutomatedInstanceJob_successor_witness :
    ∃ followUps err, handleAutomatedInstanceJob exEnvNewer 100 exAutoJob = some (followUps, err) ∧
      followUps.head? = some (automatedInstanceJob "inst" 100) ∧
      (automatedInstanceJob "inst" 100).scheduledAt = some 160 ∧
      followUps.length = 2 := by
  obtain ⟨followUps, err, hh, -, hsucc, -⟩ :=
    handleAutomatedInstanceJob_successor exEnvNewer 100 exAutoJob "inst" rfl
  refine ⟨followUps, err, hh, ?_, rfl, ?_⟩
  · apply (hsucc ?_).1
    rintro ⟨services, hs, hcase⟩
    simp only [exEnvNewer, Except.ok.injEq] at hs
    subst hs
    rcases hcase with h1 | ⟨-, -, h1⟩
    · exact absurd h1 (by decide)
    · exact absurd h1 (by decide)
  · have hval : handleAutomatedInstanceJob exEnvNewer 100 exAutoJob =
        some ([automatedInstanceJob "inst" 100,
          releaseFollowUp exEnvNewer "inst" exImg2 ["default/hello"]], none) := by decide
    rw [hval] at hh
    simp only [Option.some.injEq, Prod.mk.injEq] at hh
    rw [← hh.1]
    rfl

/-- Counterexample to C20 as stated: when no service of the instance is
automated the handler returns `nil, nil`, and when `SelectServices` gives no
update it returns nil and an error; on neither path is there a successor. -/
theorem handleAutomatedInstanceJob_no_successor :
    handleAutomatedInstanceJob exEnvNoneAutomated 100 exAutoJob = some ([], none) ∧
      handleAutomatedInstanceJob exEnvGone 100 exAutoJob =
        some ([], some "no automated service(s) exist in config or running system") := by
  decide

/-! ## Claims on the positional comparison and the iteration order -/

theorem compareContainers_in_range (id : String) (bs as : List Container) (is : List Nat)
    (h : ∀ i ∈ is, i < bs.length ∧ i < as.length) :
    compareContainers id bs as is ≠ some .indexOutOfRange := by
  induction is with
  | nil => simp [compareContainers]
  | cons i is ih =>
    have hi := h i (List.mem_cons_self _ _)
    have ih2 := ih (fun j hj => h j (List.mem_cons_of_mem _ hj))
    have hb : bs[i]? = some bs[i] := List.getElem?_eq_getElem hi.1
    have ha : as[i]? = some as[i] := List.getElem?_eq_getElem hi.2
    simp only [compareContainers, hb, ha]
    split
    · simp
    · split
      · simp
      · exact ih2

theorem applyUpdates_in_range (us : List ControllerUpdate) (b : ResourceMap) :
    applyUpdates b us ≠ .error .indexOutOfRange := by
  induction us generalizing b with
  | nil => simp [applyUpdates]
  | cons u us ih =>
    unfold applyUpdates
    split
    · simp
    · simp
    · exact ih _

theorem verifyAfter_in_range (a : List (String × Resource)) (b : ResourceMap) :
    verifyAfter b a ≠ .error .indexOutOfRange := by
  induction a generalizing b with
  | nil => simp [verifyAfter]
  | cons e a ih =>
    obtain ⟨id, afterRes⟩ := e
    unfold verifyAfter
    cases hg : mapGet b id with
    | none => simp
    | some beforeRes =>
      cases beforeRes with
      | other => exact ih _
      | workload bcs =>
        cases afterRes with
        | other => simp
        | workload acs =>
          by_cases hlen : bcs.length = acs.length
          · have hr := compareContainers_in_range id bcs acs (List.range acs.length)
              (fun i hi => by have := List.mem_range.mp hi; omega)
            simp only [hlen, ne_eq, not_true_eq_false, if_false]
            cases hc : compareContainers id bcs acs (List.range acs.length) with
            | none => exact ih _
            | some e =>
              rw [hc] at hr
              simp only [ne_eq, Except.error.injEq]
              intro h2
              exact hr (by rw [h2])
          · simp [hlen]

/-- C28. `VerifyChanges` never takes the out-of-range branch of an index
expression: the loop `for i := range afterContainers` runs after the check that
the two container lists have the same length, so every index it reads is below
both lengths, and no input makes `VerifyChanges` end in the run-time fault. -/
theorem VerifyChanges_never_out_of_range (before after : ResourceMap)
    (updates : List ControllerUpdate) :
    VerifyChanges before updates after ≠ some .indexOutOfRange ∧
      ∀ (id : String) (bs as : List Container), bs.length = as.length →
        compareContainers id bs as (List.range as.length) ≠ some .indexOutOfRange := by
  refine ⟨?_, fun id bs as hlen => compareContainers_in_range id bs as _
    (fun i hi => by have := List.mem_range.mp hi; omega)⟩
  unfold VerifyChanges
  cases h1 : applyUpdates before updates with
  | error e =>
    have := applyUpdates_in_range updates before
    rw [h1] at this
    simp only [ne_eq, Option.some.injEq]
    intro h2
    exact this (by rw [h2])
  | ok b1 =>
    have hv := verifyAfter_in_range after b1
    show (match verifyAfter b1 after with
      | .error e => some e
      | .ok left => if left.length > 0 then some (VerifyError.disappeared (keys left)) else none)
      ≠ some .indexOutOfRange
    cases h2 : verifyAfter b1 after with
    | error e =>
      rw [h2] at hv
      simp only [ne_eq, Option.some.injEq]
      intro h3
      exact hv (by rw [h3])
    | ok left =>
      simp only
      split <;> simp

theorem mapGet_perm (m m2 : ResourceMap) (h : m.Perm m2) (hw : WellFormed m) (id : String) :
    mapGet m id = mapGet m2 id := by
  have hw2 : WellFormed m2 := (List.Perm.nodup_iff (h.map Prod.fst)).mp hw
  cases hg : mapGet m id with
  | none =>
    have h1 := (mapGet_eq_none_iff m id).mp hg
    have h2 : id ∉ keys m2 := fun hm => h1 ((h.map Prod.fst).mem_iff.mpr hm)
    exact ((mapGet_eq_none_iff m2 id).mpr h2).symm
  | some r =>
    have h1 := (mapGet_eq_some_iff_mem m hw id r).mp hg
    exact ((mapGet_eq_some_iff_mem m2 hw2 id r).mpr (h.mem_iff.mp h1)).symm

/-- C29. Whether `VerifyChanges` succeeds does not depend on the order in which
the entries of the maps are visited: for well-formed `before` and `after`, any
reordering of the entries of `after` and of `before` (hence of what is left of
`before`) gives a nil result exactly when the original order does. The error
that is reported does depend on the order: two orders of the same `after` can
give two different errors. -/
theorem VerifyChanges_order_independent (before before2 after after2 : ResourceMap)
    (updates : List ControllerUpdate) (hb : WellFormed before) (ha : WellFormed after)
    (hpb : before.Perm before2) (hpa : after.Perm after2) :
    (VerifyChanges before updates after = none ↔
      VerifyChanges before2 updates after2 = none) ∧
    ∃ (b a a2 : ResourceMap) (e e2 : VerifyError), WellFormed b ∧ WellFormed a ∧ a.Perm a2 ∧
      VerifyChanges b [] a = some e ∧ VerifyChanges b [] a2 = some e2 ∧ e ≠ e2 := by
  refine ⟨?_, exBeforeTwo, exAfterTwo, exAfterTwoSwapped, .noLongerWorkload "default/a",
    .noLongerWorkload "default/b", by decide, by decide, List.Perm.swap _ _ _,
    by decide, by decide, by decide⟩
  have ha2 : WellFormed after2 := (List.Perm.nodup_iff (hpa.map Prod.fst)).mp ha
  rw [verifyChanges_none_iff before after updates ha,
    verifyChanges_none_iff before2 after2 updates ha2]
  have hkb : ∀ id, id ∈ keys before ↔ id ∈ keys before2 := fun id => (hpb.map Prod.fst).mem_iff
  have hka : ∀ id, id ∈ keys after ↔ id ∈ keys after2 := fun id => (hpa.map Prod.fst).mem_iff
  have hgb := mapGet_perm before before2 hpb hb
  have hga := mapGet_perm after after2 hpa ha
  simp only [hkb, hka, hgb, hga]

/-- Witness of C29: the two orders of `exAfterTwo` both fail, and the two orders
of the one-entry tree both pass. -/
theorem VerifyChanges_order_independent_witness :
    WellFormed exBeforeTwo ∧ WellFormed exAfterTwo ∧
      (VerifyChanges exBeforeTwo [] exAfterTwo = none ↔
        VerifyChanges exBeforeTwo [] exAfterTwoSwapped = none) :=
  ⟨by decide, by decide,
    (VerifyChanges_order_independent exBeforeTwo exBeforeTwo exAfterTwo exAfterTwoSwapped []
      (by decide) (by decide) (List.Perm.refl _) (List.Perm.swap _ _ _)).1⟩

/-! ## Claims on policy sets -/

theorem policyContains_policySet (s : PolicySet) (k v q : String) :
    policyContains (policySet s k v) q = (decide (q = k) || policyContains s q) := by
  induction s with
  | nil =>
    simp only [policySet, policyContains, List.any_cons, List.any_nil, Bool.or_false]
    by_cases h : q = k
    · simp [h]
    · have h2 : ¬ k = q := fun h3 => h h3.symm
      simp [h, h2]
  | cons e s ih =>
    obtain ⟨k0, w⟩ := e
    by_cases h0 : k0 = k
    · subst h0
      simp only [policySet, if_true, policyContains, List.any_cons]
      by_cases h : q = k0
      · simp [h]
      · have h2 : ¬ k0 = q := fun h3 => h h3.symm
        simp [h, h2]
    · simp only [policySet, h0, if_false]
      have ih2 : policyContains (policySet s k v) q = (decide (q = k) || policyContains s q) := ih
      simp only [policyContains, List.any_cons] at ih2 ⊢
      rw [ih2]
      cases (k0 == q) <;> simp

theorem policyGet_policySet (s : PolicySet) (k v q : String) :
    policyGet (policySet s k v) q = if q = k then some v else policyGet s q := by
  induction s with
  | nil =>
    by_cases h : q = k
    · simp [policySet, policyGet, h]
    · have h2 : ¬ k = q := fun h3 => h h3.symm
      simp [policySet, policyGet, h, h2]
  | cons e s ih =>
    obtain ⟨k0, w⟩ := e
    by_cases h0 : k0 = k
    · subst h0
      by_cases h : q = k0
      · simp [policySet, policyGet, h]
      · have h2 : ¬ k0 = q := fun h3 => h h3.symm
        simp [policySet, policyGet, h, h2]
    · simp only [policySet, h0, if_false, policyGet]
      by_cases h : k0 = q
      · have h2 : ¬ q = k := fun h3 => h0 (h.trans h3)
        simp [h, h2]
      · simp only [h, if_false]
        exact ih

theorem policyLoop_contains (Parse : String → String) (annotations : List (String × String))
    (set : PolicySet) (q : String) :
    policyContains (policyLoop Parse annotations set) q = true ↔
      policyContains set q = true ∨
        ∃ e ∈ annotations, hasPrefix e.1 PolicyPrefix = true ∧ e.2 = "true" ∧
          Parse (trimPrefix e.1 PolicyPrefix) = q := by
  induction annotations generalizing set with
  | nil => simp [policyLoop]
  | cons e rest ih =>
    obtain ⟨k, v⟩ := e
    by_cases hc : hasPrefix k PolicyPrefix = true ∧ v = "true"
    · have hif : (hasPrefix k PolicyPrefix && v == "true") = true := by
        simp [hc.1, hc.2]
      simp only [policyLoop, hif, if_true]
      rw [ih, policyAdd, policyContains_policySet]
      constructor
      · rintro (h | ⟨e, he, h⟩)
        · simp only [Bool.or_eq_true, decide_eq_true_eq] at h
          rcases h with h | h
          · exact Or.inr ⟨(k, v), List.mem_cons_self _ _, hc.1, hc.2, h.symm⟩
          · exact Or.inl h
        · exact Or.inr ⟨e, List.mem_cons_of_mem _ he, h⟩
      · rintro (h | ⟨e, he, h⟩)
        · exact Or.inl (by simp [h])
        · rcases List.mem_cons.mp he with rfl | he
          · exact Or.inl (by simp [h.2.2])
          · exact Or.inr ⟨e, he, h⟩
    · have hif : (hasPrefix k PolicyPrefix && v == "true") = false := by
        cases hb : (hasPrefix k PolicyPrefix && v == "true")
        · rfl
        · exfalso
          simp only [Bool.and_eq_true, beq_iff_eq] at hb
          exact hc hb
      simp only [policyLoop, hif, Bool.false_eq_true, if_false]
      rw [ih]
      constructor
      · rintro (h | ⟨e, he, h⟩)
        · exact Or.inl h
        · exact Or.inr ⟨e, List.mem_cons_of_mem _ he, h⟩
      · rintro (h | ⟨e, he, h⟩)
        · exact Or.inl h
        · rcases List.mem_cons.mp he with rfl | he
          · exact absurd ⟨h.1, h.2.1⟩ hc
          · exact Or.inr ⟨e, he, h⟩

/-- C22, as amended. `Policy()` contains a policy exactly when some annotation
has a key that starts with `flux.weave.works/`, has the value `"true"`, and
names the policy by its key with the prefix stripped. Annotations without the
prefix, and annotations with any other value, contribute nothing. -/
theorem Policy_contains_iff (Parse : String → String) (o : baseObject) (q : String) :
    policyContains (o.Policy Parse) q = true ↔
      ∃ e ∈ o.metaAnnotations, hasPrefix e.1 PolicyPrefix = true ∧ e.2 = "true" ∧
        Parse (trimPrefix e.1 PolicyPrefix) = q := by
  unfold baseObject.Policy
  rw [policyLoop_contains]
  simp [policyContains]

/-- Counterexample to C22 as stated: the annotation `flux.weave.works/tag.hello`
of value `glob:1.*` has the policy prefix, and `Policy()` does not contain
`tag.hello`. -/
theorem Policy_drops_valued_annotation :
    ("flux.weave.works/tag.hello", "glob:1.*") ∈ exAnnotated.metaAnnotations ∧
      hasPrefix "flux.weave.works/tag.hello" PolicyPrefix = true ∧
      trimPrefix "flux.weave.works/tag.hello" PolicyPrefix = "tag.hello" ∧
      policyContains (exAnnotated.Policy id) "tag.hello" = false ∧
      exAnnotated.Policy id = [("automated", "true")] := by
  refine ⟨by decide, by decide, by decide, by decide, by decide⟩

/-! ## Claims on the policy command -/

theorem splitChars_no_sep (sep : Char) (l : List Char) (h : sep ∉ l) :
    splitChars sep l = [l] := by
  induction l with
  | nil => rfl
  | cons c cs ih =>
    have hc : ¬ c = sep := fun h2 => h (by rw [h2]; exact List.mem_cons_self _ _)
    have hcs : sep ∉ cs := fun h2 => h (List.mem_cons_of_mem _ h2)
    simp only [splitChars, hc, if_false, ih hcs]

theorem splitChars_append (sep : Char) (l1 l2 : List Char) (h : sep ∉ l1) :
    splitChars sep (l1 ++ sep :: l2) = l1 :: splitChars sep l2 := by
  induction l1 with
  | nil => simp [splitChars]
  | cons c cs ih =>
    have hc : ¬ c = sep := fun h2 => h (by rw [h2]; exact List.mem_cons_self _ _)
    have hcs : sep ∉ cs := fun h2 => h (List.mem_cons_of_mem _ h2)
    have ih2 := ih hcs
    show splitChars sep (c :: (cs ++ sep :: l2)) = (c :: cs) :: splitChars sep l2
    simp only [splitChars, hc, if_false, ih2]

theorem split_tagPair (c p : String) (hc : '=' ∉ c.data) (hp : '=' ∉ p.data) :
    split (tagPair (c, p)) '=' = [c, p] := by
  have hdata : (tagPair (c, p)).data = c.data ++ '=' :: p.data := by
    simp only [tagPair, String.data_append]
    rw [List.append_assoc]
    rfl
  unfold split
  rw [hdata, splitChars_append _ _ _ hc, splitChars_no_sep _ _ hp]
  rfl

theorem TagPrefix_data (c : String) : (TagPrefix c).data = 't' :: 'a' :: 'g' :: '.' :: c.data := by
  unfold TagPrefix
  rw [String.data_append]
  rfl

theorem TagPrefix_injective (c d : String) (h : TagPrefix c = TagPrefix d) : c = d := by
  have h2 := congrArg String.data h
  rw [TagPrefix_data, TagPrefix_data] at h2
  simp only [List.cons.injEq, true_and] at h2
  exact String.ext h2

theorem TagPrefix_not_plain (c : String) : TagPrefix c ∉ plainPolicies := by
  intro h
  simp only [plainPolicies, List.mem_cons, List.mem_singleton, List.not_mem_nil, or_false] at h
  rcases h with h | h | h | h | h <;>
  · have h2 := congrArg String.data h
    rw [TagPrefix_data] at h2
    revert h2
    simp [policyAutomated, policyLocked, policyLockedUser, policyLockedMsg, policyTagAll]

theorem policyGet_isSome (s : PolicySet) (k : String) :
    (policyGet s k).isSome = policyContains s k := by
  induction s with
  | nil => rfl
  | cons e s ih =>
    obtain ⟨k0, v⟩ := e
    by_cases h : k0 = k
    · simp [policyGet, policyContains, h]
    · have ih2 : (policyGet s k).isSome = s.any (fun e => e.1 == k) := ih
      simp [policyGet, policyContains, h, ih2]

theorem initialAdd_plain (opts : servicePolicyOpts) (k : String)
    (h : policyContains (initialAdd opts) k = true) : k ∈ plainPolicies := by
  unfold initialAdd at h
  simp only [plainPolicies, List.mem_cons, List.mem_singleton, List.not_mem_nil, or_false]
  split_ifs at h <;>
    simp only [policyAdd, policyContains_policySet, Bool.or_eq_true, decide_eq_true_eq] at h <;>
    simp only [policyContains, List.any_nil, Bool.false_eq_true, or_false] at h <;>
    tauto

theorem initialRemove_plain (opts : servicePolicyOpts) (k : String)
    (h : policyContains (initialRemove opts) k = true) : k ∈ plainPolicies := by
  unfold initialRemove at h
  simp only [plainPolicies, List.mem_cons, List.mem_singleton, List.not_mem_nil, or_false]
  split_ifs at h <;>
    simp only [policyAdd, policyContains_policySet, Bool.or_eq_true, decide_eq_true_eq] at h <;>
    simp only [policyContains, List.any_nil, Bool.false_eq_true, or_false] at h <;>
    tauto

theorem initialAdd_tagAll (opts : servicePolicyOpts) (h : opts.tagAll ≠ "") :
    policyGet (initialAdd opts) policyTagAll = some ("glob:" ++ opts.tagAll) := by
  unfold initialAdd
  simp only [h, ne_eq, not_false_eq_true, if_true, policyGet_policySet]

theorem tagPairs_spec (pairs : List (String × String))
    (hsplit : ∀ e ∈ pairs, '=' ∉ e.1.data ∧ '=' ∉ e.2.data)
    (hd : (pairs.map Prod.fst).Nodup) (add remove : PolicySet) :
    ∃ u, tagPairs (pairs.map tagPair) add remove = .ok u ∧
      (∀ k, (∀ e ∈ pairs, TagPrefix e.1 ≠ k) →
        policyGet u.add k = policyGet add k ∧
          policyContains u.remove k = policyContains remove k) ∧
      (∀ e ∈ pairs, e.2 ≠ "*" →
        policyGet u.add (TagPrefix e.1) = some ("glob:" ++ e.2) ∧
          policyContains u.remove (TagPrefix e.1) = policyContains remove (TagPrefix e.1)) ∧
      (∀ e ∈ pairs, e.2 = "*" →
        policyContains u.remove (TagPrefix e.1) = true ∧
          policyGet u.add (TagPrefix e.1) = policyGet add (TagPrefix e.1)) := by
  induction pairs generalizing add remove with
  | nil =>
    exact ⟨⟨add, remove⟩, rfl, fun k _ => ⟨rfl, rfl⟩, fun e he => (by cases he),
      fun e he => (by cases he)⟩
  | cons e0 rest ih =>
    obtain ⟨c, p⟩ := e0
    have hs0 := hsplit (c, p) (List.mem_cons_self _ _)
    have hsr : ∀ e ∈ rest, '=' ∉ e.1.data ∧ '=' ∉ e.2.data :=
      fun e he => hsplit e (List.mem_cons_of_mem _ he)
    have hnd : c ∉ rest.map Prod.fst ∧ (rest.map Prod.fst).Nodup := by
      simpa using hd
    have hfresh : ∀ e ∈ rest, TagPrefix e.1 ≠ TagPrefix c := by
      intro e he h
      exact hnd.1 (by rw [← TagPrefix_injective _ _ h]; exact List.mem_map_of_mem _ he)
    have hsp := split_tagPair c p hs0.1 hs0.2
    by_cases hp : p = "*"
    · obtain ⟨u, hu, h1, h2, h3⟩ := ih hsr hnd.2 add (policyAdd remove (TagPrefix c))
      refine ⟨u, ?_, ?_, ?_, ?_⟩
      · simp only [List.map_cons, tagPairs, hsp]
        simp only [hp, ne_eq, not_true_eq_false, if_false]
        exact hu
      · intro k hk
        have hk0 : ¬ k = TagPrefix c := fun h => hk (c, p) (List.mem_cons_self _ _) h.symm
        obtain ⟨ha, hr⟩ := h1 k (fun e he => hk e (List.mem_cons_of_mem _ he))
        refine ⟨ha, ?_⟩
        rw [hr, policyAdd, policyContains_policySet]
        simp [hk0]
      · intro e he hne
        rcases List.mem_cons.mp he with rfl | he
        · exact absurd hp hne
        · obtain ⟨ha, hr⟩ := h2 e he hne
          refine ⟨ha, ?_⟩
          rw [hr, policyAdd, policyContains_policySet]
          simp [hfresh e he]
      · intro e he heq
        rcases List.mem_cons.mp he with rfl | he
        · obtain ⟨ha, hr⟩ := h1 (TagPrefix c) (fun e he => hfresh e he)
          refine ⟨?_, ha⟩
          rw [hr, policyAdd, policyContains_policySet]
          simp
        · exact h3 e he heq
    · obtain ⟨u, hu, h1, h2, h3⟩ :=
        ih hsr hnd.2 (policySet add (TagPrefix c) ("glob:" ++ p)) remove
      refine ⟨u, ?_, ?_, ?_, ?_⟩
      · simp only [List.map_cons, tagPairs, hsp]
        simp only [hp, ne_eq, not_false_eq_true, if_true]
        exact hu
      · intro k hk
        have hk0 : ¬ k = TagPrefix c := fun h => hk (c, p) (List.mem_cons_self _ _) h.symm
        obtain ⟨ha, hr⟩ := h1 k (fun e he => hk e (List.mem_cons_of_mem _ he))
        refine ⟨?_, hr⟩
        rw [ha, policyGet_policySet, if_neg hk0]
      · intro e he hne
        rcases List.mem_cons.mp he with rfl | he
        · obtain ⟨ha, hr⟩ := h1 (TagPrefix c) (fun e he => hfresh e he)
          refine ⟨?_, hr⟩
          rw [ha, policyGet_policySet, if_pos rfl]
        · exact h2 e he hne
      · intro e he heq
        rcases List.mem_cons.mp he with rfl | he
        · exact absurd heq hp
        · obtain ⟨hr, ha⟩ := h3 e he heq
          refine ⟨hr, ?_⟩
          rw [ha, policyGet_policySet, if_neg (hfresh e he)]

theorem tagPairs_ok_iff (tags : List String) (add remove : PolicySet) :
    (∃ u, tagPairs tags add remove = .ok u) ↔ ∀ t ∈ tags, (split t '=').length = 2 := by
  induction tags generalizing add remove with
  | nil => simp [tagPairs]
  | cons t rest ih =>
    simp only [List.mem_cons, forall_eq_or_imp]
    match hs : split t '=' with
    | [] => simp [tagPairs, hs]
    | [a] => simp [tagPairs, hs]
    | [container, tag] =>
      by_cases hp : tag = "*"
      · simp only [tagPairs, hs, hp, ne_eq, not_true_eq_false, if_false, List.length_cons,
          List.length_nil, true_and]
        exact ih _ _
      · simp only [tagPairs, hs, hp, ne_eq, not_false_eq_true, if_true, List.length_cons,
          List.length_nil, true_and]
        exact ih _ _
    | a :: b :: c :: l => simp [tagPairs, hs]

theorem initialAdd_no_tag (opts : servicePolicyOpts) (c : String) :
    policyGet (initialAdd opts) (TagPrefix c) = none := by
  cases h : policyGet (initialAdd opts) (TagPrefix c) with
  | none => rfl
  | some v =>
    have h2 : policyContains (initialAdd opts) (TagPrefix c) = true := by
      rw [← policyGet_isSome, h]
      rfl
    exact absurd (initialAdd_plain opts _ h2) (TagPrefix_not_plain c)

theorem initialRemove_no_tag (opts : servicePolicyOpts) (c : String) :
    policyContains (initialRemove opts) (TagPrefix c) = false := by
  cases h : policyContains (initialRemove opts) (TagPrefix c) with
  | false => rfl
  | true => exact absurd (initialRemove_plain opts _ h) (TagPrefix_not_plain c)

/-- C27, as amended. When every `--tag` pair splits on `=` into a container and
a pattern and no two pairs name the same container, `calculatePolicyChanges`
succeeds; for a pair whose pattern is not `*`, `add` binds `tag.<container>` to
`"glob:"` followed by the pattern; for a pair whose pattern is `*`,
`tag.<container>` is in `remove` and not in `add`; a non-empty `--tag-all` value
is bound in `add` under `tag-all`, after `"glob:"`. Whatever the other options,
a pair that does not split into exactly two parts makes the function return an
error. -/
theorem calculatePolicyChanges_tags (opts : servicePolicyOpts) (pairs : List (String × String))
    (htags : opts.tags = pairs.map tagPair)
    (hsplit : ∀ e ∈ pairs, '=' ∉ e.1.data ∧ '=' ∉ e.2.data)
    (hdistinct : (pairs.map Prod.fst).Nodup) :
    (∃ u, calculatePolicyChanges opts = .ok u ∧
      (∀ e ∈ pairs, e.2 ≠ "*" →
        policyGet u.add (TagPrefix e.1) = some ("glob:" ++ e.2)) ∧
      (∀ e ∈ pairs, e.2 = "*" →
        policyContains u.remove (TagPrefix e.1) = true ∧
          policyContains u.add (TagPrefix e.1) = false) ∧
      (opts.tagAll ≠ "" → policyGet u.add policyTagAll = some ("glob:" ++ opts.tagAll))) ∧
    ∀ opts2 : servicePolicyOpts, (∃ t ∈ opts2.tags, (split t '=').length ≠ 2) →
      ∃ err, calculatePolicyChanges opts2 = .error err := by
  constructor
  · obtain ⟨u, hu, h1, h2, h3⟩ :=
      tagPairs_spec pairs hsplit hdistinct (initialAdd opts) (initialRemove opts)
    refine ⟨u, ?_, fun e he hne => (h2 e he hne).1, ?_, ?_⟩
    · unfold calculatePolicyChanges
      rw [htags]
      exact hu
    · intro e he heq
      obtain ⟨hr, ha⟩ := h3 e he heq
      refine ⟨hr, ?_⟩
      rw [← policyGet_isSome, ha, initialAdd_no_tag]
      rfl
    · intro htag
      have hk : ∀ e ∈ pairs, TagPrefix e.1 ≠ policyTagAll := by
        intro e _ h
        apply TagPrefix_not_plain e.1
        rw [h]
        simp [plainPolicies]
      rw [(h1 policyTagAll hk).1]
      exact initialAdd_tagAll opts htag
  · intro opts2 ⟨t, ht, hlen⟩
    cases hc : calculatePolicyChanges opts2 with
    | error err => exact ⟨err, rfl⟩
    | ok u =>
      exfalso
      have := (tagPairs_ok_iff opts2.tags (initialAdd opts2) (initialRemove opts2)).mp ⟨u, hc⟩
      exact hlen (this t ht)

/-- Witness of C27: `--tag 'hello=1.*' --tag 'sidecar=*' --tag-all 'master-*'`
puts `tag.hello = glob:1.*` and `tag-all = glob:master-*` in `add`, and
`tag.sidecar` in `remove`. -/
theorem calculatePolicyChanges_tags_witness :
    exTagOpts.tags = [("hello", "1.*"), ("sidecar", "*")].map tagPair ∧
      ∃ u, calculatePolicyChanges exTagOpts = .ok u ∧
        policyGet u.add "tag.hello" = some "glob:1.*" ∧
        policyContains u.remove "tag.sidecar" = true ∧
        policyGet u.add "tag-all" = some "glob:master-*" := by
  obtain ⟨⟨u, hu, h1, h2, h3⟩, -⟩ :=
    calculatePolicyChanges_tags exTagOpts [("hello", "1.*"), ("sidecar", "*")]
      (by decide) (by decide) (by decide)
  exact ⟨by decide, u, hu, h1 ("hello", "1.*") (by decide) (by decide),
    (h2 ("sidecar", "*") (by decide) rfl).1, h3 (by decide)⟩

/-- Counterexample to C27 as stated: with `--tag 'hello=1.*' --tag 'hello=*'`
the second pair has the pattern `*`, and `tag.hello` is in `add` all the same. -/
theorem calculatePolicyChanges_repeated_container :
    "hello=*" ∈ exTagTwiceOpts.tags ∧ split "hello=*" '=' = ["hello", "*"] ∧
      calculatePolicyChanges exTagTwiceOpts =
        .ok ⟨[("tag.hello", "glob:1.*")], [("tag.hello", "true")]⟩ ∧
      policyContains [("tag.hello", "glob:1.*")] (TagPrefix "hello") = true := by
  refine ⟨by decide, by decide, by decide, by decide⟩

/-! ## Claim on the round trip of a tag policy -/

theorem policyGet_append (a b : PolicySet) (k : String) :
    policyGet (a ++ b) k =
      match policyGet a k with
      | some v => some v
      | none => policyGet b k := by
  induction a with
  | nil => rfl
  | cons e a ih =>
    obtain ⟨k0, v⟩ := e
    by_cases h : k0 = k
    · simp [policyGet, h]
    · simp only [List.cons_append, policyGet, h, if_false]
      exact ih

theorem policyGet_filter (s : PolicySet) (f : String → Bool) (k : String) :
    policyGet (s.filter (fun e => f e.1)) k = if f k = true then policyGet s k else none := by
  induction s with
  | nil => simp [policyGet]
  | cons e s ih =>
    obtain ⟨k0, v⟩ := e
    by_cases hf : f k0 = true
    · simp only [List.filter_cons, hf, if_true, policyGet]
      by_cases h : k0 = k
      · rw [← h]
        simp [hf]
      · simp only [h, if_false]
        exact ih
    · simp only [List.filter_cons, hf, if_false, policyGet]
      by_cases h : k0 = k
      · rw [← h] at ih ⊢
        simp only [hf, if_false] at ih ⊢
        simp [ih]
      · simp only [h, if_false]
        exact ih

theorem policyGet_applyPolicyUpdate (current : PolicySet) (u : PolicyUpdate) (k : String) :
    policyGet (applyPolicyUpdate current u) k =
      if policyContains u.remove k = true then none
      else
        match policyGet u.add k with
        | some v => some v
        | none => policyGet current k := by
  unfold applyPolicyUpdate policyWithout policyUnion
  rw [policyGet_filter (u.add ++ current.filter (fun e => !policyContains u.add e.1))
    (fun key => !policyContains u.remove key) k]
  by_cases hr : policyContains u.remove k = true
  · simp [hr]
  · simp only [hr, Bool.not_eq_true, Bool.not_eq_true', if_false]
    have hr2 : policyContains u.remove k = false := by simpa using hr
    simp only [hr2, if_true]
    rw [policyGet_append]
    cases ha : policyGet u.add k with
    | some v => rfl
    | none =>
      simp only
      rw [policyGet_filter current (fun key => !policyContains u.add key) k]
      have hc : policyContains u.add k = false := by
        rw [← policyGet_isSome, ha]
        rfl
      simp [hc]

/-- C30. Round trip of a tag policy between the policy command and the image
poller: for a container `c` and a pattern `p` without `=`, the update that
`calculatePolicyChanges` computes for the one pair `--tag 'c=p'` exists, and
once it is applied to the policy set of a workload (`current ∪ add \ remove`),
`getTagPattern` for that workload and `c` returns `p`. This covers `p = "*"`,
and patterns that start with `glob:`. -/
theorem tag_policy_round_trip (opts : servicePolicyOpts) (c p : String) (current : PolicySet)
    (services : ServiceMap) (service : String)
    (htags : opts.tags = [tagPair (c, p)]) (hc : '=' ∉ c.data) (hp : '=' ∉ p.data) :
    ∃ u, calculatePolicyChanges opts = .ok u ∧
      getTagPattern ((service, applyPolicyUpdate current u) :: services) service c = p := by
  obtain ⟨u, hu, h1, h2, h3⟩ :=
    tagPairs_spec [(c, p)] (fun e he => by
      rw [List.mem_singleton] at he
      rw [he]
      exact ⟨hc, hp⟩) (by simp) (initialAdd opts) (initialRemove opts)
  refine ⟨u, ?_, ?_⟩
  · unfold calculatePolicyChanges
    rw [htags]
    exact hu
  · have hkey : "tag." ++ c = TagPrefix c := rfl
    have hs : policiesOf ((service, applyPolicyUpdate current u) :: services) service =
        applyPolicyUpdate current u := by
      simp [policiesOf]
    unfold getTagPattern
    rw [hs, hkey, policyGet_applyPolicyUpdate]
    by_cases hstar : p = "*"
    · obtain ⟨hr, -⟩ := h3 (c, p) (List.mem_singleton.mpr rfl) hstar
      simp only [hr, if_true]
      exact hstar.symm
    · obtain ⟨ha, hr⟩ := h2 (c, p) (List.mem_singleton.mpr rfl) hstar
      have hr2 : policyContains u.remove (TagPrefix c) = false := by
        have := initialRemove_no_tag opts c
        simpa [this] using hr
      simp only [hr2, Bool.false_eq_true, if_false]
      have ha2 : policyGet u.add (TagPrefix c) = some ("glob:" ++ p) := ha
      rw [ha2]
      exact trimPrefix_glob p

/-- Witness of C30: the pattern `glob:1.*`, which itself starts with `glob:`,
comes back whole for a workload that had the pattern `old` before. -/
theorem tag_policy_round_trip_witness :
    exTagGlobOpts.tags = [tagPair ("hello", "glob:1.*")] ∧
      ∃ u, calculatePolicyChanges exTagGlobOpts = .ok u ∧
        getTagPattern [("default/hello", applyPolicyUpdate [("tag.hello", "glob:old")] u)]
          "default/hello" "hello" = "glob:1.*" :=
  ⟨by decide, tag_policy_round_trip exTagGlobOpts "hello" "glob:1.*"
    [("tag.hello", "glob:old")] [] "default/hello" (by decide) (by decide) (by decide)⟩

/-! ## Claim on the key of a release job -/

theorem joinWith_key_inj (a x s1 s2 t : String) :
    joinWith "|" [a, x, s1, t] = joinWith "|" [a, x, s2, t] ↔ s1 = s2 := by
  constructor
  · intro h
    have h2 := congrArg String.data h
    simp only [joinWith, String.data_append, List.append_assoc, List.append_cancel_left_eq,
      List.append_cancel_right_eq] at h2
    exact String.ext h2
  · intro h
    rw [h]

/-- C21. Every release job among the follow-ups of the automated-instance
handler for the instance `instanceID` is the job `releaseFollowUp` builds for
its image, of kind execute, and its key is the release job name, the instance,
the string of the image and `automated`, joined by `|`. Hence two such jobs of
one instance have the same key exactly when the strings of their images are the
same: equal keys for the same image, and, as long as different images have
different strings, different keys for different images. -/
theorem releaseFollowUp_key (env : AutomatorEnv) (now : Int) (j : AutomatorJob)
    (instanceID : String) (followUps : List AutomatorJob) (err : Option String)
    (hj : j.params = .automatedInstance instanceID)
    (hh : handleAutomatedInstanceJob env now j = some (followUps, err)) :
    (∀ f ∈ followUps, ∀ services imageID kind, f.params = .release services imageID kind →
      f = releaseFollowUp env instanceID imageID services ∧
        f.key = joinWith "|" ["release", instanceID, env.imageString imageID, "automated"]) ∧
    (∀ (i1 i2 : ImageRef) (s1 s2 : List String),
      (releaseFollowUp env instanceID i1 s1).key = (releaseFollowUp env instanceID i2 s2).key ↔
        env.imageString i1 = env.imageString i2) ∧
    (Function.Injective env.imageString → ∀ (i1 i2 : ImageRef) (s1 s2 : List String), i1 ≠ i2 →
      (releaseFollowUp env instanceID i1 s1).key ≠
        (releaseFollowUp env instanceID i2 s2).key) := by
  refine ⟨?_, fun i1 i2 s1 s2 => joinWith_key_inj _ _ _ _ _,
    fun hinj i1 i2 s1 s2 hne h => hne (hinj ((joinWith_key_inj _ _ _ _ _).mp h))⟩
  have hauto : ∀ f, f = automatedInstanceJob j.instanceID now →
      ∀ services imageID kind, f.params ≠ .release services imageID kind := by
    intro f hf services imageID kind h
    rw [hf] at h
    simp [automatedInstanceJob] at h
  have hrel : ∀ f, ∀ e : ImageRef × List String, f = releaseFollowUp env instanceID e.1 e.2 →
      ∀ services imageID kind, f.params = .release services imageID kind →
        f = releaseFollowUp env instanceID imageID services ∧
          f.key = joinWith "|" ["release", instanceID, env.imageString imageID, "automated"] := by
    intro f e hf services imageID kind h
    rw [hf] at h
    simp only [releaseFollowUp, JobParams.release.injEq] at h
    obtain ⟨h1, h2, -⟩ := h
    rw [hf, h1, h2]
    exact ⟨rfl, rfl⟩
  intro f hf services imageID kind hp
  unfold handleAutomatedInstanceJob at hh
  rw [hj] at hh
  simp only at hh
  split at hh
  · simp only [Option.some.injEq, Prod.mk.injEq] at hh
    rw [← hh.1, List.mem_singleton] at hf
    exact absurd hp (hauto f hf _ _ _)
  · split at hh
    · simp only [Option.some.injEq, Prod.mk.injEq] at hh
      rw [← hh.1] at hf
      cases hf
    · split at hh
      · simp only [Option.some.injEq, Prod.mk.injEq] at hh
        rw [← hh.1, List.mem_singleton] at hf
        exact absurd hp (hauto f hf _ _ _)
      · split at hh
        · simp only [Option.some.injEq, Prod.mk.injEq] at hh
          rw [← hh.1, List.mem_singleton] at hf
          exact absurd hp (hauto f hf _ _ _)
        · split at hh
          · simp only [Option.some.injEq, Prod.mk.injEq] at hh
            rw [← hh.1] at hf
            cases hf
          · split at hh
            · simp only [Option.some.injEq, Prod.mk.injEq] at hh
              rw [← hh.1, List.mem_singleton] at hf
              exact absurd hp (hauto f hf _ _ _)
            · split at hh
              · simp only [Option.some.injEq, Prod.mk.injEq] at hh
                rw [← hh.1, List.mem_singleton] at hf
                exact absurd hp (hauto f hf _ _ _)
              · simp only [Option.some.injEq, Prod.mk.injEq] at hh
                rw [← hh.1] at hf
                rcases List.mem_append.mp hf with hf | hf
                · rw [List.mem_singleton] at hf
                  exact absurd hp (hauto f hf _ _ _)
                · obtain ⟨e, -, he⟩ := List.mem_map.mp hf
                  exact hrel f e he.symm _ _ _ hp

/-- Witness of C21: the release job for the image `img:v2` of the instance
`inst` has the key `release|inst|img:v2|automated`. -/
theorem releaseFollowUp_key_witness :
    releaseFollowUp exEnvNewer "inst" exImg2 ["default/hello"] ∈
        [automatedInstanceJob "inst" 100,
          releaseFollowUp exEnvNewer "inst" exImg2 ["default/hello"]] ∧
      (releaseFollowUp exEnvNewer "inst" exImg2 ["default/hello"]).key =
        joinWith "|" ["release", "inst", exEnvNewer.imageString exImg2, "automated"] ∧
      joinWith "|" ["release", "inst", exEnvNewer.imageString exImg2, "automated"] =
        "release|inst|img:v2|automated" :=
  ⟨by decide,
    ((releaseFollowUp_key exEnvNewer 100 exAutoJob "inst"
      [automatedInstanceJob "inst" 100, releaseFollowUp exEnvNewer "inst" exImg2 ["default/hello"]]
      none rfl (by decide)).1 _ (by decide) ["default/hello"] exImg2 "execute" rfl).2,
    by decide⟩

/-! ## Claim on a ready job in the daemon loop -/

/-- C24. In the pass of the daemon loop that handles a ready job, the loop runs
the job and then calls `askForSync` exactly when the job returned no error: the
number of `askForSync` calls grows by one if and only if the error is nil, and
then the sync signal is what `askForSync` makes of it. After a failed job the
sync signal is as it was and the job is the only call of the pass. -/
theorem loopStep_job_asks_iff (d : LoopState) (jobID : String) (err : Option String) :
    ((loopStep d (.ready jobID err)).calls.count .askForSync =
        d.calls.count .askForSync + 1 ↔ err = none) ∧
      (err = none → (loopStep d (.ready jobID err)).sync = askForSync d.sync ∧
        (loopStep d (.ready jobID err)).calls = d.calls ++ [.jobDo jobID, .askForSync]) ∧
      (err ≠ none → (loopStep d (.ready jobID err)).sync = d.sync ∧
        (loopStep d (.ready jobID err)).calls = d.calls ++ [.jobDo jobID]) := by
  cases err with
  | none =>
    refine ⟨?_, fun _ => ⟨rfl, rfl⟩, fun h => absurd rfl h⟩
    simp only [loopStep, List.count_append, iff_true]
    rfl
  | some e =>
    refine ⟨?_, fun h => (by cases h), fun _ => ⟨rfl, rfl⟩⟩
    simp only [loopStep, List.count_append]
    have h0 : List.count LoopCall.askForSync [LoopCall.jobDo jobID] = 0 := by
      simp [List.count_cons]
    simp [h0]

/-! ## Claim on the cluster sync -/

theorem makeStackLoop_eq (m : List (String × Resource)) (resources : List Resource) :
    makeStackLoop m resources = resources ++ m.map Prod.snd := by
  induction m generalizing resources with
  | nil => simp [makeStackLoop]
  | cons e m ih =>
    obtain ⟨k, res⟩ := e
    simp only [makeStackLoop, ih, List.map_cons, List.append_assoc, List.singleton_append]

/-- C26. `Sync` hands the cluster driver one definition with exactly one stack,
named `default`, whose resources are the values of the input map, one for each
entry and nothing else, and it returns what the driver returns. In whatever
order the map is visited, the resources of the stack are those values up to
their order. -/
theorem Sync_default_stack (repoResources : ResourceMap) (clus : SyncDef → Option String) :
    Sync repoResources clus = clus ⟨[⟨"default", repoResources.map Prod.snd⟩]⟩ ∧
      (makeStack "default" repoResources).Resources.length = repoResources.length ∧
      ∀ visited : ResourceMap, repoResources.Perm visited →
        (makeStack "default" visited).Resources.Perm (repoResources.map Prod.snd) := by
  have hs : ∀ m : ResourceMap, makeStack "default" m = ⟨"default", m.map Prod.snd⟩ := by
    intro m
    simp [makeStack, makeStackLoop_eq]
  refine ⟨?_, ?_, ?_⟩
  · unfold Sync
    simp only [hs]
    cases clus ⟨[⟨"default", repoResources.map Prod.snd⟩]⟩ <;> rfl
  · rw [hs]
    simp
  · intro visited hp
    rw [hs]
    exact (hp.map Prod.snd).symm

/-! ## Claim on the submission of polled changes -/

theorem pollContainers_mem (ops : ImageOps) (cands : ServiceMap) (imageMap : ImageMap)
    (serviceID : String) (cs : List ClusterContainer) (changes : List Change) (ch : Change) :
    ch ∈ pollContainers ops cands imageMap serviceID cs changes ↔
      ch ∈ changes ∨ ∃ container ∈ cs, AddsChange ops cands imageMap serviceID container ch := by
  induction cs generalizing changes with
  | nil => simp [pollContainers]
  | cons k rest ih =>
    have hskip : (¬ ∃ x, AddsChange ops cands imageMap serviceID k x) →
        ∀ l : List Change, (ch ∈ l ∨ ∃ container ∈ rest,
            AddsChange ops cands imageMap serviceID container ch) ↔
          (ch ∈ l ∨ ∃ container ∈ k :: rest,
            AddsChange ops cands imageMap serviceID container ch) := by
      intro hno l
      constructor
      · rintro (h | ⟨c, hc, h⟩)
        · exact Or.inl h
        · exact Or.inr ⟨c, List.mem_cons_of_mem _ hc, h⟩
      · rintro (h | ⟨c, hc, h⟩)
        · exact Or.inl h
        · rcases List.mem_cons.mp hc with rfl | hc
          · exact absurd ⟨ch, h⟩ hno
          · exact Or.inr ⟨c, hc, h⟩
    unfold pollContainers
    cases hp : ops.parseImageID k.image with
    | error e =>
      simp only
      rw [ih]
      apply hskip
      rintro ⟨x, cur, latest, h1, -⟩
      rw [hp] at h1
      cases h1
    | ok cur =>
      simp only
      cases hl : ops.latestImage imageMap (ops.repositoryOf cur)
          (getTagPattern cands serviceID k.name) with
      | none =>
        simp only
        rw [ih]
        apply hskip
        rintro ⟨x, cur2, latest, h1, h2, -⟩
        rw [hp] at h1
        cases h1
        rw [hl] at h2
        cases h2
      | some latest =>
        simp only
        by_cases hne : latest.id = cur
        · simp only [hne, ne_eq, not_true_eq_false, if_false]
          rw [ih]
          apply hskip
          rintro ⟨x, cur2, latest2, h1, h2, h3, -⟩
          rw [hp] at h1
          cases h1
          rw [hl] at h2
          cases h2
          exact h3 hne
        · simp only [hne, ne_eq, not_false_eq_true, if_true]
          rw [ih]
          constructor
          · rintro (h | ⟨c, hc, h⟩)
            · rcases List.mem_append.mp h with h | h
              · exact Or.inl h
              · rw [List.mem_singleton] at h
                exact Or.inr ⟨k, List.mem_cons_self _ _, cur, latest, hp, hl, hne, h⟩
            · exact Or.inr ⟨c, List.mem_cons_of_mem _ hc, h⟩
          · rintro (h | ⟨c, hc, h⟩)
            · exact Or.inl (List.mem_append_left _ h)
            · rcases List.mem_cons.mp hc with rfl | hc
              · obtain ⟨cur2, latest2, h1, h2, -, h4⟩ := h
                rw [hp] at h1
                cases h1
                rw [hl] at h2
                cases h2
                exact Or.inl (List.mem_append_right _ (List.mem_singleton.mpr h4))
              · exact Or.inr ⟨c, hc, h⟩

theorem pollServices_mem (ops : ImageOps) (cands : ServiceMap) (imageMap : ImageMap)
    (services : List Service) (changes : List Change) (ch : Change) :
    ch ∈ pollServices ops cands imageMap services changes ↔
      ch ∈ changes ∨ ∃ s ∈ services, ∃ container ∈ s.ContainersOrNil,
        AddsChange ops cands imageMap s.id container ch := by
  induction services generalizing changes with
  | nil => simp [pollServices]
  | cons s rest ih =>
    simp only [pollServices]
    rw [ih, pollContainers_mem]
    constructor
    · rintro ((h | h) | ⟨s2, hs2, h⟩)
      · exact Or.inl h
      · exact Or.inr ⟨s, List.mem_cons_self _ _, h⟩
      · exact Or.inr ⟨s2, List.mem_cons_of_mem _ hs2, h⟩
    · rintro (h | ⟨s2, hs2, h⟩)
      · exact Or.inl (Or.inl h)
      · rcases List.mem_cons.mp hs2 with rfl | hs2
        · exact Or.inl (Or.inr h)
        · exact Or.inr ⟨s2, hs2, h⟩

/-- C25, as amended. When there are unlocked automated workloads and the
queries of the cluster and of the registry succeed, `PollImages` hands
`ReleaseChanges` the changes it has collected, and `UpdateManifests` is called
once, with a spec of type images, an empty cause and those changes, whether
there are any or not. A change is among them exactly when it is for a container
of a queried workload whose image parses and for which `LatestImage` gives an
image other than the current one. A run of `PollImages` makes no call of
`UpdateManifests` only when it returns before its last statement. -/
theorem PollImages_submits (ops : ImageOps) (d : Daemon) (cands : ServiceMap)
    (services : List Service)
    (hc : d.unlockedAutomatedServices = .ok cands) (hne : cands ≠ [])
    (hs : d.SomeServices cands.ToSlice = .ok services)
    (hi : (CollectAvailableImages ops d.registry services).err = none) :
    (∃ changes, d.PollImages ops = .released changes ∧
      d.pollSubmissions ops = [UpdateSpec.mk Images ⟨"", ""⟩ changes] ∧
      ∀ ch, ch ∈ changes.changes ↔
        ∃ s ∈ services, ∃ container ∈ s.ContainersOrNil,
          AddsChange ops cands ((CollectAvailableImages ops d.registry services).images.getD [])
            s.id container ch) ∧
    ∀ d2 : Daemon, d2.pollSubmissions ops = [] ↔
      ∀ changes, d2.PollImages ops ≠ .released changes := by
  constructor
  · have hlen : ¬ cands.length = 0 := by
      intro h
      exact hne (List.length_eq_zero.mp h)
    have hpoll : d.PollImages ops = .released (Automated.mk (pollServices ops cands
        ((CollectAvailableImages ops d.registry services).images.getD []) services [])) := by
      unfold Daemon.PollImages
      simp only [hc, hlen, if_false, hs, hi]
    refine ⟨_, hpoll, ?_, ?_⟩
    · unfold Daemon.pollSubmissions
      rw [hpoll]
      rfl
    · intro ch
      rw [pollServices_mem]
      simp
  · intro d2
    unfold Daemon.pollSubmissions
    cases h : d2.PollImages ops with
    | released changes => simp [Daemon.ReleaseChanges]
    | failed stage e => simp
    | noAutomatedServices => simp

/-- Witness of C25: the automated `default/web` runs `img` and the latest image
is `img:v2`, so one change is collected and submitted. -/
theorem PollImages_submits_witness :
    ∃ changes, exDaemon.PollImages exImageOps = .released changes ∧
      exDaemon.pollSubmissions exImageOps = [UpdateSpec.mk Images ⟨"", ""⟩ changes] ∧
      changes.changes.length = 1 := by
  obtain ⟨⟨changes, h1, h2, -⟩, -⟩ := PollImages_submits exImageOps exDaemon
    [("default/web", [("automated", "true"), ("tag.web", "glob:1.*")])]
    [⟨"default/web", .ok [⟨"web", "img"⟩]⟩] (by decide) (by decide) rfl (by decide)
  refine ⟨changes, h1, h2, ?_⟩
  have hval : exDaemon.PollImages exImageOps =
      .released ⟨[⟨"default/web", ⟨"web", "img"⟩, exImg2⟩]⟩ := by decide
  rw [hval] at h1
  cases h1
  rfl

/-- Counterexample to C25 as stated: the one automated workload already runs
the only image the registry has, so `LatestImage` gives the current image, the
change set is empty, and `UpdateManifests` is called with it all the same. -/
theorem PollImages_empty_changes_submitted :
    exDaemonCurrent.PollImages exImageOpsSource = .released ⟨[]⟩ ∧
      exDaemonCurrent.pollSubmissions exImageOpsSource =
        [UpdateSpec.mk Images ⟨"", ""⟩ ⟨[]⟩] ∧
      exDaemonCurrent.pollSubmissions exImageOpsSource ≠ [] := by
  refine ⟨by decide, by decide, by decide⟩

/-! ## Claim on the sync event -/

/-- C23. When the pull, the working clone and the loads of the manifests
succeed, `pullAndSync` gives `LogEvent` an event if and only if the revision
list it computed is not empty; there is at most one event, it is of type sync,
its metadata is exactly that revision list, and its start and end are both the
time the call started. The revision list is that of `RevisionsBefore("HEAD")`
when the range from the sync tag fails with an unknown revision, and that of the
range otherwise. -/
theorem pullAndSync_event (d : SyncDaemon) (started : Int) (working : Working)
    (allResources : ResourceMap)
    (hpull : d.pull = none) (hclone : d.workingClone = .ok working)
    (hload : d.loadManifests [working.ManifestDir] = .ok allResources)
    (hchanged : (working.ChangedFiles working.SyncTag).2 = none →
      ∃ changed, d.loadManifests (working.ChangedFiles working.SyncTag).1 = .ok changed) :
    ((pullAndSync d started).events ≠ [] ↔ (computedRevisions working).1 ≠ []) ∧
      (pullAndSync d started).events.length ≤ 1 ∧
      (∀ ev ∈ (pullAndSync d started).events,
        ev.type = EventSync ∧ ev.metadata = (computedRevisions working).1 ∧
          ev.startedAt = started ∧ ev.endedAt = started) ∧
      (computedRevisions working).1 =
        (if isUnknownRevision (working.RevisionsBetween (working.SyncTag ++ "~1") "HEAD").2
          then (working.RevisionsBefore "HEAD").1
          else (working.RevisionsBetween (working.SyncTag ++ "~1") "HEAD").1) := by
  have hch : ∃ changed, changedResources d working allResources = some changed := by
    unfold changedResources
    cases hf : working.ChangedFiles working.SyncTag with
    | mk files err =>
      rw [hf] at hchanged
      cases err with
      | none =>
        obtain ⟨changed, h⟩ := hchanged rfl
        simp only at h
        simp only [h]
        exact ⟨changed, rfl⟩
      | some e =>
        simp only
        split
        · exact ⟨_, rfl⟩
        · exact ⟨_, rfl⟩
  obtain ⟨changed, hch⟩ := hch
  have hrun : pullAndSync d started =
      if (computedRevisions working).1.length > 0 then
        SyncRun.mk [allResources] [Event.mk (d.collectServiceIDs changed allResources) EventSync
          started started LogLevelInfo (computedRevisions working).1] true
      else SyncRun.mk [allResources] [] true := by
    unfold pullAndSync
    simp only [hpull, hclone, hload, hch]
  refine ⟨?_, ?_, ?_, ?_⟩
  · rw [hrun]
    cases hr : (computedRevisions working).1 with
    | nil => simp
    | cons r rest => simp
  · rw [hrun]
    split <;> simp
  · intro ev hev
    rw [hrun] at hev
    split at hev
    · rw [List.mem_singleton] at hev
      rw [hev]
      exact ⟨rfl, rfl, rfl, rfl⟩
    · cases hev
  · unfold computedRevisions
    cases hb : working.RevisionsBetween (working.SyncTag ++ "~1") "HEAD" with
    | mk revisions err =>
      simp only
      split <;> rfl

/-- Witness of C23: without a sync tag the two revisions before `HEAD` are
computed, and one sync event carries them. -/
theorem pullAndSync_event_witness :
    (pullAndSync exSyncDaemon 7).events ≠ [] ∧
      (computedRevisions exWorking).1 = ["r1", "r2"] ∧
      (pullAndSync exSyncDaemon 7).events =
        [Event.mk ["default/hello", "default/svc"] EventSync 7 7 LogLevelInfo ["r1", "r2"]] := by
  have h := pullAndSync_event exSyncDaemon 7 exWorking exBefore rfl rfl rfl
    (fun h => absurd h (by decide))
  exact ⟨h.1.mpr (by decide), by decide, by decide⟩

end Flux
